import Mathlib

/-!
# Verification of the MST algorithms (Kruskal / Prim) of this repository

Shallow embedding of the TypeScript sources:
* `src/interface.ts` — `Edge`, `Graph`, `PrimQueueItem`, and the `DisjointSet` class;
* `src/kruskal/...` (`kruskalMST`) and `src/prim/...` (`primMST`, `PriorityQueue`).

Modelling conventions:
* `VertexId = number` is modelled as `Nat` (the repository uses small non-negative
  integer ids); `weight: number` is modelled as `ℚ` (weights may be fractional).
* A JavaScript `Map` is modelled as an insertion-ordered association list:
  `set` overwrites the value of an existing key in place, otherwise appends.
* JavaScript exceptions are modelled with `Except String`.
* The recursive `findSet` of `DisjointSet` is modelled with explicit fuel
  (`parent.length + 1`); under the representation invariant established by the
  constructor and preserved by every operation the fuel is never exhausted, which
  is proved below, so the fueled function computes exactly what the source does.
* `Array.prototype.sort` with comparator `(a, b) => a.weight - b.weight` is a
  stable ascending sort by weight (ES2019 guarantees sort stability, and a stable
  sort w.r.t. a total preorder has a unique result), hence it is modelled by
  `List.mergeSort` with `a.weight ≤ b.weight`.
-/

namespace MstSpec

abbrev VertexId := Nat

/-- `Edge` of `src/interface.ts`: `{u: VertexId, v: VertexId, weight: number}`. -/
structure Edge where
  u : VertexId
  v : VertexId
  weight : ℚ
deriving DecidableEq, Repr

/-- An entry of the adjacency list: `{ to: VertexId; weight: number }`
(`toV` models the field named `to` in the source, a Lean keyword). -/
structure AdjEntry where
  toV : VertexId
  weight : ℚ
deriving DecidableEq, Repr

/-- `Graph` of `src/interface.ts`. `adjList` is a JavaScript `Map` modelled as an
association list. -/
structure Graph where
  vertices : List VertexId
  edges : List Edge
  adjList : List (VertexId × List AdjEntry)
deriving DecidableEq, Repr

/-- `Map.get`: the value of the first (and, with distinct keys, only) entry. -/
def mapGet {β : Type _} (m : List (VertexId × β)) (k : VertexId) : Option β :=
  (m.find? (fun p => p.1 = k)).map (·.2)

/-- `Map.set`: overwrite an existing key in place, otherwise append. -/
def mapSet {β : Type _} (m : List (VertexId × β)) (k : VertexId) (v : β) :
    List (VertexId × β) :=
  if (m.find? (fun p => p.1 = k)).isSome then
    m.map (fun p => if p.1 = k then (k, v) else p)
  else
    m ++ [(k, v)]

/-- The keys of a modelled `Map`, in insertion order. -/
def keys {β : Type _} (m : List (VertexId × β)) : List VertexId := m.map (·.1)

theorem mapGet_isSome_iff {β : Type _} (m : List (VertexId × β)) (k : VertexId) :
    (mapGet m k).isSome ↔ k ∈ keys m := by
  simp only [mapGet, keys, Option.isSome_map', List.find?_isSome, List.mem_map]
  constructor
  · rintro ⟨p, hp, hk⟩
    exact ⟨p, hp, by simpa using hk⟩
  · rintro ⟨p, hp, hk⟩
    exact ⟨p, hp, by simpa using hk⟩

theorem mapGet_eq_none_iff {β : Type _} (m : List (VertexId × β)) (k : VertexId) :
    mapGet m k = none ↔ k ∉ keys m := by
  rw [← mapGet_isSome_iff, ← Option.not_isSome_iff_eq_none]

theorem mem_of_mapGet_eq_some {β : Type _} {m : List (VertexId × β)} {k : VertexId} {v : β}
    (h : mapGet m k = some v) : (k, v) ∈ m := by
  simp only [mapGet, Option.map_eq_some'] at h
  rcases h with ⟨p, hp, hv⟩
  have hk : p.1 = k := by simpa using List.find?_some hp
  have := List.mem_of_find?_eq_some hp
  rwa [show p = (k, v) from Prod.ext hk hv] at this

theorem mapGet_set_self {β : Type _} (m : List (VertexId × β)) (k : VertexId) (v : β) :
    mapGet (mapSet m k v) k = some v := by
  unfold mapGet mapSet
  by_cases h : (m.find? (fun p => p.1 = k)).isSome
  · rw [if_pos h, List.find?_map]
    have hp : ((fun p : VertexId × β => decide (p.1 = k)) ∘
        (fun p => if p.1 = k then (k, v) else p)) = fun p : VertexId × β => decide (p.1 = k) := by
      funext p; by_cases hpk : p.1 = k <;> simp [hpk]
    rw [hp]
    rcases ho : m.find? (fun p => decide (p.1 = k)) with _ | p0
    · rw [ho] at h; simp at h
    · have hk : p0.1 = k := by simpa using List.find?_some ho
      rw [ho]
      simp [hk]
  · rw [if_neg h, List.find?_append]
    rcases ho : m.find? (fun p => decide (p.1 = k)) with _ | p0
    · rw [ho]
      simp
    · rw [ho] at h; simp at h

theorem mapGet_set_ne {β : Type _} (m : List (VertexId × β)) (k k' : VertexId) (v : β)
    (hne : k' ≠ k) : mapGet (mapSet m k v) k' = mapGet m k' := by
  unfold mapGet mapSet
  by_cases h : (m.find? (fun p => p.1 = k)).isSome
  · rw [if_pos h, List.find?_map]
    have hp : ((fun p : VertexId × β => decide (p.1 = k')) ∘
        (fun p => if p.1 = k then (k, v) else p)) = fun p : VertexId × β => decide (p.1 = k') := by
      funext p
      by_cases hpk : p.1 = k
      · simp [hpk, Ne.symm hne, hne]
      · simp [hpk]
    rw [hp]
    rcases ho : m.find? (fun p => decide (p.1 = k')) with _ | p0
    · rw [ho]; simp
    · have hk : p0.1 = k' := by simpa using List.find?_some ho
      have hpk : ¬ p0.1 = k := by rw [hk]; exact hne
      rw [ho]
      simp [hpk]
  · rw [if_neg h, List.find?_append]
    rcases ho : m.find? (fun p => decide (p.1 = k')) with _ | p0
    · rw [ho]; simp [Ne.symm hne]
    · rw [ho]; simp

theorem mem_keys_mapSet_iff {β : Type _} (m : List (VertexId × β)) (k k' : VertexId) (v : β) :
    k' ∈ keys (mapSet m k v) ↔ k' ∈ keys m ∨ k' = k := by
  constructor
  · intro h
    by_cases hk : k' = k
    · exact Or.inr hk
    · refine Or.inl ?_
      rw [← mapGet_isSome_iff] at h ⊢
      rwa [mapGet_set_ne m k k' v hk] at h
  · intro h
    rw [← mapGet_isSome_iff]
    rcases h with h | h
    · by_cases hk : k' = k
      · subst hk; simp [mapGet_set_self]
      · rw [mapGet_set_ne m k k' v hk]
        rwa [mapGet_isSome_iff]
    · subst h; simp [mapGet_set_self]

theorem length_mapSet_of_mem {β : Type _} (m : List (VertexId × β)) (k : VertexId) (v : β)
    (h : k ∈ keys m) : (mapSet m k v).length = m.length := by
  have hs : (m.find? (fun p => p.1 = k)).isSome := by
    simp only [keys, List.mem_map] at h
    rcases h with ⟨p, hp, hk⟩
    exact List.find?_isSome.mpr ⟨p, hp, by simpa using hk⟩
  simp [mapSet, hs]

theorem keys_mapSet_of_mem {β : Type _} (m : List (VertexId × β)) (k : VertexId) (v : β)
    (h : k ∈ keys m) : keys (mapSet m k v) = keys m := by
  have hs : (m.find? (fun p => p.1 = k)).isSome := by
    simp only [keys, List.mem_map] at h
    rcases h with ⟨p, hp, hk⟩
    exact List.find?_isSome.mpr ⟨p, hp, by simpa using hk⟩
  simp only [mapSet, if_pos hs, keys, List.map_map]
  congr 1
  funext p
  by_cases hpk : p.1 = k <;> simp [hpk]

theorem keys_mapSet_of_not_mem {β : Type _} (m : List (VertexId × β)) (k : VertexId) (v : β)
    (h : k ∉ keys m) : keys (mapSet m k v) = keys m ++ [k] := by
  have hs : ¬ (m.find? (fun p => p.1 = k)).isSome := by
    rw [List.find?_isSome]
    rintro ⟨p, hp, hk⟩
    exact h (by simp only [keys, List.mem_map]; exact ⟨p, hp, by simpa using hk⟩)
  simp [mapSet, hs, keys]

/-- The adjacency lookup `g.adjList.get(v) ?? []` used by Prim's algorithm:
a vertex with no entry at all falls back to the empty neighbor list. -/
def neighborsOf (g : Graph) (v : VertexId) : List AdjEntry :=
  (mapGet g.adjList v).getD []

/-- The `Graph` invariants of the specification (§3): the vertex list is a set,
every vertex appearing in an edge or in the adjacency list appears in
`vertices`, and `adjList` is the symmetric closure of `edges`. -/
structure WFGraph (g : Graph) : Prop where
  nodupV : g.vertices.Nodup
  edgeEnds : ∀ e ∈ g.edges, e.u ∈ g.vertices ∧ e.v ∈ g.vertices
  edgeAdj : ∀ e ∈ g.edges, (⟨e.v, e.weight⟩ : AdjEntry) ∈ neighborsOf g e.u ∧
    (⟨e.u, e.weight⟩ : AdjEntry) ∈ neighborsOf g e.v
  adjEdge : ∀ v ∈ keys g.adjList, ∀ entry ∈ neighborsOf g v,
    (⟨v, entry.toV, entry.weight⟩ : Edge) ∈ g.edges ∨
    (⟨entry.toV, v, entry.weight⟩ : Edge) ∈ g.edges
  adjKeys : ∀ v ∈ keys g.adjList, v ∈ g.vertices

theorem WFGraph.adjEdge' {g : Graph} (hwf : WFGraph g) (v : VertexId) :
    ∀ entry ∈ neighborsOf g v,
      (⟨v, entry.toV, entry.weight⟩ : Edge) ∈ g.edges ∨
      (⟨entry.toV, v, entry.weight⟩ : Edge) ∈ g.edges := by
  intro entry he
  by_cases hv : v ∈ keys g.adjList
  · exact hwf.adjEdge v hv entry he
  · rw [neighborsOf, (mapGet_eq_none_iff _ _).mpr hv] at he
    simp at he

/-- An adjacency entry's target is a registered vertex (in a well-formed graph). -/
theorem WFGraph.adjTarget {g : Graph} (hwf : WFGraph g) (v : VertexId) :
    ∀ entry ∈ neighborsOf g v, entry.toV ∈ g.vertices := by
  intro entry he
  rcases hwf.adjEdge' v entry he with h | h
  · exact (hwf.edgeEnds _ h).2
  · exact (hwf.edgeEnds _ h).1

/-- A graph with no vertices has no edges (in a well-formed graph). -/
theorem WFGraph.edges_nil {g : Graph} (hwf : WFGraph g) (h : g.vertices = []) :
    g.edges = [] := by
  rw [List.eq_nil_iff_forall_not_mem]
  intro e he
  have := (hwf.edgeEnds e he).1
  rw [h] at this
  simp at this

/-! ## The undirected graph spanned by a list of edges

Used to state connectivity ("connects all vertices") and acyclicity
("contains no cycle") of an edge sequence, via Mathlib's `SimpleGraph`. -/

/-- The simple graph on `ℕ` whose edges are the unordered endpoint pairs of the
edges in `T` (self-loops contribute nothing). -/
def graphOfEdges (T : List Edge) : SimpleGraph ℕ :=
  SimpleGraph.fromEdgeSet {p | ∃ e ∈ T, p = s(e.u, e.v)}

theorem graphOfEdges_adj (T : List Edge) (x y : ℕ) :
    (graphOfEdges T).Adj x y ↔ (∃ e ∈ T, s(e.u, e.v) = s(x, y)) ∧ x ≠ y := by
  simp only [graphOfEdges, SimpleGraph.fromEdgeSet_adj, Set.mem_setOf_eq]
  constructor
  · rintro ⟨⟨e, he, hp⟩, hne⟩
    exact ⟨⟨e, he, hp.symm⟩, hne⟩
  · rintro ⟨⟨e, he, hp⟩, hne⟩
    exact ⟨⟨e, he, hp.symm⟩, hne⟩

/-- Edge lists with the same members span the same graph. -/
theorem graphOfEdges_congr {T₁ T₂ : List Edge} (h : ∀ e, e ∈ T₁ ↔ e ∈ T₂) :
    graphOfEdges T₁ = graphOfEdges T₂ := by
  unfold graphOfEdges
  congr 1
  ext p
  simp only [Set.mem_setOf_eq]
  constructor
  · rintro ⟨e, he, hp⟩; exact ⟨e, (h e).mp he, hp⟩
  · rintro ⟨e, he, hp⟩; exact ⟨e, (h e).mpr he, hp⟩

theorem graphOfEdges_mono {T₁ T₂ : List Edge} (h : ∀ e, e ∈ T₁ → e ∈ T₂) :
    graphOfEdges T₁ ≤ graphOfEdges T₂ := by
  intro x y hxy
  rw [graphOfEdges_adj] at hxy ⊢
  rcases hxy with ⟨⟨e, he, hp⟩, hne⟩
  exact ⟨⟨e, h e he, hp⟩, hne⟩

theorem graphOfEdges_nil : graphOfEdges [] = ⊥ := by
  unfold graphOfEdges
  have : {p : Sym2 ℕ | ∃ e ∈ ([] : List Edge), p = s(e.u, e.v)} = ∅ := by
    ext p; simp
  rw [this]
  exact SimpleGraph.fromEdgeSet_empty

/-- Two vertices joined by a listed edge are reachable from one another. -/
theorem reachable_of_mem (T : List Edge) (e : Edge) (he : e ∈ T) :
    (graphOfEdges T).Reachable e.u e.v := by
  by_cases hne : e.u = e.v
  · rw [hne]
  · exact SimpleGraph.Adj.reachable ((graphOfEdges_adj T e.u e.v).mpr ⟨⟨e, he, rfl⟩, hne⟩)

/-- A vertex that is an endpoint of no edge of `T` reaches only itself. -/
theorem reachable_isolated (T : List Edge) (x y : ℕ)
    (hx : ∀ e ∈ T, e.u ≠ x ∧ e.v ≠ x) (h : (graphOfEdges T).Reachable x y) : x = y := by
  rcases h with ⟨w⟩
  cases w with
  | nil => rfl
  | cons hadj _ =>
    rename_i z _
    rw [graphOfEdges_adj] at hadj
    rcases hadj.1 with ⟨e, he, hp⟩
    rw [Sym2.eq_iff] at hp
    rcases hp with ⟨hu, -⟩ | ⟨-, hv⟩
    · exact absurd hu (hx e he).1
    · exact absurd hv (hx e he).2

/-- Reachability respects any transitive relation that covers every adjacency
of the spanned graph (or the endpoints are equal). -/
theorem reachable_to_rel (T : List Edge) (R : ℕ → ℕ → Prop)
    (htrans : ∀ a b c, R a b → R b c → R a c)
    (hadj : ∀ x y, (graphOfEdges T).Adj x y → R x y)
    (u v : ℕ) (h : (graphOfEdges T).Reachable u v) : R u v ∨ u = v := by
  rcases h with ⟨w⟩
  induction w with
  | nil => exact Or.inr rfl
  | cons hxz w ih =>
    rename_i x z y
    have hR : R x z := hadj _ _ hxz
    rcases ih with hzy | hzy
    · exact Or.inl (htrans _ _ _ hR hzy)
    · rw [hzy] at hR
      exact Or.inl hR

/-- Appending one edge to the edge list: reachability in the extended graph
decomposes into reachability in the old graph, possibly crossing the new edge
(once — in either direction). -/
theorem reachable_snoc_iff (T : List Edge) (e : Edge) (x y : ℕ) :
    (graphOfEdges (T ++ [e])).Reachable x y ↔
      ((graphOfEdges T).Reachable x y ∨
       ((graphOfEdges T).Reachable x e.u ∧ (graphOfEdges T).Reachable e.v y) ∨
       ((graphOfEdges T).Reachable x e.v ∧ (graphOfEdges T).Reachable e.u y)) := by
  have hmono := @graphOfEdges_mono T (T ++ [e])
    (fun f hf => List.mem_append_left _ hf)
  have huv : (graphOfEdges (T ++ [e])).Reachable e.u e.v :=
    reachable_of_mem _ e (List.mem_append_right _ (List.mem_singleton.mpr rfl))
  constructor
  · intro h
    rcases h with ⟨w⟩
    induction w with
    | nil => exact Or.inl (SimpleGraph.Reachable.refl _)
    | cons hxz w ih =>
      rename_i a c b
      rw [graphOfEdges_adj] at hxz
      rcases hxz with ⟨⟨f, hf, hp⟩, hne⟩
      rcases List.mem_append.mp hf with hfT | hfe
      · have hac : (graphOfEdges T).Reachable a c :=
          SimpleGraph.Adj.reachable ((graphOfEdges_adj T a c).mpr ⟨⟨f, hfT, hp⟩, hne⟩)
        rcases ih with h1 | ⟨h1, h2⟩ | ⟨h1, h2⟩
        · exact Or.inl (hac.trans h1)
        · exact Or.inr (Or.inl ⟨hac.trans h1, h2⟩)
        · exact Or.inr (Or.inr ⟨hac.trans h1, h2⟩)
      · rw [List.mem_singleton.mp hfe] at hp
        rw [Sym2.eq_iff] at hp
        rcases hp with ⟨hu, hv⟩ | ⟨hu, hv⟩
        · -- e.u = a, e.v = c
          rcases ih with h1 | ⟨h1, h2⟩ | ⟨h1, h2⟩
          · exact Or.inr (Or.inl ⟨hu ▸ SimpleGraph.Reachable.refl e.u, hv ▸ h1⟩)
          · exact Or.inl (hu ▸ ((hv ▸ h1 : (graphOfEdges T).Reachable e.v e.u).symm.trans h2))
          · exact Or.inl (hu ▸ h2)
        · -- e.u = c, e.v = a
          rcases ih with h1 | ⟨h1, h2⟩ | ⟨h1, h2⟩
          · exact Or.inr (Or.inr ⟨hv ▸ SimpleGraph.Reachable.refl e.v, hu ▸ h1⟩)
          · exact Or.inl (hv ▸ h2)
          · exact Or.inl (hv ▸ ((hu ▸ h1 : (graphOfEdges T).Reachable e.u e.v).symm.trans h2))
  · intro h
    rcases h with h1 | ⟨h1, h2⟩ | ⟨h1, h2⟩
    · exact h1.mono hmono
    · exact ((h1.mono hmono).trans huv).trans (h2.mono hmono)
    · exact ((h1.mono hmono).trans huv.symm).trans (h2.mono hmono)

/-- Adding an edge between two vertices that were not previously connected
preserves acyclicity: the new edge is a bridge of the extended graph, so no
cycle uses it; and a cycle avoiding it lives in the old (acyclic) graph. -/
theorem isAcyclic_snoc (T : List Edge) (e : Edge)
    (hacyc : (graphOfEdges T).IsAcyclic)
    (hne : e.u ≠ e.v)
    (hnr : ¬ (graphOfEdges T).Reachable e.u e.v) :
    (graphOfEdges (T ++ [e])).IsAcyclic := by
  have hno : ∀ f ∈ T, s(f.u, f.v) ≠ s(e.u, e.v) := by
    intro f hf hp
    rw [Sym2.eq_iff] at hp
    have hr := reachable_of_mem T f hf
    rcases hp with ⟨hu, hv⟩ | ⟨hu, hv⟩
    · exact hnr (hu ▸ hv ▸ hr)
    · exact hnr (hu ▸ hv ▸ hr).symm
  have hdel : graphOfEdges (T ++ [e]) \ SimpleGraph.fromEdgeSet {s(e.u, e.v)} =
      graphOfEdges T := by
    ext x y
    rw [SimpleGraph.sdiff_adj, graphOfEdges_adj, graphOfEdges_adj,
      SimpleGraph.fromEdgeSet_adj]
    constructor
    · rintro ⟨⟨⟨f, hf, hp⟩, hxy⟩, hnot⟩
      rcases List.mem_append.mp hf with hfT | hfe
      · exact ⟨⟨f, hfT, hp⟩, hxy⟩
      · rw [List.mem_singleton.mp hfe] at hp
        exact absurd ⟨by rw [← hp]; exact Set.mem_singleton _, hxy⟩ hnot
    · rintro ⟨⟨f, hfT, hp⟩, hxy⟩
      refine ⟨⟨⟨f, List.mem_append_left _ hfT, hp⟩, hxy⟩, ?_⟩
      rintro ⟨hmem, -⟩
      exact hno f hfT (hp.trans (Set.mem_singleton_iff.mp hmem))
  have hbridge : (graphOfEdges (T ++ [e])).IsBridge s(e.u, e.v) := by
    rw [SimpleGraph.isBridge_iff]
    refine ⟨(graphOfEdges_adj _ _ _).mpr
      ⟨⟨e, List.mem_append_right _ (List.mem_singleton.mpr rfl), rfl⟩, hne⟩, ?_⟩
    rw [hdel]
    exact hnr
  intro x c hc
  have hnotmem : s(e.u, e.v) ∉ c.edges :=
    (SimpleGraph.isBridge_iff_adj_and_forall_cycle_not_mem.mp hbridge).2 c hc
  have hsub : ∀ f ∈ c.edges, f ∈ (graphOfEdges T).edgeSet := by
    intro f hf
    have hfe := c.edges_subset_edgeSet hf
    induction f using Sym2.ind with
    | _ a b =>
      rw [SimpleGraph.mem_edgeSet, graphOfEdges_adj] at hfe ⊢
      rcases hfe with ⟨⟨g, hg, hp⟩, hab⟩
      rcases List.mem_append.mp hg with hgT | hge
      · exact ⟨⟨g, hgT, hp⟩, hab⟩
      · rw [List.mem_singleton.mp hge] at hp
        rw [← hp] at hf
        exact absurd hf hnotmem
  exact hacyc (c.transfer (graphOfEdges T) hsub) (hc.transfer hsub)

/-- Reachability cannot cross a side predicate that no edge of `T` crosses. -/
theorem reachable_iff_side (T : List Edge) (S : ℕ → Prop)
    (hS : ∀ e ∈ T, (S e.u ↔ S e.v)) (x y : ℕ)
    (h : (graphOfEdges T).Reachable x y) : S x ↔ S y := by
  rcases reachable_to_rel T (fun a b => (S a ↔ S b))
    (fun a b c h1 h2 => h1.trans h2)
    (fun a b hab => by
      rw [graphOfEdges_adj] at hab
      rcases hab.1 with ⟨e, he, hp⟩
      rw [Sym2.eq_iff] at hp
      rcases hp with ⟨h1, h2⟩ | ⟨h1, h2⟩
      · have hiff := hS e he
        rw [h1, h2] at hiff
        exact hiff
      · have hiff := hS e he
        rw [h1, h2] at hiff
        exact hiff.symm)
    x y h with h | h
  · exact h
  · rw [h]

/-! ## Cut-minimal edges

For the equivalence claim the key notion: an edge that crosses a vertex cut
and is no heavier than anything else crossing it.  Under pairwise-distinct
weights the cut-minimal edges of a graph form an acyclic set, a cut-minimal
instance is unique per endpoint pair, and any two spanning trees made of
cut-minimal edges have the same edge pairs — without ever defining minimality
of a spanning tree. -/

/-- The edge `e` crosses the vertex side `S`. -/
def crossesS (S : ℕ → Prop) (e : Edge) : Prop :=
  (S e.u ∧ ¬ S e.v) ∨ (¬ S e.u ∧ S e.v)

/-- A cut-minimal edge of `E`: it crosses some side and is no heavier than any
member of `E` crossing that side. -/
def IsCutMin (E : List Edge) (e : Edge) : Prop :=
  e ∈ E ∧ ∃ S : ℕ → Prop, crossesS S e ∧
    ∀ f ∈ E, crossesS S f → e.weight ≤ f.weight

theorem crossesS_ne {S : ℕ → Prop} {e : Edge} (h : crossesS S e) : e.u ≠ e.v := by
  intro hc
  rcases h with ⟨h1, h2⟩ | ⟨h1, h2⟩
  · rw [hc] at h1
    exact h2 h1
  · rw [hc] at h1
    exact h1 h2

theorem crossesS_of_pair {S : ℕ → Prop} {e f : Edge}
    (hp : s(e.u, e.v) = s(f.u, f.v)) (h : crossesS S e) : crossesS S f := by
  rw [Sym2.eq_iff] at hp
  rcases hp with ⟨h1, h2⟩ | ⟨h1, h2⟩
  · rcases h with ⟨ha, hb⟩ | ⟨ha, hb⟩
    · exact Or.inl ⟨h1 ▸ ha, h2 ▸ hb⟩
    · exact Or.inr ⟨h1 ▸ ha, h2 ▸ hb⟩
  · rcases h with ⟨ha, hb⟩ | ⟨ha, hb⟩
    · exact Or.inr ⟨h2 ▸ hb, h1 ▸ ha⟩
    · exact Or.inl ⟨h2 ▸ hb, h1 ▸ ha⟩

/-- In a duplicate-free-weight edge list, weights identify edges. -/
theorem weight_inj {E : List Edge} (hdist : (E.map (fun e => e.weight)).Nodup)
    {e f : Edge} (he : e ∈ E) (hf : f ∈ E) (hw : e.weight = f.weight) : e = f :=
  List.inj_on_of_nodup_map hdist he hf hw

/-- With distinct weights there is at most one cut-minimal edge per endpoint
pair. -/
theorem cutMin_unique {E : List Edge} (hdist : (E.map (fun e => e.weight)).Nodup)
    {e f : Edge} (he : IsCutMin E e) (hf : IsCutMin E f)
    (hp : s(e.u, e.v) = s(f.u, f.v)) : e = f := by
  obtain ⟨heE, S, hcrossE, hminE⟩ := he
  obtain ⟨hfE, S', hcrossF, hminF⟩ := hf
  have hfS : crossesS S f := crossesS_of_pair hp hcrossE
  have heS' : crossesS S' e := crossesS_of_pair hp.symm hcrossF
  exact weight_inj hdist heE hfE
    (le_antisymm (hminE f hfE hfS) (hminF e heE heS'))

/-- Deleting one pair from the spanned graph deletes exactly the edges with
that pair. -/
theorem graphOfEdges_sdiff (L : List Edge) (p : Sym2 ℕ) :
    graphOfEdges L \ SimpleGraph.fromEdgeSet {p} =
      graphOfEdges (L.filter (fun f => decide (s(f.u, f.v) ≠ p))) := by
  ext x y
  rw [SimpleGraph.sdiff_adj, graphOfEdges_adj, graphOfEdges_adj,
    SimpleGraph.fromEdgeSet_adj]
  constructor
  · rintro ⟨⟨⟨f, hf, hfp⟩, hxy⟩, hnot⟩
    refine ⟨⟨f, ?_, hfp⟩, hxy⟩
    rw [List.mem_filter]
    refine ⟨hf, decide_eq_true ?_⟩
    intro hc
    exact hnot ⟨by rw [← hfp, hc]; exact Set.mem_singleton _, hxy⟩
  · rintro ⟨⟨f, hf, hfp⟩, hxy⟩
    rw [List.mem_filter] at hf
    refine ⟨⟨⟨f, hf.1, hfp⟩, hxy⟩, ?_⟩
    rintro ⟨hmem, -⟩
    exact (of_decide_eq_true hf.2) (hfp.trans (Set.mem_singleton_iff.mp hmem))

/-- Under distinct weights, any set of cut-minimal edges is acyclic: the
heaviest edge on a cycle is beaten by a second crossing of its own cut. -/
theorem cutMin_acyclic (E L : List Edge)
    (hdist : (E.map (fun e => e.weight)).Nodup)
    (hL : ∀ e ∈ L, IsCutMin E e) :
    (graphOfEdges L).IsAcyclic := by
  intro x c hc
  -- the edges of `L` realizing the cycle's pairs
  have hsubc : ∀ q ∈ c.edges,
      q ∈ (graphOfEdges (L.filter (fun e => decide (s(e.u, e.v) ∈ c.edges)))).edgeSet := by
    intro q hq
    have hq' := c.edges_subset_edgeSet hq
    induction q using Sym2.ind with
    | _ a b =>
      rw [SimpleGraph.mem_edgeSet, graphOfEdges_adj] at hq'
      rw [SimpleGraph.mem_edgeSet, graphOfEdges_adj]
      rcases hq' with ⟨⟨f, hfL, hfp⟩, hab⟩
      refine ⟨⟨f, ?_, hfp⟩, hab⟩
      rw [List.mem_filter]
      exact ⟨hfL, decide_eq_true (by rw [hfp]; exact hq)⟩
  have hc' := hc.transfer hsubc
  -- a heaviest edge among them
  have hed : c.edges ≠ [] := by
    intro hce
    have hl3 := hc.three_le_length
    have hle := c.length_edges
    rw [hce] at hle
    simp at hle
    omega
  have hEcne : L.filter (fun e => decide (s(e.u, e.v) ∈ c.edges)) ≠ [] := by
    obtain ⟨q, hq⟩ := List.exists_mem_of_ne_nil _ hed
    intro hfe
    have hmem := hsubc q hq
    rw [hfe, graphOfEdges_nil] at hmem
    simp at hmem
  obtain ⟨e, hearg⟩ : ∃ e, e ∈ (L.filter
      (fun e => decide (s(e.u, e.v) ∈ c.edges))).argmax (fun e => e.weight) := by
    cases harg : (L.filter (fun e => decide (s(e.u, e.v) ∈ c.edges))).argmax
        (fun e => e.weight) with
    | none => exact absurd (List.argmax_eq_none.mp harg) hEcne
    | some e => exact ⟨e, rfl⟩
  have heEc := List.argmax_mem hearg
  have hemax : ∀ f ∈ L.filter (fun e => decide (s(e.u, e.v) ∈ c.edges)),
      f.weight ≤ e.weight := fun f hf => List.le_of_mem_argmax hf hearg
  rw [List.mem_filter] at heEc
  have hecut := hL e heEc.1
  obtain ⟨heE, S, hcross, hmin⟩ := hecut
  have hpairc : s(e.u, e.v) ∈ c.edges := of_decide_eq_true heEc.2
  have hpairc' : s(e.u, e.v) ∈ ((c.transfer _ hsubc).edges) := by
    rw [SimpleGraph.Walk.edges_transfer]
    exact hpairc
  have hdel := SimpleGraph.adj_and_reachable_delete_edges_iff_exists_cycle.mpr
    ⟨x, c.transfer _ hsubc, hc', hpairc'⟩
  have hreach := hdel.2
  rw [graphOfEdges_sdiff] at hreach
  -- a second crossing of `S` along the cycle, avoiding the pair of `e`
  have hcross2 : ∃ g ∈ (L.filter (fun e => decide (s(e.u, e.v) ∈ c.edges))).filter
      (fun f => decide (s(f.u, f.v) ≠ s(e.u, e.v))), ¬ (S g.u ↔ S g.v) := by
    by_contra hno
    push_neg at hno
    have hside := reachable_iff_side _ S
      (fun f hf => hno f hf) e.u e.v hreach
    rcases hcross with ⟨h1, h2⟩ | ⟨h1, h2⟩
    · exact h2 (hside.mp h1)
    · exact h1 (hside.mpr h2)
  obtain ⟨g, hgf, hgiff⟩ := hcross2
  have hg1 : g ∈ L.filter (fun e => decide (s(e.u, e.v) ∈ c.edges)) :=
    (List.mem_filter.mp hgf).1
  have hgne := of_decide_eq_true (List.mem_filter.mp hgf).2
  have hgL : g ∈ L := (List.mem_filter.mp hg1).1
  have hgcross : crossesS S g := by
    by_cases hgu : S g.u
    · by_cases hgv : S g.v
      · exact absurd (Iff.intro (fun _ => hgv) (fun _ => hgu)) hgiff
      · exact Or.inl ⟨hgu, hgv⟩
    · by_cases hgv : S g.v
      · exact Or.inr ⟨hgu, hgv⟩
      · exact absurd (Iff.intro (fun h => absurd h hgu) (fun h => absurd h hgv)) hgiff
  have hgE : g ∈ E := (hL g hgL).1
  have h1 : e.weight ≤ g.weight := hmin g hgE hgcross
  have h2 : g.weight ≤ e.weight := hemax g hg1
  have heg : e = g := weight_inj hdist heE hgE (le_antisymm h1 h2)
  exact hgne (by rw [heg])

/-- Spanned graphs agree when the endpoint pairs agree. -/
theorem graphOfEdges_eq_of_map_pair {A B : List Edge}
    (h : A.map (fun e => s(e.u, e.v)) = B.map (fun e => s(e.u, e.v))) :
    graphOfEdges A = graphOfEdges B := by
  unfold graphOfEdges
  congr 1
  ext p
  simp only [Set.mem_setOf_eq]
  constructor
  · rintro ⟨e, he, hp⟩
    have : p ∈ B.map (fun e => s(e.u, e.v)) := by
      rw [← h, List.mem_map]
      exact ⟨e, he, hp.symm⟩
    rcases List.mem_map.mp this with ⟨f, hf, hfp⟩
    exact ⟨f, hf, hfp.symm⟩
  · rintro ⟨e, he, hp⟩
    have : p ∈ A.map (fun e => s(e.u, e.v)) := by
      rw [h, List.mem_map]
      exact ⟨e, he, hp.symm⟩
    rcases List.mem_map.mp this with ⟨f, hf, hfp⟩
    exact ⟨f, hf, hfp.symm⟩

/-- Two spanning collections of cut-minimal edges span the same pairs. -/
theorem cutMin_pairs_subset (g : Graph) (hwf : WFGraph g)
    (hdist : (g.edges.map (fun e => e.weight)).Nodup)
    (A B : List Edge)
    (hA : ∀ e ∈ A, IsCutMin g.edges e) (hB : ∀ e ∈ B, IsCutMin g.edges e)
    (hAconn : ∀ u ∈ g.vertices, ∀ v ∈ g.vertices, (graphOfEdges A).Reachable u v)
    (p : Sym2 ℕ) (hp : ∃ e ∈ B, s(e.u, e.v) = p) :
    ∃ e ∈ A, s(e.u, e.v) = p := by
  by_contra hnp
  obtain ⟨b, hbB, hbp⟩ := hp
  have hacyc : (graphOfEdges (A ++ B)).IsAcyclic := by
    refine cutMin_acyclic g.edges (A ++ B) hdist ?_
    intro f hf
    rcases List.mem_append.mp hf with h | h
    · exact hA f h
    · exact hB f h
  have hbcut := hB b hbB
  obtain ⟨hbE, Sb, hbcross, -⟩ := hbcut
  have hbne : b.u ≠ b.v := crossesS_ne hbcross
  have hadj : (graphOfEdges (A ++ B)).Adj b.u b.v :=
    (graphOfEdges_adj _ _ _).mpr ⟨⟨b, List.mem_append_right _ hbB, rfl⟩, hbne⟩
  have hAfilter : ∀ a ∈ A, a ∈ (A ++ B).filter
      (fun f => decide (s(f.u, f.v) ≠ s(b.u, b.v))) := by
    intro a ha
    rw [List.mem_filter]
    refine ⟨List.mem_append_left _ ha, decide_eq_true ?_⟩
    intro hc
    exact hnp ⟨a, ha, hc.trans hbp⟩
  have hreach : (graphOfEdges (A ++ B) \
      SimpleGraph.fromEdgeSet {s(b.u, b.v)}).Reachable b.u b.v := by
    rw [graphOfEdges_sdiff]
    exact (hAconn b.u (hwf.edgeEnds b hbE).1 b.v (hwf.edgeEnds b hbE).2).mono
      (graphOfEdges_mono hAfilter)
  obtain ⟨u, cyc, hcyc, -⟩ :=
    SimpleGraph.adj_and_reachable_delete_edges_iff_exists_cycle.mp ⟨hadj, hreach⟩
  exact hacyc cyc hcyc

/-! ## Minimum spanning trees

The specification asserts that the two algorithms' weight sums agree on every
fixed connected graph, with no distinctness proviso, so the classical theory
is needed: spanning trees as edge lists, weight-minimality over all spanning
trees, and the exchange step — a minimal crossing edge of a cut can be swapped
into a spanning tree without raising its weight, keeping every tree edge that
does not cross the cut.  Threaded through each algorithm's loop this shows the
partial solution always sits inside some minimum spanning tree. -/

/-- A spanning tree of `g`, as an edge list: edges of the graph with
duplicate-free endpoint pairs whose spanned graph is acyclic and connects all
vertices, with one edge less than there are vertices. -/
def IsSpanTree (g : Graph) (M : List Edge) : Prop :=
  (∀ e ∈ M, e ∈ g.edges) ∧
  (M.map (fun e => s(e.u, e.v))).Nodup ∧
  (graphOfEdges M).IsAcyclic ∧
  (∀ u ∈ g.vertices, ∀ v ∈ g.vertices, (graphOfEdges M).Reachable u v) ∧
  M.length + 1 = g.vertices.length

/-- The total weight of an edge list. -/
def wsum (M : List Edge) : ℚ := (M.map (fun e => e.weight)).sum

/-- A minimum spanning tree: a spanning tree of least total weight. -/
def IsMSTl (g : Graph) (M : List Edge) : Prop :=
  IsSpanTree g M ∧ ∀ N, IsSpanTree g N → wsum M ≤ wsum N

/-- Subgraphs of acyclic graphs are acyclic. -/
theorem isAcyclic_anti {G H : SimpleGraph ℕ} (hle : G ≤ H) (h : H.IsAcyclic) :
    G.IsAcyclic := by
  intro x c hc
  have hsub : ∀ q ∈ c.edges, q ∈ H.edgeSet := fun q hq =>
    SimpleGraph.edgeSet_mono hle (c.edges_subset_edgeSet hq)
  exact h (c.transfer H hsub) (hc.transfer hsub)

/-- Spanned graphs agree when the same pairs are realized. -/
theorem graphOfEdges_congr_pairs {A B : List Edge}
    (h : ∀ p : Sym2 ℕ, (∃ e ∈ A, s(e.u, e.v) = p) ↔ ∃ e ∈ B, s(e.u, e.v) = p) :
    graphOfEdges A = graphOfEdges B := by
  ext x y
  rw [graphOfEdges_adj, graphOfEdges_adj]
  constructor
  · rintro ⟨⟨e, he, hp⟩, hne⟩
    exact ⟨(h s(x, y)).mp ⟨e, he, hp⟩, hne⟩
  · rintro ⟨⟨e, he, hp⟩, hne⟩
    exact ⟨(h s(x, y)).mpr ⟨e, he, hp⟩, hne⟩

/-- Within a duplicate-free-pairs list, the endpoint pair identifies the edge. -/
theorem pair_inj_of_nd {M : List Edge} (hnd : (M.map (fun e => s(e.u, e.v))).Nodup)
    {a b : Edge} (ha : a ∈ M) (hb : b ∈ M) (hp : s(a.u, a.v) = s(b.u, b.v)) : a = b :=
  List.inj_on_of_nodup_map hnd ha hb hp

theorem wsum_append (A B : List Edge) : wsum (A ++ B) = wsum A + wsum B := by
  simp [wsum]

theorem wsum_erase {M : List Edge} {f : Edge} (h : f ∈ M) :
    wsum M = f.weight + wsum (M.erase f) := by
  have hperm := List.perm_cons_erase h
  have hs := (hperm.map (fun e => e.weight)).sum_eq
  simpa [wsum] using hs

/-- The exchange step: given a spanning tree and an edge that minimally
crosses a cut, some spanning tree of no larger weight contains that edge
together with every tree edge not crossing the cut. -/
theorem span_exchange (g : Graph) (hwf : WFGraph g) (M : List Edge)
    (hM : IsSpanTree g M) (e : Edge) (heE : e ∈ g.edges) (S : ℕ → Prop)
    (hcross : crossesS S e)
    (hminS : ∀ f ∈ g.edges, crossesS S f → e.weight ≤ f.weight) :
    ∃ M', IsSpanTree g M' ∧ wsum M' ≤ wsum M ∧ e ∈ M' ∧
      ∀ m ∈ M, ¬ crossesS S m → m ∈ M' := by
  obtain ⟨hmem, hpnd, hacyc, hreach, hlenM⟩ := hM
  have hndM : M.Nodup := List.Nodup.of_map _ hpnd
  have hne : e.u ≠ e.v := crossesS_ne hcross
  by_cases hpair : ∃ a ∈ M, s(a.u, a.v) = s(e.u, e.v)
  · -- `M` already realizes the pair: swap the realizing instance for `e`
    obtain ⟨a, haM, hap⟩ := hpair
    have hacross : crossesS S a := crossesS_of_pair hap.symm hcross
    have hgeq : graphOfEdges (M.erase a ++ [e]) = graphOfEdges M := by
      refine graphOfEdges_congr_pairs ?_
      intro p
      constructor
      · rintro ⟨b, hb, hbp⟩
        rcases List.mem_append.mp hb with hb | hb
        · exact ⟨b, List.mem_of_mem_erase hb, hbp⟩
        · rw [List.mem_singleton.mp hb] at hbp
          exact ⟨a, haM, hap.trans hbp⟩
      · rintro ⟨b, hb, hbp⟩
        by_cases hba : b = a
        · refine ⟨e, List.mem_append_right _ (List.mem_singleton.mpr rfl), ?_⟩
          rw [← hbp, hba, ← hap]
        · exact ⟨b, List.mem_append_left _ (hndM.mem_erase_iff.mpr ⟨hba, hb⟩), hbp⟩
    have hndE : ((M.erase a).map (fun m => s(m.u, m.v))).Nodup :=
      hpnd.sublist (List.Sublist.map _ (List.erase_sublist a M))
    have hnotin : ∀ b ∈ M.erase a, s(b.u, b.v) ≠ s(e.u, e.v) := by
      intro b hb hbp
      have hba := hndM.mem_erase_iff.mp hb
      exact hba.1 (pair_inj_of_nd hpnd hba.2 haM (hbp.trans hap.symm))
    refine ⟨M.erase a ++ [e], ⟨?_, ?_, ?_, ?_, ?_⟩, ?_,
      List.mem_append_right _ (List.mem_singleton.mpr rfl), ?_⟩
    · intro b hb
      rcases List.mem_append.mp hb with hb | hb
      · exact hmem b (List.mem_of_mem_erase hb)
      · rw [List.mem_singleton.mp hb]
        exact heE
    · rw [List.map_append, List.nodup_append]
      refine ⟨hndE, by simp, ?_⟩
      intro p hp hq
      simp only [List.map_cons, List.map_nil, List.mem_singleton] at hq
      rcases List.mem_map.mp hp with ⟨b, hb, hbp⟩
      rw [hq] at hbp
      exact hnotin b hb hbp
    · rw [hgeq]
      exact hacyc
    · intro u hu v hv
      rw [hgeq]
      exact hreach u hu v hv
    · rw [List.length_append, List.length_singleton, List.length_erase_of_mem haM]
      have hpos := List.length_pos_of_mem haM
      omega
    · have hwe : e.weight ≤ a.weight := hminS a (hmem a haM) hacross
      rw [wsum_append, wsum_erase haM]
      have he1 : wsum [e] = e.weight := by simp [wsum]
      rw [he1]
      linarith
    · intro m hm hmc
      have hma : m ≠ a := fun hc => hmc (hc ▸ hacross)
      exact List.mem_append_left _ (hndM.mem_erase_iff.mpr ⟨hma, hm⟩)
  · -- the pair is new: find a second crossing on the tree cycle and swap it out
    push_neg at hpair
    have hpene : ∀ a ∈ M, s(a.u, a.v) ≠ s(e.u, e.v) := hpair
    have hreachM : (graphOfEdges M).Reachable e.u e.v :=
      hreach e.u (hwf.edgeEnds e heE).1 e.v (hwf.edgeEnds e heE).2
    have hmemE : e ∈ M ++ [e] := List.mem_append_right _ (List.mem_singleton.mpr rfl)
    have hAdjE : (graphOfEdges (M ++ [e])).Adj e.u e.v :=
      (graphOfEdges_adj _ _ _).mpr ⟨⟨e, hmemE, rfl⟩, hne⟩
    have hdelE : (graphOfEdges (M ++ [e]) \
        SimpleGraph.fromEdgeSet {s(e.u, e.v)}).Reachable e.u e.v := by
      rw [graphOfEdges_sdiff]
      refine hreachM.mono (graphOfEdges_mono ?_)
      intro m hm
      rw [List.mem_filter]
      exact ⟨List.mem_append_left _ hm, decide_eq_true (hpene m hm)⟩
    obtain ⟨w, c, hc, hce⟩ :=
      SimpleGraph.adj_and_reachable_delete_edges_iff_exists_cycle.mp ⟨hAdjE, hdelE⟩
    have hsubc : ∀ q ∈ c.edges, q ∈ (graphOfEdges
        ((M ++ [e]).filter (fun m => decide (s(m.u, m.v) ∈ c.edges)))).edgeSet := by
      intro q hq
      have hq' := c.edges_subset_edgeSet hq
      induction q using Sym2.ind with
      | _ a b =>
        rw [SimpleGraph.mem_edgeSet, graphOfEdges_adj] at hq'
        rw [SimpleGraph.mem_edgeSet, graphOfEdges_adj]
        rcases hq' with ⟨⟨f, hfL, hfp⟩, hab⟩
        refine ⟨⟨f, ?_, hfp⟩, hab⟩
        rw [List.mem_filter]
        exact ⟨hfL, decide_eq_true (by rw [hfp]; exact hq)⟩
    have hc' := hc.transfer hsubc
    have hpairc' : s(e.u, e.v) ∈ (c.transfer _ hsubc).edges := by
      rw [SimpleGraph.Walk.edges_transfer]
      exact hce
    have hdel := SimpleGraph.adj_and_reachable_delete_edges_iff_exists_cycle.mpr
      ⟨w, c.transfer _ hsubc, hc', hpairc'⟩
    have hreach2 := hdel.2
    rw [graphOfEdges_sdiff] at hreach2
    have hcross2 : ∃ f ∈ ((M ++ [e]).filter
        (fun m => decide (s(m.u, m.v) ∈ c.edges))).filter
        (fun m => decide (s(m.u, m.v) ≠ s(e.u, e.v))), ¬ (S f.u ↔ S f.v) := by
      by_contra hno
      push_neg at hno
      have hside := reachable_iff_side _ S (fun f hf => hno f hf) e.u e.v hreach2
      rcases hcross with ⟨h1, h2⟩ | ⟨h1, h2⟩
      · exact h2 (hside.mp h1)
      · exact h1 (hside.mpr h2)
    obtain ⟨f, hff, hfiff⟩ := hcross2
    have hf1 : f ∈ (M ++ [e]).filter (fun m => decide (s(m.u, m.v) ∈ c.edges)) :=
      (List.mem_filter.mp hff).1
    have hfpne : s(f.u, f.v) ≠ s(e.u, e.v) :=
      of_decide_eq_true (List.mem_filter.mp hff).2
    have hfce : s(f.u, f.v) ∈ c.edges := of_decide_eq_true (List.mem_filter.mp hf1).2
    have hfM : f ∈ M := by
      rcases List.mem_append.mp (List.mem_filter.mp hf1).1 with h | h
      · exact h
      · rw [List.mem_singleton.mp h] at hfpne
        exact absurd rfl hfpne
    have hfcross : crossesS S f := by
      by_cases hfu : S f.u
      · by_cases hfv : S f.v
        · exact absurd (Iff.intro (fun _ => hfv) (fun _ => hfu)) hfiff
        · exact Or.inl ⟨hfu, hfv⟩
      · by_cases hfv : S f.v
        · exact Or.inr ⟨hfu, hfv⟩
        · exact absurd (Iff.intro (fun hx => absurd hx hfu) (fun hx => absurd hx hfv)) hfiff
    have hfne : f.u ≠ f.v := crossesS_ne hfcross
    have hwef : e.weight ≤ f.weight := hminS f (hmem f hfM) hfcross
    have hidF : ∀ a, a ∈ (M ++ [e]).filter (fun m => decide (s(m.u, m.v) ≠ s(f.u, f.v))) ↔
        a ∈ M.erase f ++ [e] := by
      intro a
      rw [List.mem_filter, List.mem_append, List.mem_append]
      constructor
      · rintro ⟨h1 | h1, h2⟩
        · have hane : a ≠ f := by
            intro hcc
            exact of_decide_eq_true h2 (by rw [hcc])
          exact Or.inl (hndM.mem_erase_iff.mpr ⟨hane, h1⟩)
        · exact Or.inr h1
      · rintro (h1 | h1)
        · have h1' := hndM.mem_erase_iff.mp h1
          refine ⟨Or.inl h1'.2, decide_eq_true ?_⟩
          intro hcc
          exact h1'.1 (pair_inj_of_nd hpnd h1'.2 hfM hcc)
        · refine ⟨Or.inr h1, decide_eq_true ?_⟩
          rw [List.mem_singleton.mp h1]
          exact fun hcc => hfpne hcc.symm
    have hGdelF : graphOfEdges (M ++ [e]) \ SimpleGraph.fromEdgeSet {s(f.u, f.v)} =
        graphOfEdges (M.erase f ++ [e]) := by
      rw [graphOfEdges_sdiff]
      exact graphOfEdges_congr hidF
    have hRff : (graphOfEdges (M.erase f ++ [e])).Reachable f.u f.v := by
      have hdelF := SimpleGraph.adj_and_reachable_delete_edges_iff_exists_cycle.mpr
        ⟨w, c, hc, hfce⟩
      rw [hGdelF] at hdelF
      exact hdelF.2
    have hacycE : (graphOfEdges (M.erase f)).IsAcyclic :=
      isAcyclic_anti (graphOfEdges_mono (fun a ha => List.mem_of_mem_erase ha)) hacyc
    have hdisc : ¬ (graphOfEdges (M.erase f)).Reachable e.u e.v := by
      intro hcon
      -- then the detour for `e` lies inside `M.erase f`, so the endpoints of
      -- `f` reconnect inside `M` without `f`: a cycle of `M`
      have hRff' : (graphOfEdges (M.erase f)).Reachable f.u f.v := by
        rcases reachable_to_rel (M.erase f ++ [e]) (graphOfEdges (M.erase f)).Reachable
          (fun a b cc h1 h2 => h1.trans h2)
          (fun a b hab => by
            rw [graphOfEdges_adj] at hab
            rcases hab with ⟨⟨m, hm, hmp⟩, hab'⟩
            rcases List.mem_append.mp hm with hm | hm
            · exact ((graphOfEdges_adj _ _ _).mpr ⟨⟨m, hm, hmp⟩, hab'⟩).reachable
            · rw [List.mem_singleton.mp hm] at hmp
              rw [Sym2.eq_iff] at hmp
              rcases hmp with ⟨h1, h2⟩ | ⟨h1, h2⟩
              · rw [← h1, ← h2]
                exact hcon
              · rw [← h1, ← h2]
                exact hcon.symm)
          f.u f.v hRff with h | h
        · exact h
        · exact absurd h hfne
      have hAdjF : (graphOfEdges M).Adj f.u f.v :=
        (graphOfEdges_adj _ _ _).mpr ⟨⟨f, hfM, rfl⟩, hfne⟩
      have hidM : ∀ a, a ∈ M.filter (fun m => decide (s(m.u, m.v) ≠ s(f.u, f.v))) ↔
          a ∈ M.erase f := by
        intro a
        rw [List.mem_filter]
        constructor
        · rintro ⟨h1, h2⟩
          refine hndM.mem_erase_iff.mpr ⟨?_, h1⟩
          intro hcc
          exact of_decide_eq_true h2 (by rw [hcc])
        · intro h1
          have h1' := hndM.mem_erase_iff.mp h1
          refine ⟨h1'.2, decide_eq_true ?_⟩
          intro hcc
          exact h1'.1 (pair_inj_of_nd hpnd h1'.2 hfM hcc)
      have hdelM : (graphOfEdges M \ SimpleGraph.fromEdgeSet {s(f.u, f.v)}).Reachable
          f.u f.v := by
        rw [graphOfEdges_sdiff, graphOfEdges_congr hidM]
        exact hRff'
      obtain ⟨w', c', hc', -⟩ :=
        SimpleGraph.adj_and_reachable_delete_edges_iff_exists_cycle.mp ⟨hAdjF, hdelM⟩
      exact hacyc c' hc'
    have hacyc' : (graphOfEdges (M.erase f ++ [e])).IsAcyclic :=
      isAcyclic_snoc (M.erase f) e hacycE hne hdisc
    have hreach' : ∀ u ∈ g.vertices, ∀ v ∈ g.vertices,
        (graphOfEdges (M.erase f ++ [e])).Reachable u v := by
      intro u hu v hv
      rcases reachable_to_rel M (graphOfEdges (M.erase f ++ [e])).Reachable
        (fun a b cc h1 h2 => h1.trans h2)
        (fun a b hab => by
          rw [graphOfEdges_adj] at hab
          rcases hab with ⟨⟨m, hm, hmp⟩, hab'⟩
          by_cases hmf : m = f
          · rw [hmf] at hmp
            rw [Sym2.eq_iff] at hmp
            rcases hmp with ⟨h1, h2⟩ | ⟨h1, h2⟩
            · rw [← h1, ← h2]
              exact hRff
            · rw [← h1, ← h2]
              exact hRff.symm
          · exact ((graphOfEdges_adj _ _ _).mpr
              ⟨⟨m, List.mem_append_left _ (hndM.mem_erase_iff.mpr ⟨hmf, hm⟩), hmp⟩,
                hab'⟩).reachable)
        u v (hreach u hu v hv) with h | h
      · exact h
      · rw [h]
    have hndE : ((M.erase f).map (fun m => s(m.u, m.v))).Nodup :=
      hpnd.sublist (List.Sublist.map _ (List.erase_sublist f M))
    refine ⟨M.erase f ++ [e], ⟨?_, ?_, hacyc', hreach', ?_⟩,
      ?_, List.mem_append_right _ (List.mem_singleton.mpr rfl), ?_⟩
    · intro b hb
      rcases List.mem_append.mp hb with hb | hb
      · exact hmem b (List.mem_of_mem_erase hb)
      · rw [List.mem_singleton.mp hb]
        exact heE
    · rw [List.map_append, List.nodup_append]
      refine ⟨hndE, by simp, ?_⟩
      intro p hp hq
      simp only [List.map_cons, List.map_nil, List.mem_singleton] at hq
      rcases List.mem_map.mp hp with ⟨b, hb, hbp⟩
      rw [hq] at hbp
      exact hpene b (List.mem_of_mem_erase hb) hbp
    · rw [List.length_append, List.length_singleton, List.length_erase_of_mem hfM]
      have hpos := List.length_pos_of_mem hfM
      omega
    · rw [wsum_append, wsum_erase hfM]
      have he1 : wsum [e] = e.weight := by simp [wsum]
      rw [he1]
      linarith
    · intro m hm hmc
      have hmf : m ≠ f := fun hcc => hmc (hcc ▸ hfcross)
      exact List.mem_append_left _ (hndM.mem_erase_iff.mpr ⟨hmf, hm⟩)

/-- The exchange step at minimality: a minimal crossing edge of a cut can be
adjoined to a minimum spanning tree, keeping all non-crossing edges, without
losing minimality. -/
theorem mst_exchange (g : Graph) (hwf : WFGraph g) (M : List Edge)
    (hM : IsMSTl g M) (e : Edge) (heE : e ∈ g.edges) (S : ℕ → Prop)
    (hcross : crossesS S e)
    (hminS : ∀ f ∈ g.edges, crossesS S f → e.weight ≤ f.weight) :
    ∃ M', IsMSTl g M' ∧ e ∈ M' ∧ ∀ m ∈ M, ¬ crossesS S m → m ∈ M' := by
  obtain ⟨M', hsp, hw, heM', hkeep⟩ := span_exchange g hwf M hM.1 e heE S hcross hminS
  exact ⟨M', ⟨hsp, fun N hN => le_trans hw (hM.2 N hN)⟩, heM', hkeep⟩

/-- A graph with a spanning tree has a minimum one: the achievable weights
form a finite set of subset sums of the edge list. -/
theorem exists_mst (g : Graph) (M₀ : List Edge) (h₀ : IsSpanTree g M₀) :
    ∃ M, IsMSTl g M := by
  classical
  have hval : ∀ M, IsSpanTree g M → wsum M ∈
      g.edges.toFinset.powerset.image (fun s => s.sum (fun e => e.weight)) := by
    intro M hM
    rw [Finset.mem_image]
    refine ⟨M.toFinset, Finset.mem_powerset.mpr ?_, ?_⟩
    · intro a ha
      rw [List.mem_toFinset] at ha ⊢
      exact hM.1 a ha
    · rw [List.sum_toFinset _ (List.Nodup.of_map _ hM.2.1)]
      rfl
  obtain ⟨q, hqF, hqmin⟩ := Finset.exists_min_image
    ((g.edges.toFinset.powerset.image (fun s => s.sum (fun e => e.weight))).filter
      (fun q => ∃ M, IsSpanTree g M ∧ wsum M = q)) id
    ⟨wsum M₀, Finset.mem_filter.mpr ⟨hval M₀ h₀, M₀, h₀, rfl⟩⟩
  obtain ⟨-, M, hMsp, hMw⟩ := Finset.mem_filter.mp hqF
  refine ⟨M, hMsp, ?_⟩
  intro N hN
  have hle := hqmin (wsum N) (Finset.mem_filter.mpr ⟨hval N hN, N, hN, rfl⟩)
  simp only [id_eq] at hle
  rw [hMw]
  exact hle

/-- Any two minimum spanning trees weigh the same. -/
theorem mst_wsum_eq {g : Graph} {M N : List Edge} (hM : IsMSTl g M) (hN : IsMSTl g N) :
    wsum M = wsum N :=
  le_antisymm (hM.2 N hN.1) (hN.2 M hM.1)

/-- Edge lists matched pair-for-pair with equal weights and equal lengths have
equal weight sums. -/
theorem sum_weights_eq_of_pairs (T B : List Edge)
    (hTnd : (T.map (fun e => s(e.u, e.v))).Nodup)
    (hBnd : (B.map (fun e => s(e.u, e.v))).Nodup)
    (hlen : T.length = B.length)
    (hmatch : ∀ e ∈ T, ∃ f ∈ B, s(f.u, f.v) = s(e.u, e.v) ∧ f.weight = e.weight) :
    (T.map (fun e => e.weight)).sum = (B.map (fun e => e.weight)).sum := by
  have hmapfst : ∀ L : List Edge,
      (L.map (fun e => (s(e.u, e.v), e.weight))).map Prod.fst =
        L.map (fun e => s(e.u, e.v)) := by
    intro L
    rw [List.map_map]
    rfl
  have hmapsnd : ∀ L : List Edge,
      (L.map (fun e => (s(e.u, e.v), e.weight))).map Prod.snd =
        L.map (fun e => e.weight) := by
    intro L
    rw [List.map_map]
    rfl
  have hTpw : (T.map (fun e => (s(e.u, e.v), e.weight))).Nodup := by
    refine List.Nodup.of_map Prod.fst ?_
    rw [hmapfst]
    exact hTnd
  have hsub : T.map (fun e => (s(e.u, e.v), e.weight)) ⊆
      B.map (fun e => (s(e.u, e.v), e.weight)) := by
    intro x hx
    obtain ⟨e, heT, hex⟩ := List.mem_map.mp hx
    obtain ⟨f, hfB, hfp, hfw⟩ := hmatch e heT
    rw [List.mem_map]
    refine ⟨f, hfB, ?_⟩
    rw [← hex, hfp, hfw]
  have hsp := List.Nodup.subperm hTpw hsub
  have hperm := List.Subperm.perm_of_length_le hsp
    (by rw [List.length_map, List.length_map, hlen])
  have hs := (hperm.map Prod.snd).sum_eq
  rw [hmapsnd, hmapsnd] at hs
  exact hs

/-! ## DisjointSet (union–find), from `src/kruskal/disjoint-set.ts` -/

/-- The private state of the `DisjointSet` class: `parent` and `rank` maps. -/
structure DisjointSet where
  parent : List (VertexId × VertexId)
  rank : List (VertexId × Nat)
deriving DecidableEq, Repr

/-- The `DisjointSet` constructor: each vertex its own parent, rank 0. -/
def DisjointSet.ofVertices (vertices : List VertexId) : DisjointSet :=
  { parent := vertices.foldl (fun m v => mapSet m v v) []
    rank := vertices.foldl (fun m v => mapSet m v 0) [] }

/-- `findSet`, with explicit fuel for the recursion on the parent chain.
Returns the root together with the path-compressed state. -/
def findSetAux (ds : DisjointSet) (x : VertexId) : Nat → Except String (VertexId × DisjointSet)
  | 0 => .error "findSet: out of fuel"
  | fuel + 1 =>
    match mapGet ds.parent x with
    | none => .error s!"Vertex {x} not found in disjoint set"
    | some parentValue =>
      if parentValue = x then
        .ok (x, ds)
      else
        match findSetAux ds parentValue fuel with
        | .error e => .error e
        | .ok (root, ds₁) =>
          .ok (root, { ds₁ with parent := mapSet ds₁.parent x root })

/-- `findSet(x)`.  The fuel `parent.length + 1` is enough for every state
reachable from the constructor (proved below), so this computes exactly what the
(unfueled) recursive source method does. -/
def DisjointSet.findSet (ds : DisjointSet) (x : VertexId) :
    Except String (VertexId × DisjointSet) :=
  findSetAux ds x (ds.parent.length + 1)

/-- `union(a, b)`: union by rank; `true` iff the two sets were distinct. -/
def DisjointSet.union (ds : DisjointSet) (a b : VertexId) :
    Except String (Bool × DisjointSet) :=
  match ds.findSet a with
  | .error e => .error e
  | .ok (rootA, ds₁) =>
    match ds₁.findSet b with
    | .error e => .error e
    | .ok (rootB, ds₂) =>
      if rootA = rootB then
        .ok (false, ds₂)
      else
        match mapGet ds₂.rank rootA, mapGet ds₂.rank rootB with
        | some rankA, some rankB =>
          if rankA < rankB then
            .ok (true, { ds₂ with parent := mapSet ds₂.parent rootA rootB })
          else if rankB < rankA then
            .ok (true, { ds₂ with parent := mapSet ds₂.parent rootB rootA })
          else
            .ok (true, { ds₂ with
                          parent := mapSet ds₂.parent rootB rootA
                          rank := mapSet ds₂.rank rootA (rankA + 1) })
        | _, _ => .error "Rank not found for root vertex"

/-! ## Kruskal's algorithm, from `src/kruskal/kruskal.ts` -/

/-- The sorted copy `g.edges.slice().sort((a, b) => a.weight - b.weight)`:
a stable ascending sort by weight. -/
def kruskalSortedEdges (g : Graph) : List Edge :=
  g.edges.mergeSort (fun a b => a.weight ≤ b.weight)

/-- The edge loop of `kruskalMST`.  `n` is `g.vertices.length`; the early-exit
test `result.length === g.vertices.length - 1` is over JavaScript numbers, hence
the comparison in `ℤ`. -/
def kruskalGo (n : Nat) (ds : DisjointSet) (result : List Edge) :
    List Edge → Except String (List Edge)
  | [] => .ok result
  | e :: rest =>
    match ds.union e.u e.v with
    | .error msg => .error msg
    | .ok (merged, ds') =>
      let result' := if merged then result ++ [e] else result
      if (result'.length : ℤ) = (n : ℤ) - 1 then
        .ok result'
      else
        kruskalGo n ds' result' rest

/-- `kruskalMST(g)`. -/
def kruskalMST (g : Graph) : Except String (List Edge) :=
  kruskalGo g.vertices.length (DisjointSet.ofVertices g.vertices) [] (kruskalSortedEdges g)

/-! ## Verification of `DisjointSet`

The parent map of a reachable `DisjointSet` state is a forest: chasing parents
from any registered vertex reaches a self-parented root.  `iterP` walks the
parent chain (stopping at a root), `ReachesD` says a vertex's chain ends at a
given root, and `WFds` is the representation invariant. -/

/-- `parent.get(x)` of a `DisjointSet` state. -/
def pget (ds : DisjointSet) (x : VertexId) : Option VertexId := mapGet ds.parent x

/-- A root: a self-parented registered vertex. -/
def isRootD (ds : DisjointSet) (r : VertexId) : Prop := pget ds r = some r

instance (ds : DisjointSet) (r : VertexId) : Decidable (isRootD ds r) := by
  unfold isRootD; infer_instance

/-- Walk up to `n` parent steps from `x`, stopping at a self-parented vertex;
`none` when the chain leaves the map. -/
def iterP (ds : DisjointSet) : Nat → VertexId → Option VertexId
  | 0, x => some x
  | n + 1, x =>
    match pget ds x with
    | none => none
    | some p => if p = x then some x else iterP ds n p

/-- The parent chain from `x` ends at the root `r`. -/
def ReachesD (ds : DisjointSet) (x r : VertexId) : Prop :=
  ∃ n, iterP ds n x = some r ∧ isRootD ds r

/-- The representation invariant of a `DisjointSet` state. -/
structure WFds (ds : DisjointSet) : Prop where
  nodupK : (keys ds.parent).Nodup
  closed : ∀ x p, pget ds x = some p → p ∈ keys ds.parent
  termin : ∀ x ∈ keys ds.parent, ∃ r, ReachesD ds x r
  rankK : ∀ x, x ∈ keys ds.parent ↔ x ∈ keys ds.rank

/-- Two states with the same registered vertices, the same roots, the same
root-of relation, and the same rank map (path compression never changes any of
these). -/
def EquivDS (ds ds' : DisjointSet) : Prop :=
  keys ds'.parent = keys ds.parent ∧ ds'.rank = ds.rank ∧
  (∀ w, isRootD ds' w ↔ isRootD ds w) ∧
  (∀ z w, ReachesD ds' z w ↔ ReachesD ds z w)

theorem EquivDS.refl (ds : DisjointSet) : EquivDS ds ds :=
  ⟨rfl, rfl, fun _ => Iff.rfl, fun _ _ => Iff.rfl⟩

theorem EquivDS.trans {ds₁ ds₂ ds₃ : DisjointSet}
    (h₁ : EquivDS ds₁ ds₂) (h₂ : EquivDS ds₂ ds₃) : EquivDS ds₁ ds₃ :=
  ⟨h₂.1.trans h₁.1, h₂.2.1.trans h₁.2.1,
   fun w => (h₂.2.2.1 w).trans (h₁.2.2.1 w),
   fun z w => (h₂.2.2.2 z w).trans (h₁.2.2.2 z w)⟩

theorem iterP_of_isRoot {ds : DisjointSet} {r : VertexId} (h : isRootD ds r) :
    ∀ n, iterP ds n r = some r := by
  intro n
  cases n with
  | zero => rfl
  | succ n =>
    have hr : pget ds r = some r := h
    simp [iterP, hr]

theorem iterP_add (ds : DisjointSet) (m n : Nat) (x : VertexId) :
    iterP ds (m + n) x = (iterP ds n x).bind (iterP ds m) := by
  induction n generalizing x with
  | zero => simp [iterP]
  | succ n ih =>
    have : m + (n + 1) = (m + n) + 1 := by omega
    rw [this]
    simp only [iterP]
    rcases hp : pget ds x with _ | p
    · simp
    · by_cases hpx : p = x
      · subst hpx
        have hroot : isRootD ds p := hp
        simp [iterP_of_isRoot hroot]
      · simp [hpx, ih]

theorem iterP_stable {ds : DisjointSet} {n : Nat} {x r : VertexId}
    (h : iterP ds n x = some r) (hr : isRootD ds r) :
    ∀ m, n ≤ m → iterP ds m x = some r := by
  intro m hm
  have : m = (m - n) + n := by omega
  rw [this, iterP_add, h]
  simp [iterP_of_isRoot hr]

theorem ReachesD.unique {ds : DisjointSet} {x r₁ r₂ : VertexId}
    (h₁ : ReachesD ds x r₁) (h₂ : ReachesD ds x r₂) : r₁ = r₂ := by
  rcases h₁ with ⟨n₁, hn₁, hr₁⟩
  rcases h₂ with ⟨n₂, hn₂, hr₂⟩
  have e₁ := iterP_stable hn₁ hr₁ (max n₁ n₂) (Nat.le_max_left _ _)
  have e₂ := iterP_stable hn₂ hr₂ (max n₁ n₂) (Nat.le_max_right _ _)
  rw [e₁] at e₂
  exact Option.some_injective _ e₂

theorem ReachesD.of_isRoot {ds : DisjointSet} {r : VertexId} (h : isRootD ds r) :
    ReachesD ds r r := ⟨0, rfl, h⟩

theorem ReachesD.root_eq {ds : DisjointSet} {r w : VertexId} (hr : isRootD ds r)
    (h : ReachesD ds r w) : w = r :=
  h.unique (ReachesD.of_isRoot hr)

theorem ReachesD.step {ds : DisjointSet} {x p r : VertexId}
    (hp : pget ds x = some p) (hpx : p ≠ x) :
    ReachesD ds p r ↔ ReachesD ds x r := by
  constructor
  · rintro ⟨n, hn, hr⟩
    exact ⟨n + 1, by simp [iterP, hp, hpx, hn], hr⟩
  · rintro ⟨n, hn, hr⟩
    cases n with
    | zero =>
      cases hn
      have hr' : pget ds x = some x := hr
      rw [hr'] at hp
      exact absurd (Option.some_injective _ hp).symm hpx
    | succ n =>
      simp only [iterP, hp, hpx, if_neg hpx] at hn
      exact ⟨n, hn, hr⟩

theorem ReachesD.mem_keys {ds : DisjointSet} {x r : VertexId} (h : ReachesD ds x r) :
    x ∈ keys ds.parent := by
  rcases h with ⟨n, hn, hr⟩
  cases n with
  | zero =>
    cases hn
    rw [← mapGet_isSome_iff]
    have hr' : pget ds x = some x := hr
    unfold pget at hr'
    simp [hr']
  | succ n =>
    rw [← mapGet_isSome_iff]
    simp only [iterP] at hn
    rcases hp : pget ds x with _ | p
    · rw [hp] at hn; cases hn
    · simp [pget] at hp; simp [hp]

theorem isRootD.mem_keys' {ds : DisjointSet} {r : VertexId} (h : isRootD ds r) :
    r ∈ keys ds.parent :=
  (ReachesD.of_isRoot h).mem_keys

theorem iterP_isSome_of_le {ds : DisjointSet} {d : Nat} {x r : VertexId}
    (h : iterP ds d x = some r) : ∀ k ≤ d, (iterP ds k x).isSome := by
  intro k hk
  have hd : d = (d - k) + k := by omega
  rw [hd, iterP_add] at h
  rcases hx : iterP ds k x with _ | y
  · rw [hx] at h; simp at h
  · simp

theorem chain_mem_keys (ds : DisjointSet)
    (hclosed : ∀ x p, pget ds x = some p → p ∈ keys ds.parent)
    {x : VertexId} (hx : x ∈ keys ds.parent) :
    ∀ k y, iterP ds k x = some y → y ∈ keys ds.parent := by
  intro k
  induction k generalizing x with
  | zero => intro y hy; cases hy; exact hx
  | succ k ih =>
    intro y hy
    rw [iterP] at hy
    rcases hp : pget ds x with _ | p
    · simp only [hp] at hy
      cases hy
    · simp only [hp] at hy
      by_cases hpx : p = x
      · simp only [if_pos hpx] at hy
        cases hy; exact hx
      · simp only [if_neg hpx] at hy
        exact ih (hclosed x p hp) y hy

instance (ds : DisjointSet) (x : VertexId) (n : Nat) :
    Decidable (∃ r, iterP ds n x = some r ∧ isRootD ds r) :=
  match h : iterP ds n x with
  | none => isFalse (by rintro ⟨r, hr, -⟩; exact Option.noConfusion hr)
  | some y =>
    if hy : isRootD ds y then isTrue ⟨y, rfl, hy⟩
    else isFalse (by rintro ⟨r, hr, hroot⟩; cases hr; exact hy hroot)

/-- The key fuel bound: in a state with duplicate-free, closed parent map, a
vertex whose chain reaches a root does so within `parent.length` steps (the
chain visits pairwise distinct registered vertices). -/
theorem iterP_length_of_reaches (ds : DisjointSet)
    (hnodup : (keys ds.parent).Nodup)
    (hclosed : ∀ x p, pget ds x = some p → p ∈ keys ds.parent)
    {x r : VertexId} (hx : ReachesD ds x r) :
    iterP ds ds.parent.length x = some r := by
  have hxmem : x ∈ keys ds.parent := hx.mem_keys
  rcases hx with ⟨n₀, hn₀, hroot⟩
  have hex : ∃ m, ∃ r', iterP ds m x = some r' ∧ isRootD ds r' := ⟨n₀, r, hn₀, hroot⟩
  obtain ⟨r', hr', hroot'⟩ := Nat.find_spec hex
  have hrr : r' = r := (ReachesD.unique ⟨Nat.find hex, hr', hroot'⟩ ⟨n₀, hn₀, hroot⟩)
  rw [hrr] at hr' hroot'
  clear hrr
  have hinj : ∀ i j, i < j → j ≤ Nat.find hex → iterP ds i x ≠ iterP ds j x := by
    intro i j hij hjd hcontr
    have h2 : iterP ds (Nat.find hex) x = (iterP ds j x).bind (iterP ds (Nat.find hex - j)) := by
      rw [← iterP_add]
      congr 1
      omega
    rw [← hcontr, ← iterP_add] at h2
    refine Nat.find_min hex (show (Nat.find hex - j) + i < Nat.find hex by omega) ?_
    exact ⟨r, by rw [← h2]; exact hr', hroot'⟩
  have hcard : Nat.find hex + 1 ≤ (keys ds.parent).length := by
    have hmaps : ∀ k ∈ Finset.range (Nat.find hex + 1),
        (fun k => (iterP ds k x).getD 0) k ∈ (keys ds.parent).toFinset := by
      intro k hk
      rw [Finset.mem_range] at hk
      have hs := iterP_isSome_of_le hr' k (by omega)
      rcases hy : iterP ds k x with _ | y
      · rw [hy] at hs; simp at hs
      · simp only [hy, Option.getD_some]
        rw [List.mem_toFinset]
        exact chain_mem_keys ds hclosed hxmem k y hy
    have hinjon : Set.InjOn (fun k => (iterP ds k x).getD 0)
        (Finset.range (Nat.find hex + 1)) := by
      intro i hi j hj hij
      rw [Finset.coe_range, Set.mem_Iio] at hi hj
      by_contra hne
      rcases Nat.lt_or_ge i j with hlt | hge
      · have := hinj i j hlt (by omega)
        rcases hyi : iterP ds i x with _ | yi
        · have := iterP_isSome_of_le hr' i (by omega); rw [hyi] at this; simp at this
        · rcases hyj : iterP ds j x with _ | yj
          · have := iterP_isSome_of_le hr' j (by omega); rw [hyj] at this; simp at this
          · rw [hyi, hyj] at this
            simp only [hyi, hyj, Option.getD_some] at hij
            exact this (by rw [hij])
      · have hlt : j < i := by omega
        have := hinj j i hlt (by omega)
        rcases hyi : iterP ds i x with _ | yi
        · have := iterP_isSome_of_le hr' i (by omega); rw [hyi] at this; simp at this
        · rcases hyj : iterP ds j x with _ | yj
          · have := iterP_isSome_of_le hr' j (by omega); rw [hyj] at this; simp at this
          · rw [hyi, hyj] at this
            simp only [hyi, hyj, Option.getD_some] at hij
            exact this (by rw [hij])
    have := Finset.card_le_card_of_injOn _ hmaps hinjon
    simp only [Finset.card_range] at this
    exact le_trans this (List.toFinset_card_le _)
  have hlen : (keys ds.parent).length = ds.parent.length := by simp [keys]
  exact iterP_stable hr' hroot' ds.parent.length (by omega)

/-- Two vertices are in the same set: their parent chains end at the same root. -/
def sameSetD (ds : DisjointSet) (x y : VertexId) : Prop :=
  ∃ r, ReachesD ds x r ∧ ReachesD ds y r

theorem sameSetD.refl' {ds : DisjointSet} {x : VertexId} (hx : x ∈ keys ds.parent)
    (hwf : WFds ds) : sameSetD ds x x := by
  obtain ⟨r, hr⟩ := hwf.termin x hx
  exact ⟨r, hr, hr⟩

theorem sameSetD.symm {ds : DisjointSet} {x y : VertexId} (h : sameSetD ds x y) :
    sameSetD ds y x := by
  obtain ⟨r, h₁, h₂⟩ := h
  exact ⟨r, h₂, h₁⟩

theorem sameSetD.trans' {ds : DisjointSet} {x y z : VertexId}
    (h₁ : sameSetD ds x y) (h₂ : sameSetD ds y z) : sameSetD ds x z := by
  obtain ⟨r, hx, hy⟩ := h₁
  obtain ⟨r', hy', hz⟩ := h₂
  rw [ReachesD.unique hy hy'] at hx
  exact ⟨r', hx, hz⟩

theorem EquivDS.sameSet_iff {ds ds' : DisjointSet} (h : EquivDS ds ds') (x y : VertexId) :
    sameSetD ds' x y ↔ sameSetD ds x y := by
  unfold sameSetD
  constructor
  · rintro ⟨r, h₁, h₂⟩; exact ⟨r, (h.2.2.2 _ _).mp h₁, (h.2.2.2 _ _).mp h₂⟩
  · rintro ⟨r, h₁, h₂⟩; exact ⟨r, (h.2.2.2 _ _).mpr h₁, (h.2.2.2 _ _).mpr h₂⟩

/-- Path-compression step: repointing a vertex whose chain ends at root `r`
directly at `r` changes nothing observable and preserves well-formedness. -/
theorem compress_spec (ds ds' : DisjointSet) (x r : VertexId)
    (hds' : ds' = { ds with parent := mapSet ds.parent x r })
    (hroot : isRootD ds r) (hreach : ReachesD ds x r) :
    EquivDS ds ds' ∧ (WFds ds → WFds ds') := by
  have hxk : x ∈ keys ds.parent := hreach.mem_keys
  have hpget : ∀ z, pget ds' z = if z = x then some r else pget ds z := by
    intro z
    by_cases hz : z = x
    · subst hz; simp [hds', pget, mapGet_set_self]
    · simp [hds', pget, mapGet_set_ne _ _ _ _ hz, hz]
  have hkeys : keys ds'.parent = keys ds.parent := by
    rw [hds']; exact keys_mapSet_of_mem _ _ _ hxk
  have hrank : ds'.rank = ds.rank := by rw [hds']
  have hrootx : isRootD ds x ↔ r = x := by
    constructor
    · intro hx
      exact hreach.unique (ReachesD.of_isRoot hx)
    · intro hrx
      rw [← hrx]
      exact hroot
  have hroots : ∀ w, isRootD ds' w ↔ isRootD ds w := by
    intro w
    by_cases hw : w = x
    · subst hw
      have h1 : pget ds' w = some r := by rw [hpget w]; simp
      unfold isRootD
      rw [h1]
      constructor
      · intro hsome
        exact hrootx.mpr (Option.some_injective _ hsome)
      · intro h
        exact congrArg some (hrootx.mp h)
    · unfold isRootD
      rw [hpget w, if_neg hw]
  have hA : ∀ n z w, iterP ds' n z = some w → isRootD ds' w → ReachesD ds z w := by
    intro n
    induction n with
    | zero =>
      intro z w hz hw
      cases hz
      exact ReachesD.of_isRoot ((hroots z).mp hw)
    | succ n ih =>
      intro z w hz hw
      rw [iterP] at hz
      by_cases hzx : z = x
      · subst hzx
        have hpz : pget ds' z = some r := by rw [hpget z]; simp
        simp only [hpz] at hz
        by_cases hrz : r = z
        · rw [if_pos hrz] at hz
          cases hz
          exact ReachesD.of_isRoot ((hroots z).mp hw)
        · rw [if_neg hrz] at hz
          have hrw := ih r w hz hw
          have : w = r := hrw.root_eq hroot
          subst this
          exact hreach
      · have hps : pget ds' z = pget ds z := by rw [hpget z]; simp [hzx]
        rw [hps] at hz
        rcases hp : pget ds z with _ | p
        · simp only [hp] at hz
          exact Option.noConfusion hz
        · simp only [hp] at hz
          by_cases hpz : p = z
          · rw [if_pos hpz] at hz
            cases hz
            exact ReachesD.of_isRoot ((hroots z).mp hw)
          · rw [if_neg hpz] at hz
            exact (ReachesD.step hp hpz).mp (ih p w hz hw)
  have hB : ∀ n z w, iterP ds n z = some w → isRootD ds w → ReachesD ds' z w := by
    intro n
    induction n with
    | zero =>
      intro z w hz hw
      cases hz
      exact ReachesD.of_isRoot ((hroots z).mpr hw)
    | succ n ih =>
      intro z w hz hw
      by_cases hzx : z = x
      · have hzw : ReachesD ds z w := ⟨n + 1, hz, hw⟩
        have hwr : w = r := ReachesD.unique hzw (hzx ▸ hreach)
        subst hwr
        by_cases hrz : w = z
        · rw [← hrz]
          exact ReachesD.of_isRoot ((hroots w).mpr hroot)
        · have hstep : pget ds' z = some w := by rw [hpget z]; simp [hzx]
          refine (@ReachesD.step ds' _ _ _ hstep hrz).mp ?_
          exact ReachesD.of_isRoot ((hroots w).mpr hroot)
      · rw [iterP] at hz
        rcases hp : pget ds z with _ | p
        · simp only [hp] at hz
          exact Option.noConfusion hz
        · simp only [hp] at hz
          by_cases hpz : p = z
          · rw [if_pos hpz] at hz
            cases hz
            exact ReachesD.of_isRoot ((hroots z).mpr hw)
          · rw [if_neg hpz] at hz
            have hstep : pget ds' z = some p := by rw [hpget z]; simp [hzx, hp]
            exact (@ReachesD.step ds' _ _ _ hstep hpz).mp (ih p w hz hw)
  have hreachiff : ∀ z w, ReachesD ds' z w ↔ ReachesD ds z w := by
    intro z w
    constructor
    · rintro ⟨n, hn, hw⟩; exact hA n z w hn hw
    · rintro ⟨n, hn, hw⟩; exact hB n z w hn hw
  refine ⟨⟨hkeys, hrank, hroots, hreachiff⟩, ?_⟩
  intro hwf
  refine ⟨hkeys ▸ hwf.nodupK, ?_, ?_, ?_⟩
  · intro z p hp
    rw [hpget z] at hp
    rw [hkeys]
    by_cases hz : z = x
    · rw [if_pos hz] at hp
      cases hp
      exact hroot.mem_keys'
    · rw [if_neg hz] at hp
      exact hwf.closed z p hp
  · intro z hz
    rw [hkeys] at hz
    obtain ⟨w, hw⟩ := hwf.termin z hz
    exact ⟨w, (hreachiff z w).mpr hw⟩
  · intro z
    rw [hkeys, hrank]
    exact hwf.rankK z

/-- `findSetAux` with enough fuel returns the chain's root, semantics- and
invariant-preservingly (path compression included). -/
theorem findSetAux_spec (ds : DisjointSet) :
    ∀ (fuel : Nat) (x r : VertexId), iterP ds fuel x = some r → isRootD ds r →
    ∃ ds', findSetAux ds x (fuel + 1) = .ok (r, ds') ∧ EquivDS ds ds' ∧
      (WFds ds → WFds ds') := by
  intro fuel
  induction fuel using Nat.strong_induction_on with
  | _ fuel ih =>
    intro x r hiter hroot
    rcases hp : pget ds x with _ | p
    · -- the chain leaves the map: impossible, the iterate would be `none`
      exfalso
      cases fuel with
      | zero =>
        cases hiter
        have := hroot.mem_keys'
        rw [← mapGet_isSome_iff] at this
        have hx := hp
        unfold pget at hx
        rw [hx] at this
        simp at this
      | succ n =>
        rw [iterP] at hiter
        simp only [hp] at hiter
        exact Option.noConfusion hiter
    · by_cases hpx : p = x
      · -- `x` is a root: `findSet` returns it unchanged
        have hrx : isRootD ds x := by
          unfold isRootD; rw [hp, hpx]
        have hxr : x = r := by
          have h1 : iterP ds fuel x = some x := iterP_of_isRoot hrx fuel
          rw [h1] at hiter
          exact Option.some_injective _ hiter
        rcases hxr

        refine ⟨ds, ?_, EquivDS.refl ds, fun h => h⟩
        show findSetAux ds x (fuel + 1) = .ok (x, ds)
        rw [findSetAux]
        simp only [show mapGet ds.parent x = some p from hp, hpx]
        simp
      · -- recursive case: `fuel ≥ 1` and the parent's chain is one shorter
        cases fuel with
        | zero =>
          exfalso
          cases hiter
          have hrr : pget ds x = some x := hroot
          rw [hrr] at hp
          exact hpx (Option.some_injective _ hp.symm)
        | succ n =>
          have hiter' : iterP ds n p = some r := by
            rw [iterP] at hiter
            simp only [hp, if_neg hpx] at hiter
            exact hiter
          obtain ⟨ds₁, hok₁, hequiv₁, hwf₁⟩ := ih n (by omega) p r hiter' hroot
          have hreach : ReachesD ds x r :=
            (ReachesD.step hp hpx).mp ⟨n, hiter', hroot⟩
          have hroot₁ : isRootD ds₁ r := (hequiv₁.2.2.1 r).mpr hroot
          have hreach₁ : ReachesD ds₁ x r := (hequiv₁.2.2.2 x r).mpr hreach
          obtain ⟨hequiv₂, hwf₂⟩ :=
            compress_spec ds₁ { ds₁ with parent := mapSet ds₁.parent x r } x r rfl
              hroot₁ hreach₁
          refine ⟨{ ds₁ with parent := mapSet ds₁.parent x r }, ?_,
            EquivDS.trans hequiv₁ hequiv₂, fun h => hwf₂ (hwf₁ h)⟩
          rw [findSetAux]
          simp only [show mapGet ds.parent x = some p from hp, if_neg hpx, hok₁]

/-- `findSet` on a registered vertex of a well-formed state: returns the root
of the vertex's set, never errs, preserves the partition and the invariant. -/
theorem findSet_spec (ds : DisjointSet) (hwf : WFds ds) (x : VertexId)
    (hx : x ∈ keys ds.parent) :
    ∃ r ds', ds.findSet x = .ok (r, ds') ∧ ReachesD ds x r ∧ EquivDS ds ds' ∧
      WFds ds' := by
  obtain ⟨r, hr⟩ := hwf.termin x hx
  have hiter := iterP_length_of_reaches ds hwf.nodupK hwf.closed hr
  obtain ⟨-, -, hroot⟩ := hr
  obtain ⟨ds', hok, hequiv, hwf'⟩ := findSetAux_spec ds ds.parent.length x r hiter hroot
  exact ⟨r, ds', hok, ⟨ds.parent.length, hiter, hroot⟩, hequiv, hwf' hwf⟩

/-- `findSet` on an unregistered vertex raises the `NotFound` error. -/
theorem findSet_notFound (ds : DisjointSet) (x : VertexId)
    (hx : x ∉ keys ds.parent) :
    ds.findSet x = .error s!"Vertex {x} not found in disjoint set" := by
  unfold DisjointSet.findSet
  rw [findSetAux]
  have h : mapGet ds.parent x = none := (mapGet_eq_none_iff _ _).mpr hx
  simp only [h]

/-- Linking two distinct roots (`parent[dead] := live`, possibly with a rank
update): the registered vertices are unchanged, `dead` stops being a root, and
every chain that ended at `dead` now ends at `live`. -/
theorem link_spec (ds ds' : DisjointSet) (dead live : VertexId)
    (hpar : ds'.parent = mapSet ds.parent dead live)
    (hdead : isRootD ds dead) (hlive : isRootD ds live) (hne : dead ≠ live) :
    keys ds'.parent = keys ds.parent ∧
    (∀ w, isRootD ds' w ↔ (isRootD ds w ∧ w ≠ dead)) ∧
    (∀ z w, ReachesD ds' z w ↔
      ((ReachesD ds z w ∧ w ≠ dead) ∨ (ReachesD ds z dead ∧ w = live))) := by
  have hdk : dead ∈ keys ds.parent := hdead.mem_keys'
  have hpget : ∀ z, pget ds' z = if z = dead then some live else pget ds z := by
    intro z
    by_cases hz : z = dead
    · subst hz; simp [hpar, pget, mapGet_set_self]
    · simp [hpar, pget, mapGet_set_ne _ _ _ _ hz, hz]
  have hkeys : keys ds'.parent = keys ds.parent := by
    rw [hpar]; exact keys_mapSet_of_mem _ _ _ hdk
  have hroots : ∀ w, isRootD ds' w ↔ (isRootD ds w ∧ w ≠ dead) := by
    intro w
    by_cases hw : w = dead
    · subst hw
      have h1 : pget ds' w = some live := by rw [hpget w]; simp
      unfold isRootD
      rw [h1]
      constructor
      · intro hsome
        exact absurd (Option.some_injective _ hsome).symm hne
      · rintro ⟨-, hww⟩
        exact absurd rfl hww
    · unfold isRootD
      rw [hpget w, if_neg hw]
      exact ⟨fun h => ⟨h, hw⟩, fun h => h.1⟩
  refine ⟨hkeys, hroots, ?_⟩
  have hfwd : ∀ n z w, iterP ds' n z = some w → isRootD ds' w →
      (ReachesD ds z w ∧ w ≠ dead) ∨ (ReachesD ds z dead ∧ w = live) := by
    intro n
    induction n with
    | zero =>
      intro z w hz hw
      cases hz
      have := (hroots z).mp hw
      exact Or.inl ⟨ReachesD.of_isRoot this.1, this.2⟩
    | succ n ih =>
      intro z w hz hw
      rw [iterP] at hz
      by_cases hzd : z = dead
      · have h1 : pget ds' z = some live := by rw [hpget z]; simp [hzd]
        simp only [h1] at hz
        by_cases hlz : live = z
        · exact absurd (hlz.trans hzd) (Ne.symm hne)
        · rw [if_neg hlz] at hz
          rcases ih live w hz hw with ⟨hreach, hwd⟩ | ⟨hreach, hwl⟩
          · have hwl : w = live := hreach.root_eq hlive
            refine Or.inr ⟨?_, hwl⟩
            rw [hzd]
            exact ReachesD.of_isRoot hdead
          · exact absurd (hreach.root_eq hlive) hne
      · have h1 : pget ds' z = pget ds z := by rw [hpget z]; simp [hzd]
        rw [h1] at hz
        rcases hp : pget ds z with _ | p
        · simp only [hp] at hz
          exact Option.noConfusion hz
        · simp only [hp] at hz
          by_cases hpz : p = z
          · rw [if_pos hpz] at hz
            cases hz
            have := (hroots z).mp hw
            exact Or.inl ⟨ReachesD.of_isRoot this.1, this.2⟩
          · rw [if_neg hpz] at hz
            rcases ih p w hz hw with ⟨hreach, hwd⟩ | ⟨hreach, hwl⟩
            · exact Or.inl ⟨(ReachesD.step hp hpz).mp hreach, hwd⟩
            · exact Or.inr ⟨(ReachesD.step hp hpz).mp hreach, hwl⟩
  have hbwd₁ : ∀ n z w, iterP ds n z = some w → isRootD ds w → w ≠ dead →
      ReachesD ds' z w := by
    intro n
    induction n with
    | zero =>
      intro z w hz hw hwd
      cases hz
      exact ReachesD.of_isRoot ((hroots z).mpr ⟨hw, hwd⟩)
    | succ n ih =>
      intro z w hz hw hwd
      rw [iterP] at hz
      rcases hp : pget ds z with _ | p
      · simp only [hp] at hz
        exact Option.noConfusion hz
      · simp only [hp] at hz
        by_cases hpz : p = z
        · rw [if_pos hpz] at hz
          cases hz
          exact ReachesD.of_isRoot ((hroots z).mpr ⟨hw, hwd⟩)
        · rw [if_neg hpz] at hz
          have hzd : z ≠ dead := by
            intro hcontr
            subst hcontr
            have : pget ds z = some z := hdead
            rw [this] at hp
            exact hpz (Option.some_injective _ hp.symm)
          have hstep : pget ds' z = some p := by rw [hpget z]; simp [hzd, hp]
          exact (@ReachesD.step ds' _ _ _ hstep hpz).mp (ih p w hz hw hwd)
  have hbwd₂ : ∀ n z, iterP ds n z = some dead → ReachesD ds' z live := by
    intro n
    induction n with
    | zero =>
      intro z hz
      have hzd : z = dead := Option.some_injective _ hz
      have hstep : pget ds' z = some live := by rw [hpget z]; simp [hzd]
      refine (@ReachesD.step ds' _ _ _ hstep ?_).mp ?_
      · rw [hzd]; exact fun h => hne h.symm
      · exact ReachesD.of_isRoot ((hroots live).mpr ⟨hlive, Ne.symm hne⟩)
    | succ n ih =>
      intro z hz
      by_cases hzd : z = dead
      · have hstep : pget ds' z = some live := by rw [hpget z]; simp [hzd]
        refine (@ReachesD.step ds' _ _ _ hstep ?_).mp ?_
        · rw [hzd]; exact fun h => hne h.symm
        · exact ReachesD.of_isRoot ((hroots live).mpr ⟨hlive, Ne.symm hne⟩)
      · rw [iterP] at hz
        rcases hp : pget ds z with _ | p
        · simp only [hp] at hz
          exact Option.noConfusion hz
        · simp only [hp] at hz
          by_cases hpz : p = z
          · rw [if_pos hpz] at hz
            exact absurd (Option.some_injective _ hz) hzd
          · rw [if_neg hpz] at hz
            have hstep : pget ds' z = some p := by rw [hpget z]; simp [hzd, hp]
            exact (@ReachesD.step ds' _ _ _ hstep hpz).mp (ih p hz)
  intro z w
  constructor
  · rintro ⟨n, hn, hw⟩
    exact hfwd n z w hn hw
  · rintro (⟨⟨n, hn, hw⟩, hwd⟩ | ⟨⟨n, hn, hw⟩, hwl⟩)
    · exact hbwd₁ n z w hn hw hwd
    · subst hwl
      exact hbwd₂ n z hn

/-! ### The constructor -/

theorem keys_foldl_mapSet {β : Type _} (f : VertexId → β) (vs : List VertexId) :
    ∀ (acc : List (VertexId × β)) (x : VertexId),
      x ∈ keys (vs.foldl (fun m v => mapSet m v (f v)) acc) ↔ x ∈ keys acc ∨ x ∈ vs := by
  induction vs with
  | nil => intro acc x; simp
  | cons v t ih =>
    intro acc x
    rw [List.foldl_cons, ih]
    rw [mem_keys_mapSet_iff]
    constructor
    · rintro ((h | h) | h)
      · exact Or.inl h
      · exact Or.inr (by simp [h])
      · exact Or.inr (by simp [h])
    · rintro (h | h)
      · exact Or.inl (Or.inl h)
      · rcases List.mem_cons.mp h with h | h
        · exact Or.inl (Or.inr h)
        · exact Or.inr h

theorem mapGet_foldl_mapSet {β : Type _} (f : VertexId → β) (vs : List VertexId) :
    ∀ (acc : List (VertexId × β)),
      (∀ k w, mapGet acc k = some w → w = f k) →
      ∀ k w, mapGet (vs.foldl (fun m v => mapSet m v (f v)) acc) k = some w → w = f k := by
  induction vs with
  | nil => intro acc hacc k w h; exact hacc k w h
  | cons v t ih =>
    intro acc hacc k w h
    refine ih (mapSet acc v (f v)) ?_ k w h
    intro k' w' h'
    by_cases hk : k' = v
    · subst hk
      rw [mapGet_set_self] at h'
      exact (Option.some_injective _ h').symm
    · rw [mapGet_set_ne _ _ _ _ hk] at h'
      exact hacc k' w' h'

theorem nodup_keys_foldl_mapSet {β : Type _} (f : VertexId → β) (vs : List VertexId) :
    ∀ (acc : List (VertexId × β)), (keys acc).Nodup →
      (keys (vs.foldl (fun m v => mapSet m v (f v)) acc)).Nodup := by
  induction vs with
  | nil => intro acc h; exact h
  | cons v t ih =>
    intro acc h
    rw [List.foldl_cons]
    refine ih _ ?_
    by_cases hv : v ∈ keys acc
    · rwa [keys_mapSet_of_mem _ _ _ hv]
    · rw [keys_mapSet_of_not_mem _ _ _ hv]
      simp [List.nodup_append, h, hv]

theorem keys_foldl_mapSet_of_nodup {β : Type _} (f : VertexId → β) (vs : List VertexId) :
    ∀ (acc : List (VertexId × β)), vs.Nodup → (∀ v ∈ vs, v ∉ keys acc) →
      keys (vs.foldl (fun m v => mapSet m v (f v)) acc) = keys acc ++ vs := by
  induction vs with
  | nil => intro acc _ _; simp
  | cons v t ih =>
    intro acc hnodup hdisj
    rw [List.foldl_cons]
    have hv : v ∉ keys acc := hdisj v (by simp)
    rw [ih _ (List.nodup_cons.mp hnodup).2 ?_, keys_mapSet_of_not_mem _ _ _ hv]
    · simp
    · intro w hw
      rw [keys_mapSet_of_not_mem _ _ _ hv]
      simp only [List.mem_append, List.mem_singleton]
      rintro (h | h)
      · exact hdisj w (by simp [hw]) h
      · exact (List.nodup_cons.mp hnodup).1 (h ▸ hw)

/-- The constructor produces a well-formed state in which every listed vertex is
registered, self-parented (its own root), and nothing else is registered. -/
theorem ofVertices_spec (vs : List VertexId) :
    WFds (DisjointSet.ofVertices vs) ∧
    (∀ x, x ∈ keys (DisjointSet.ofVertices vs).parent ↔ x ∈ vs) ∧
    (∀ x ∈ vs, isRootD (DisjointSet.ofVertices vs) x) ∧
    (∀ x r, ReachesD (DisjointSet.ofVertices vs) x r → r = x) := by
  set ds := DisjointSet.ofVertices vs with hds
  have hkeysP : ∀ x, x ∈ keys ds.parent ↔ x ∈ vs := by
    intro x
    rw [hds]
    unfold DisjointSet.ofVertices
    rw [keys_foldl_mapSet (fun v => v) vs [] x]
    simp [keys]
  have hkeysR : ∀ x, x ∈ keys ds.rank ↔ x ∈ vs := by
    intro x
    rw [hds]
    unfold DisjointSet.ofVertices
    rw [keys_foldl_mapSet (fun _ => 0) vs [] x]
    simp [keys]
  have hself : ∀ k w, mapGet ds.parent k = some w → w = k := by
    intro k w h
    rw [hds] at h
    exact mapGet_foldl_mapSet (fun v => v) vs [] (by intro k' w' h'; simp [mapGet] at h') k w h
  have hroot : ∀ x ∈ vs, isRootD ds x := by
    intro x hx
    have hmem : x ∈ keys ds.parent := (hkeysP x).mpr hx
    rw [← mapGet_isSome_iff] at hmem
    rcases hp : mapGet ds.parent x with _ | w
    · rw [hp] at hmem; simp at hmem
    · have := hself x w hp
      subst this
      exact hp
  have hreach : ∀ x r, ReachesD ds x r → r = x := by
    rintro x r ⟨n, hn, hr⟩
    cases n with
    | zero => exact (Option.some_injective _ hn).symm
    | succ n =>
      rw [iterP] at hn
      rcases hp : pget ds x with _ | p
      · simp only [hp] at hn
        exact Option.noConfusion hn
      · have hpx : p = x := hself x p hp
        simp only [hp, if_pos hpx] at hn
        exact (Option.some_injective _ hn).symm
  refine ⟨⟨?_, ?_, ?_, ?_⟩, hkeysP, hroot, hreach⟩
  · rw [hds]
    unfold DisjointSet.ofVertices
    exact nodup_keys_foldl_mapSet _ vs [] (by simp [keys])
  · intro x p hp
    have := hself x p hp
    subst this
    exact (ReachesD.of_isRoot hp).mem_keys
  · intro x hx
    have hr := hroot x ((hkeysP x).mp hx)
    exact ⟨x, ReachesD.of_isRoot hr⟩
  · intro x
    rw [hkeysP x, hkeysR x]

/-- With a duplicate-free vertex list the registered vertices are exactly the
list, in order. -/
theorem ofVertices_keys_of_nodup (vs : List VertexId) (h : vs.Nodup) :
    keys (DisjointSet.ofVertices vs).parent = vs := by
  unfold DisjointSet.ofVertices
  rw [keys_foldl_mapSet_of_nodup (fun v => v) vs [] h (by simp [keys])]
  simp [keys]

/-! ### Roots counting and `union` -/

/-- The set of roots: one per class. -/
def rootsFinset (ds : DisjointSet) : Finset VertexId :=
  (keys ds.parent).toFinset.filter (fun x => isRootD ds x)

theorem rootsFinset_congr {ds ds' : DisjointSet} (h : EquivDS ds ds') :
    rootsFinset ds' = rootsFinset ds := by
  unfold rootsFinset
  rw [h.1]
  ext w
  simp only [Finset.mem_filter]
  rw [h.2.2.1 w]

/-- Vertices in the same set have a common root in `rootsFinset`. -/
theorem sameSet_root_mem {ds : DisjointSet} {x y : VertexId} (h : sameSetD ds x y) :
    ∃ r, r ∈ rootsFinset ds ∧ ReachesD ds x r ∧ ReachesD ds y r := by
  obtain ⟨r, hx, hy⟩ := h
  obtain ⟨n, hn, hr⟩ := hx
  refine ⟨r, ?_, ⟨n, hn, hr⟩, hy⟩
  unfold rootsFinset
  rw [Finset.mem_filter, List.mem_toFinset]
  exact ⟨hr.mem_keys', by simpa using hr⟩

/-- The effect of linking on the same-set relation: the two classes merge. -/
theorem sameSet_link (ds ds' : DisjointSet) (dead live ra rb a b : VertexId)
    (hiff : ∀ z w, ReachesD ds' z w ↔
      ((ReachesD ds z w ∧ w ≠ dead) ∨ (ReachesD ds z dead ∧ w = live)))
    (hra : ReachesD ds a ra) (hrb : ReachesD ds b rb)
    (hdl : (dead = ra ∧ live = rb) ∨ (dead = rb ∧ live = ra))
    (hne : dead ≠ live) :
    ∀ z w, sameSetD ds' z w ↔
      (sameSetD ds z w ∨ (sameSetD ds z a ∧ sameSetD ds b w) ∨
       (sameSetD ds z b ∧ sameSetD ds a w)) := by
  have hrootra : isRootD ds ra := by obtain ⟨-, -, h⟩ := hra; exact h
  have hrootrb : isRootD ds rb := by obtain ⟨-, -, h⟩ := hrb; exact h
  intro z w
  constructor
  · rintro ⟨r, hz, hw⟩
    rcases (hiff z r).mp hz with ⟨hz', hrd⟩ | ⟨hz', hrl⟩ <;>
      rcases (hiff w r).mp hw with ⟨hw', hrd'⟩ | ⟨hw', hrl'⟩
    · exact Or.inl ⟨r, hz', hw'⟩
    · -- `z` reaches `r = live`, `w` reaches `dead`
      rcases hdl with ⟨hd, hl⟩ | ⟨hd, hl⟩
      · rw [hrl', hl] at hz'
        rw [hd] at hw'
        exact Or.inr (Or.inr ⟨⟨rb, hz', hrb⟩, ⟨ra, hra, hw'⟩⟩)
      · rw [hrl', hl] at hz'
        rw [hd] at hw'
        exact Or.inr (Or.inl ⟨⟨ra, hz', hra⟩, ⟨rb, hrb, hw'⟩⟩)
    · -- `z` reaches `dead`, `w` reaches `r = live`
      rcases hdl with ⟨hd, hl⟩ | ⟨hd, hl⟩
      · rw [hd] at hz'
        rw [hrl, hl] at hw'
        exact Or.inr (Or.inl ⟨⟨ra, hz', hra⟩, ⟨rb, hrb, hw'⟩⟩)
      · rw [hd] at hz'
        rw [hrl, hl] at hw'
        exact Or.inr (Or.inr ⟨⟨rb, hz', hrb⟩, ⟨ra, hra, hw'⟩⟩)
    · exact Or.inl ⟨dead, hz', hw'⟩
  · have hlive_ne : live ≠ dead := Ne.symm hne
    rintro (⟨r, hz, hw⟩ | ⟨⟨r₁, hz, hra'⟩, ⟨r₂, hrb', hw⟩⟩ | ⟨⟨r₁, hz, hrb'⟩, ⟨r₂, hra', hw⟩⟩)
    · by_cases hrd : r = dead
      · subst hrd
        exact ⟨live, (hiff z live).mpr (Or.inr ⟨hz, rfl⟩),
               (hiff w live).mpr (Or.inr ⟨hw, rfl⟩)⟩
      · exact ⟨r, (hiff z r).mpr (Or.inl ⟨hz, hrd⟩),
               (hiff w r).mpr (Or.inl ⟨hw, hrd⟩)⟩
    · -- common roots with `a` and with `b`
      rcases hdl with ⟨hd, hl⟩ | ⟨hd, hl⟩
      · have h1 : r₁ = ra := hra'.unique hra
        have h2 : r₂ = rb := hrb'.unique hrb
        rw [h1, ← hd] at hz
        rw [h2, ← hl] at hw
        exact ⟨live, (hiff z live).mpr (Or.inr ⟨hz, rfl⟩),
               (hiff w live).mpr (Or.inl ⟨hw, hlive_ne⟩)⟩
      · have h1 : r₁ = ra := hra'.unique hra
        have h2 : r₂ = rb := hrb'.unique hrb
        rw [h1, ← hl] at hz
        rw [h2, ← hd] at hw
        exact ⟨live, (hiff z live).mpr (Or.inl ⟨hz, hlive_ne⟩),
               (hiff w live).mpr (Or.inr ⟨hw, rfl⟩)⟩
    · rcases hdl with ⟨hd, hl⟩ | ⟨hd, hl⟩
      · have h1 : r₁ = rb := hrb'.unique hrb
        have h2 : r₂ = ra := hra'.unique hra
        rw [h1, ← hl] at hz
        rw [h2, ← hd] at hw
        exact ⟨live, (hiff z live).mpr (Or.inl ⟨hz, hlive_ne⟩),
               (hiff w live).mpr (Or.inr ⟨hw, rfl⟩)⟩
      · have h1 : r₁ = rb := hrb'.unique hrb
        have h2 : r₂ = ra := hra'.unique hra
        rw [h1, ← hd] at hz
        rw [h2, ← hl] at hw
        exact ⟨live, (hiff z live).mpr (Or.inr ⟨hz, rfl⟩),
               (hiff w live).mpr (Or.inl ⟨hw, hlive_ne⟩)⟩

theorem link_wf (ds ds' : DisjointSet) (dead live : VertexId)
    (hpar : ds'.parent = mapSet ds.parent dead live)
    (hdead : isRootD ds dead) (hlive : isRootD ds live) (hne : dead ≠ live)
    (hwf : WFds ds) (hrk : ∀ x, x ∈ keys ds.rank ↔ x ∈ keys ds'.rank) :
    WFds ds' := by
  obtain ⟨hkeys, hroots, hreach⟩ := link_spec ds ds' dead live hpar hdead hlive hne
  refine ⟨hkeys ▸ hwf.nodupK, ?_, ?_, ?_⟩
  · intro z p hp
    rw [hkeys]
    by_cases hz : z = dead
    · have h1 : pget ds' z = some live := by
        rw [hz]; simp [hpar, pget, mapGet_set_self]
      rw [h1] at hp
      cases hp
      exact hlive.mem_keys'
    · have h1 : pget ds' z = pget ds z := by
        simp [hpar, pget, mapGet_set_ne _ _ _ _ hz]
      rw [h1] at hp
      exact hwf.closed z p hp
  · intro z hz
    rw [hkeys] at hz
    obtain ⟨r, hr⟩ := hwf.termin z hz
    by_cases hrd : r = dead
    · exact ⟨live, (hreach z live).mpr (Or.inr ⟨hrd ▸ hr, rfl⟩)⟩
    · exact ⟨r, (hreach z r).mpr (Or.inl ⟨hr, hrd⟩)⟩
  · intro x
    rw [hkeys, ← hrk x]
    exact hwf.rankK x

theorem rootsFinset_link (ds ds' : DisjointSet) (dead : VertexId)
    (hkeys : keys ds'.parent = keys ds.parent)
    (hroots : ∀ w, isRootD ds' w ↔ (isRootD ds w ∧ w ≠ dead)) :
    rootsFinset ds' = (rootsFinset ds).erase dead := by
  ext w
  simp only [rootsFinset, Finset.mem_filter, Finset.mem_erase, List.mem_toFinset, hkeys,
    decide_eq_true_eq, hroots w]
  tauto

/-- `union` on two registered vertices of a well-formed state never errs,
returns `true` exactly when the two sets were distinct, and in that case merges
exactly those two classes (removing one root); on `false` nothing observable
changes. -/
theorem union_spec (ds : DisjointSet) (hwf : WFds ds) (a b : VertexId)
    (ha : a ∈ keys ds.parent) (hb : b ∈ keys ds.parent) :
    ∃ flag ds', ds.union a b = .ok (flag, ds') ∧ WFds ds' ∧
      keys ds'.parent = keys ds.parent ∧
      ((flag = false ∧ sameSetD ds a b ∧ EquivDS ds ds' ∧
          rootsFinset ds' = rootsFinset ds) ∨
       (flag = true ∧ ¬ sameSetD ds a b ∧
          (rootsFinset ds').card + 1 = (rootsFinset ds).card ∧
          (∀ z w, sameSetD ds' z w ↔
            (sameSetD ds z w ∨ (sameSetD ds z a ∧ sameSetD ds b w) ∨
             (sameSetD ds z b ∧ sameSetD ds a w))))) := by
  obtain ⟨ra, ds₁, hok₁, hra, heq₁, hwf₁⟩ := findSet_spec ds hwf a ha
  have hb₁ : b ∈ keys ds₁.parent := heq₁.1.symm ▸ hb
  obtain ⟨rb, ds₂, hok₂, hrb₁, heq₂, hwf₂⟩ := findSet_spec ds₁ hwf₁ b hb₁
  have heq : EquivDS ds ds₂ := heq₁.trans heq₂
  have hrb : ReachesD ds b rb := (heq₁.2.2.2 b rb).mp hrb₁
  have hraroot : isRootD ds ra := by obtain ⟨-, -, h⟩ := hra; exact h
  have hrbroot : isRootD ds rb := by obtain ⟨-, -, h⟩ := hrb; exact h
  by_cases hrr : ra = rb
  · refine ⟨false, ds₂, ?_, hwf₂, heq.1,
      Or.inl ⟨rfl, ⟨ra, hra, hrr ▸ hrb⟩, heq, rootsFinset_congr heq⟩⟩
    unfold DisjointSet.union
    simp only [hok₁, hok₂]
    simp [hrr]
  · have hnosame : ¬ sameSetD ds a b := by
      rintro ⟨r, har, hbr⟩
      exact hrr ((har.unique hra).symm.trans (hbr.unique hrb))
    have hra₂ : isRootD ds₂ ra := (heq.2.2.1 ra).mpr hraroot
    have hrb₂ : isRootD ds₂ rb := (heq.2.2.1 rb).mpr hrbroot
    have hraR : ReachesD ds₂ a ra := (heq.2.2.2 a ra).mpr hra
    have hrbR : ReachesD ds₂ b rb := (heq.2.2.2 b rb).mpr hrb
    have hraK : ra ∈ keys ds₂.rank := (hwf₂.rankK ra).mp hra₂.mem_keys'
    have hrbK : rb ∈ keys ds₂.rank := (hwf₂.rankK rb).mp hrb₂.mem_keys'
    have hraS := (mapGet_isSome_iff ds₂.rank ra).mpr hraK
    have hrbS := (mapGet_isSome_iff ds₂.rank rb).mpr hrbK
    rcases hA : mapGet ds₂.rank ra with _ | rankA
    · rw [hA] at hraS; simp at hraS
    rcases hB : mapGet ds₂.rank rb with _ | rankB
    · rw [hB] at hrbS; simp at hrbS
    have hcompute : ∀ ds' : DisjointSet,
        (if rankA < rankB then ({ ds₂ with parent := mapSet ds₂.parent ra rb } : DisjointSet)
         else if rankB < rankA then { ds₂ with parent := mapSet ds₂.parent rb ra }
         else { ds₂ with parent := mapSet ds₂.parent rb ra
                         rank := mapSet ds₂.rank ra (rankA + 1) }) = ds' →
        DisjointSet.union ds a b = .ok (true, ds') := by
      intro ds' hds'
      unfold DisjointSet.union
      simp only [hok₁, hok₂]
      simp only [if_neg hrr, hA, hB]
      split at hds'
      · rename_i hlt
        simp [hlt, hds']
      · split at hds'
        · rename_i hge hlt
          rw [if_neg hge, if_pos hlt]
          rw [hds']
        · rename_i hge hge'
          rw [if_neg hge, if_neg hge']
          rw [hds']
    -- the three branches all link one root under the other
    have hmain : ∀ (ds' : DisjointSet) (dead live : VertexId),
        ds'.parent = mapSet ds₂.parent dead live →
        ((dead = ra ∧ live = rb) ∨ (dead = rb ∧ live = ra)) →
        (∀ x, x ∈ keys ds₂.rank ↔ x ∈ keys ds'.rank) →
        WFds ds' ∧ keys ds'.parent = keys ds.parent ∧
          (rootsFinset ds').card + 1 = (rootsFinset ds).card ∧
          (∀ z w, sameSetD ds' z w ↔
            (sameSetD ds z w ∨ (sameSetD ds z a ∧ sameSetD ds b w) ∨
             (sameSetD ds z b ∧ sameSetD ds a w))) := by
      intro ds' dead live hpar hdl hrk
      have hdeadroot : isRootD ds₂ dead := by
        rcases hdl with ⟨hd, -⟩ | ⟨hd, -⟩ <;> rw [hd] <;> assumption
      have hliveroot : isRootD ds₂ live := by
        rcases hdl with ⟨-, hl⟩ | ⟨-, hl⟩ <;> rw [hl] <;> assumption
      have hdlne : dead ≠ live := by
        rcases hdl with ⟨hd, hl⟩ | ⟨hd, hl⟩
        · rw [hd, hl]; exact hrr
        · rw [hd, hl]; exact Ne.symm hrr
      obtain ⟨hkeys', hroots', hreach'⟩ :=
        link_spec ds₂ ds' dead live hpar hdeadroot hliveroot hdlne
      have hwf' := link_wf ds₂ ds' dead live hpar hdeadroot hliveroot hdlne hwf₂ hrk
      refine ⟨hwf', hkeys'.trans heq.1, ?_, ?_⟩
      · have hre : rootsFinset ds' = (rootsFinset ds₂).erase dead :=
          rootsFinset_link ds₂ ds' dead hkeys' hroots'
        have hdmem : dead ∈ rootsFinset ds₂ := by
          unfold rootsFinset
          rw [Finset.mem_filter, List.mem_toFinset]
          exact ⟨hdeadroot.mem_keys', by simpa using hdeadroot⟩
        rw [hre, rootsFinset_congr heq, Finset.card_erase_of_mem
          (by rwa [rootsFinset_congr heq] at hdmem)]
        have : 0 < (rootsFinset ds).card := by
          have := (rootsFinset_congr heq) ▸ hdmem
          exact Finset.card_pos.mpr ⟨dead, this⟩
        omega
      · intro z w
        have hdec := sameSet_link ds₂ ds' dead live ra rb a b hreach' hraR hrbR hdl hdlne z w
        rw [hdec]
        rw [heq.sameSet_iff z w, heq.sameSet_iff z a, heq.sameSet_iff b w,
          heq.sameSet_iff z b, heq.sameSet_iff a w]
    by_cases h1 : rankA < rankB
    · obtain ⟨hwf', hkeys', hcard, hdec⟩ :=
        hmain { ds₂ with parent := mapSet ds₂.parent ra rb } ra rb rfl
          (Or.inl ⟨rfl, rfl⟩) (fun x => Iff.rfl)
      exact ⟨true, _, hcompute _ (by simp [h1]), hwf', hkeys',
        Or.inr ⟨rfl, hnosame, hcard, hdec⟩⟩
    · by_cases h2 : rankB < rankA
      · obtain ⟨hwf', hkeys', hcard, hdec⟩ :=
          hmain { ds₂ with parent := mapSet ds₂.parent rb ra } rb ra rfl
            (Or.inr ⟨rfl, rfl⟩) (fun x => Iff.rfl)
        exact ⟨true, _, hcompute _ (by simp [h1, h2]), hwf', hkeys',
          Or.inr ⟨rfl, hnosame, hcard, hdec⟩⟩
      · have hrk3 : ∀ x, x ∈ keys ds₂.rank ↔ x ∈ keys (mapSet ds₂.rank ra (rankA + 1)) := by
          intro x
          rw [mem_keys_mapSet_iff]
          constructor
          · exact Or.inl
          · rintro (h | h)
            · exact h
            · exact h ▸ hraK
        obtain ⟨hwf', hkeys', hcard, hdec⟩ :=
          hmain { ds₂ with parent := mapSet ds₂.parent rb ra
                           rank := mapSet ds₂.rank ra (rankA + 1) } rb ra rfl
            (Or.inr ⟨rfl, rfl⟩) hrk3
        exact ⟨true, _, hcompute _ (by simp [h1, h2]), hwf', hkeys',
          Or.inr ⟨rfl, hnosame, hcard, hdec⟩⟩

/-- `union` with an unregistered first argument raises the `NotFound` error. -/
theorem union_err_left (ds : DisjointSet) (a b : VertexId)
    (ha : a ∉ keys ds.parent) :
    ds.union a b = .error s!"Vertex {a} not found in disjoint set" := by
  unfold DisjointSet.union
  rw [findSet_notFound ds a ha]

/-- `union` with an unregistered second argument raises the `NotFound` error. -/
theorem union_err_right (ds : DisjointSet) (hwf : WFds ds) (a b : VertexId)
    (ha : a ∈ keys ds.parent) (hb : b ∉ keys ds.parent) :
    ds.union a b = .error s!"Vertex {b} not found in disjoint set" := by
  obtain ⟨ra, ds₁, hok₁, -, heq₁, -⟩ := findSet_spec ds hwf a ha
  unfold DisjointSet.union
  simp only [hok₁]
  rw [findSet_notFound ds₁ b (heq₁.1.symm ▸ hb)]

/-- The `DisjointSet` states built from a vertex list: the constructor's state
followed by any sequence of successful `findSet`/`union` calls. -/
inductive DSBuilt : DisjointSet → Prop
  | init (vs : List VertexId) : DSBuilt (DisjointSet.ofVertices vs)
  | find {ds ds' : DisjointSet} {x r : VertexId} :
      DSBuilt ds → ds.findSet x = .ok (r, ds') → DSBuilt ds'
  | union {ds ds' : DisjointSet} {a b : VertexId} {flag : Bool} :
      DSBuilt ds → ds.union a b = .ok (flag, ds') → DSBuilt ds'

/-- Every built state satisfies the representation invariant. -/
theorem DSBuilt.wf {ds : DisjointSet} (h : DSBuilt ds) : WFds ds := by
  induction h with
  | init vs => exact (ofVertices_spec vs).1
  | find hbuilt hok ih =>
    rename_i ds₀ ds' x r
    by_cases hx : x ∈ keys ds₀.parent
    · obtain ⟨r', ds'', hok', -, -, hwf''⟩ := findSet_spec ds₀ ih x hx
      rw [hok] at hok'
      cases hok'
      exact hwf''
    · rw [findSet_notFound ds₀ x hx] at hok
      cases hok
  | union hbuilt hok ih =>
    rename_i ds₀ ds' a b flag
    by_cases ha : a ∈ keys ds₀.parent
    · by_cases hb : b ∈ keys ds₀.parent
      · obtain ⟨flag', ds'', hok', hwf'', -⟩ := union_spec ds₀ ih a b ha hb
        rw [hok] at hok'
        cases hok'
        exact hwf''
      · rw [union_err_right ds₀ ih a b ha hb] at hok
        cases hok
    · rw [union_err_left ds₀ a b ha] at hok
      cases hok

/-! ## PriorityQueue (binary min-heap), from `src/prim/priority-queue.ts`

The generic class `PriorityQueue<T extends PrimQueueItem>` is instantiated in the
repository only at `T = PrimQueueItem`, which is how it is modelled here. -/

/-- `PrimQueueItem` of `src/interface.ts`. -/
structure PrimQueueItem where
  priority : ℚ
  vertex : VertexId
  parent : VertexId
deriving DecidableEq, Repr

/-- Default element for (always in-bounds) array reads. -/
def dummyItem : PrimQueueItem := ⟨0, 0, 0⟩

/-- Array read `heap_array[i]`. -/
def hget (l : List PrimQueueItem) (i : Nat) : PrimQueueItem :=
  (l[i]?).getD dummyItem

/-- The simultaneous swap `[a[i], a[j]] = [a[j], a[i]]`. -/
def hswap (l : List PrimQueueItem) (i j : Nat) : List PrimQueueItem :=
  (l.set i (hget l j)).set j (hget l i)

/-- The parent index `Math.floor((i - 1) / 2)` (only used at `i > 0`). -/
def hparent (i : Nat) : Nat := (i - 1) / 2

theorem hswap_length (l : List PrimQueueItem) (i j : Nat) :
    (hswap l i j).length = l.length := by
  simp [hswap]

/-- `bubbleUp`: swap with the parent while the element is strictly smaller. -/
def bubbleUp (l : List PrimQueueItem) (i : Nat) : List PrimQueueItem :=
  if h : 0 < i then
    if (hget l i).priority < (hget l (hparent i)).priority then
      bubbleUp (hswap l i (hparent i)) (hparent i)
    else l
  else l
termination_by i
decreasing_by
  exact Nat.lt_of_le_of_lt (Nat.div_le_self _ _) (Nat.sub_lt h Nat.one_pos)

theorem bubbleUp_length (l : List PrimQueueItem) (i : Nat) :
    (bubbleUp l i).length = l.length := by
  induction l, i using bubbleUp.induct with
  | case1 l i h hlt ih => rw [bubbleUp]; simp only [dif_pos h, if_pos hlt]
                          rw [ih, hswap_length]
  | case2 l i h hlt => rw [bubbleUp]; simp only [dif_pos h, if_neg hlt]
  | case3 l i h => rw [bubbleUp]; simp only [dif_neg h]

/-- The index of the smallest-priority element among position `i` and its two
children `2i+1`, `2i+2` (the body of the `bubbleDown` loop). -/
def smallestIdx (l : List PrimQueueItem) (i : Nat) : Nat :=
  let li := 2 * i + 1
  let ri := 2 * i + 2
  let s₁ := if li < l.length ∧ (hget l li).priority < (hget l i).priority then li else i
  if ri < l.length ∧ (hget l ri).priority < (hget l s₁).priority then ri else s₁

theorem smallestIdx_lt_of_ne (l : List PrimQueueItem) (i : Nat)
    (hne : smallestIdx l i ≠ i) :
    i < smallestIdx l i ∧ smallestIdx l i < l.length := by
  unfold smallestIdx at hne ⊢
  by_cases h2 : 2 * i + 2 < l.length ∧ (hget l (2 * i + 2)).priority <
      (hget l (if 2 * i + 1 < l.length ∧ (hget l (2 * i + 1)).priority < (hget l i).priority
                then 2 * i + 1 else i)).priority
  · rw [if_pos h2]
    exact ⟨by omega, h2.1⟩
  · rw [if_neg h2] at hne ⊢
    by_cases h1 : 2 * i + 1 < l.length ∧ (hget l (2 * i + 1)).priority < (hget l i).priority
    · rw [if_pos h1]
      exact ⟨by omega, h1.1⟩
    · rw [if_neg h1] at hne
      exact absurd rfl hne

/-- `bubbleDown`: swap with the strictly smaller of the children, descending. -/
def bubbleDown (l : List PrimQueueItem) (i : Nat) : List PrimQueueItem :=
  if hi : i < l.length then
    if hne : smallestIdx l i ≠ i then
      bubbleDown (hswap l i (smallestIdx l i)) (smallestIdx l i)
    else l
  else l
termination_by l.length - i
decreasing_by
  have := smallestIdx_lt_of_ne l i hne
  rw [hswap_length]
  omega

theorem bubbleDown_length (l : List PrimQueueItem) (i : Nat) :
    (bubbleDown l i).length = l.length := by
  induction l, i using bubbleDown.induct with
  | case1 l i hi hne ih => rw [bubbleDown]; simp only [dif_pos hi, dif_pos hne]
                           rw [ih, hswap_length]
  | case2 l i hi hne => rw [bubbleDown]; simp only [dif_pos hi, dif_neg hne]
  | case3 l i hi => rw [bubbleDown]; simp only [dif_neg hi]

/-- The backing state of a `PriorityQueue`. -/
structure PriorityQueue where
  heap_array : List PrimQueueItem
deriving DecidableEq, Repr

/-- The `PriorityQueue` constructor: an empty backing array. -/
def PriorityQueue.empty : PriorityQueue := ⟨[]⟩

/-- `size()`. -/
def PriorityQueue.size (q : PriorityQueue) : Nat := q.heap_array.length

/-- `isEmpty()`. -/
def PriorityQueue.isEmpty (q : PriorityQueue) : Bool := q.heap_array.length = 0

/-- `enqueue(element)`: push to the end, then bubble up from the last index. -/
def PriorityQueue.enqueue (q : PriorityQueue) (element : PrimQueueItem) : PriorityQueue :=
  ⟨bubbleUp (q.heap_array ++ [element]) q.heap_array.length⟩

/-- `dequeue()`: `undefined` on empty; otherwise remove the root, move the last
element to the root and bubble it down (a single-element heap is just popped).
Returns the dequeued element together with the resulting state. -/
def PriorityQueue.dequeue (q : PriorityQueue) : Option PrimQueueItem × PriorityQueue :=
  if q.isEmpty then (none, q)
  else
    let minElement := hget q.heap_array 0
    let lastElement := q.heap_array.getLast?
    let popped := q.heap_array.dropLast
    match lastElement with
    | none => (none, q)
    | some last =>
      if popped.length = 0 then
        (some last, ⟨popped⟩)
      else
        (some minElement, ⟨bubbleDown (popped.set 0 last) 0⟩)

/-- `peek()`. -/
def PriorityQueue.peek (q : PriorityQueue) : Option PrimQueueItem :=
  if q.isEmpty then none else some (hget q.heap_array 0)

theorem dequeue_of_isEmpty (q : PriorityQueue) (h : q.isEmpty = true) :
    q.dequeue = (none, q) := by
  simp [PriorityQueue.dequeue, h]

/-- A non-empty queue always dequeues a value. -/
theorem dequeue_fst_isSome (q : PriorityQueue) (h : q.isEmpty = false) :
    q.dequeue.1.isSome := by
  have hne : q.heap_array ≠ [] := by
    simpa [PriorityQueue.isEmpty, List.length_eq_zero] using h
  rcases hl : q.heap_array.getLast? with _ | last
  · exact absurd (List.getLast?_eq_none_iff.mp hl) hne
  · simp only [PriorityQueue.dequeue, h, Bool.false_eq_true, if_false, hl]
    split <;> simp

/-- Dequeuing from a non-empty queue shrinks it by one element. -/
theorem dequeue_snd_size (q : PriorityQueue) (h : q.isEmpty = false) :
    q.dequeue.2.size = q.size - 1 := by
  have hne : q.heap_array ≠ [] := by
    simpa [PriorityQueue.isEmpty, List.length_eq_zero] using h
  rcases hl : q.heap_array.getLast? with _ | last
  · exact absurd (List.getLast?_eq_none_iff.mp hl) hne
  · simp only [PriorityQueue.dequeue, h, Bool.false_eq_true, if_false, hl]
    split
    · simpa [PriorityQueue.size] using (List.length_dropLast q.heap_array).symm
    · simp [PriorityQueue.size, bubbleDown_length]

/-! ### Verification of the heap: array-index lemmas and permutations -/

theorem hget_eq_getElem (l : List PrimQueueItem) (i : Nat) (h : i < l.length) :
    hget l i = l[i] := by
  simp [hget, List.getElem?_eq_getElem h]

theorem hget_append_lt (l : List PrimQueueItem) (x : PrimQueueItem) (i : Nat)
    (h : i < l.length) : hget (l ++ [x]) i = hget l i := by
  rw [hget_eq_getElem _ _ (by simp; omega), hget_eq_getElem _ _ h]
  rw [List.getElem_append_left h]

theorem hget_append_self (l : List PrimQueueItem) (x : PrimQueueItem) :
    hget (l ++ [x]) l.length = x := by
  rw [hget_eq_getElem _ _ (by simp)]
  simp

theorem hget_set_self (l : List PrimQueueItem) (i : Nat) (a : PrimQueueItem)
    (h : i < l.length) : hget (l.set i a) i = a := by
  rw [hget_eq_getElem _ _ (by simpa using h)]
  simp [List.getElem_set_self]

theorem hget_set_ne (l : List PrimQueueItem) (i j : Nat) (a : PrimQueueItem)
    (h : i ≠ j) : hget (l.set j a) i = hget l i := by
  unfold hget
  rw [List.getElem?_set_ne (by omega)]

theorem hget_hswap (l : List PrimQueueItem) (i j k : Nat)
    (hi : i < l.length) (hj : j < l.length) :
    hget (hswap l i j) k =
      if k = j then hget l i else if k = i then hget l j else hget l k := by
  unfold hswap
  by_cases hkj : k = j
  · rw [if_pos hkj, hkj, hget_set_self _ _ _ (by simpa using hj)]
  · rw [if_neg hkj, hget_set_ne _ _ _ _ hkj]
    by_cases hki : k = i
    · rw [if_pos hki, hki, hget_set_self _ _ _ hi]
    · rw [if_neg hki, hget_set_ne _ _ _ _ hki]

theorem cons_set_perm (x : PrimQueueItem) :
    ∀ (t : List PrimQueueItem) (k : Nat), k < t.length →
      ((hget t k) :: t.set k x).Perm (x :: t) := by
  intro t
  induction t with
  | nil => intro k hk; simp at hk
  | cons y s ih =>
    intro k hk
    cases k with
    | zero =>
      have h0 : hget (y :: s) 0 = y := by rw [hget_eq_getElem _ _ (by simp)]; rfl
      rw [h0]
      simpa using List.Perm.swap x y s
    | succ m =>
      have hm : m < s.length := by simpa using hk
      have h1 : hget (y :: s) (m + 1) = hget s m := by
        unfold hget; simp
      rw [h1]
      have e1 : (hget s m :: (y :: s).set (m + 1) x) = hget s m :: y :: s.set m x := by simp
      rw [e1]
      refine List.Perm.trans (List.Perm.swap _ _ _) ?_
      refine List.Perm.trans (List.Perm.cons y (ih m hm)) ?_
      exact List.Perm.swap _ _ _

theorem hswap_perm_lt (l : List PrimQueueItem) (i j : Nat)
    (hlt : i < j) (hj : j < l.length) : (hswap l i j).Perm l := by
  induction l generalizing i j with
  | nil => simp at hj
  | cons y s ih =>
    cases i with
    | zero =>
      cases j with
      | zero => omega
      | succ k =>
        have hk : k < s.length := by simpa using hj
        have h1 : hget (y :: s) (k + 1) = hget s k := by unfold hget; simp
        have h0 : hget (y :: s) 0 = y := by rw [hget_eq_getElem _ _ (by simp)]; rfl
        unfold hswap
        rw [h1, h0]
        show ((hget s k :: s).set (k + 1) y).Perm (y :: s)
        have h2 : (hget s k :: s).set (k + 1) y = hget s k :: s.set k y := by simp
        rw [h2]
        exact cons_set_perm y s k hk
    | succ m =>
      cases j with
      | zero => omega
      | succ k =>
        have hk : k < s.length := by simpa using hj
        have h1 : hget (y :: s) (k + 1) = hget s k := by unfold hget; simp
        have h2 : hget (y :: s) (m + 1) = hget s m := by unfold hget; simp
        unfold hswap
        rw [h1, h2]
        show (y :: (s.set m (hget s k)).set k (hget s m)).Perm (y :: s)
        refine List.Perm.cons y ?_
        have h3 := ih m k (by omega) hk
        unfold hswap at h3
        exact h3

theorem hswap_perm (l : List PrimQueueItem) (i j : Nat)
    (hi : i < l.length) (hj : j < l.length) : (hswap l i j).Perm l := by
  rcases Nat.lt_trichotomy i j with hlt | heq | hgt
  · exact hswap_perm_lt l i j hlt hj
  · subst heq
    unfold hswap
    rw [List.set_set]
    have hid : l.set i (hget l i) = l := by
      apply List.ext_getElem?
      intro k
      by_cases hk : i = k
      · subst hk
        rw [hget_eq_getElem _ _ hi]
        rw [List.getElem?_set_self hi, List.getElem?_eq_getElem hi]
      · rw [List.getElem?_set_ne hk]
    rw [hid]
  · have hsymm : hswap l i j = hswap l j i := by
      unfold hswap
      rw [List.set_comm _ _ _ (by omega)]
    rw [hsymm]
    exact hswap_perm_lt l j i hgt hi

theorem bubbleUp_perm (l : List PrimQueueItem) (i : Nat) (hi : i < l.length) :
    (bubbleUp l i).Perm l := by
  induction l, i using bubbleUp.induct with
  | case1 l i h hlt ih =>
    rw [bubbleUp]
    simp only [dif_pos h, if_pos hlt]
    have hp : hparent i < l.length := by
      have : hparent i < i := Nat.lt_of_le_of_lt (Nat.div_le_self _ _) (Nat.sub_lt h Nat.one_pos)
      omega
    have h1 := ih (by rw [hswap_length]; exact hp)
    exact h1.trans (hswap_perm l i (hparent i) hi hp)
  | case2 l i h hlt =>
    rw [bubbleUp]
    simp only [dif_pos h, if_neg hlt]
    exact List.Perm.refl l
  | case3 l i h =>
    rw [bubbleUp]
    simp only [dif_neg h]
    exact List.Perm.refl l

theorem bubbleDown_perm (l : List PrimQueueItem) (i : Nat) :
    (bubbleDown l i).Perm l := by
  induction l, i using bubbleDown.induct with
  | case1 l i hi hne ih =>
    rw [bubbleDown]
    simp only [dif_pos hi, dif_pos hne]
    obtain ⟨hgt, hlt⟩ := smallestIdx_lt_of_ne l i hne
    exact ih.trans (hswap_perm l i (smallestIdx l i) hi hlt)
  | case2 l i hi hne =>
    rw [bubbleDown]
    simp only [dif_pos hi, dif_neg hne]
    exact List.Perm.refl l
  | case3 l i hi =>
    rw [bubbleDown]
    simp only [dif_neg hi]
    exact List.Perm.refl l

/-! ### The heap-order invariant -/

/-- The binary-heap property: every element is at least its parent. -/
def IsHeap (l : List PrimQueueItem) : Prop :=
  ∀ j, 0 < j → j < l.length →
    (hget l (hparent j)).priority ≤ (hget l j).priority

theorem isHeap_nil : IsHeap [] := by
  intro j _ hj
  simp at hj

theorem hparent_lt {j : Nat} (h : 0 < j) : hparent j < j := by
  unfold hparent
  omega

theorem hparent_children {i j : Nat} (h : 0 < j) (hp : hparent j = i) :
    j = 2 * i + 1 ∨ j = 2 * i + 2 := by
  unfold hparent at hp
  omega

/-- In a heap the root is minimal. -/
theorem isHeap_root_min {l : List PrimQueueItem} (h : IsHeap l) :
    ∀ j, j < l.length → (hget l 0).priority ≤ (hget l j).priority := by
  intro j
  induction j using Nat.strong_induction_on with
  | _ j ih =>
    intro hj
    cases Nat.eq_zero_or_pos j with
    | inl h0 => subst h0; exact le_refl _
    | inr hpos =>
      have h1 := h j hpos hj
      have h2 := ih (hparent j) (hparent_lt hpos) (lt_trans (hparent_lt hpos) hj)
      exact le_trans h2 h1

/-- Heap except possibly along the edge into `i` from its parent, with the
grandparent already dominating `i`'s children. -/
def AlmostUp (l : List PrimQueueItem) (i : Nat) : Prop :=
  (∀ j, 0 < j → j < l.length → j ≠ i →
    (hget l (hparent j)).priority ≤ (hget l j).priority) ∧
  (0 < i → ∀ j, 0 < j → j < l.length → hparent j = i →
    (hget l (hparent i)).priority ≤ (hget l j).priority)

theorem bubbleUp_spec (l : List PrimQueueItem) (i : Nat) (hi : i < l.length)
    (halm : AlmostUp l i) : IsHeap (bubbleUp l i) := by
  induction l, i using bubbleUp.induct with
  | case3 l i h =>
    rw [bubbleUp]
    simp only [dif_neg h]
    intro j hj hjl
    exact halm.1 j hj hjl (by omega)
  | case2 l i h hlt =>
    rw [bubbleUp]
    simp only [dif_pos h, if_neg hlt]
    intro j hj hjl
    by_cases hji : j = i
    · subst hji
      exact le_of_not_lt hlt
    · exact halm.1 j hj hjl hji
  | case1 l i h hlt ih =>
    rw [bubbleUp]
    simp only [dif_pos h, if_pos hlt]
    have hp : hparent i < l.length := lt_trans (hparent_lt h) hi
    have hplt : hparent i < i := hparent_lt h
    have hget' : ∀ k, hget (hswap l i (hparent i)) k =
        if k = hparent i then hget l i else if k = i then hget l (hparent i)
        else hget l k := fun k => hget_hswap l i (hparent i) k hi hp
    refine ih (by rw [hswap_length]; exact hp) ⟨?_, ?_⟩
    · intro j hj hjl hjp
      rw [hswap_length] at hjl
      by_cases hji : j = i
      · have e1 : hget (hswap l i (hparent i)) (hparent j) = hget l i := by
          rw [hget' (hparent j), if_pos (by rw [hji])]
        have e2 : hget (hswap l i (hparent i)) j = hget l (hparent i) := by
          rw [hget' j, if_neg (by omega), if_pos hji]
        rw [e1, e2]
        exact le_of_lt hlt
      · have e2 : hget (hswap l i (hparent i)) j = hget l j := by
          rw [hget' j, if_neg hjp, if_neg hji]
        rw [e2]
        by_cases hpj : hparent j = i
        · have e1 : hget (hswap l i (hparent i)) (hparent j) = hget l (hparent i) := by
            rw [hget' (hparent j), if_neg (by omega), if_pos hpj]
          rw [e1]
          exact halm.2 h j hj hjl hpj
        · by_cases hpp : hparent j = hparent i
          · have e1 : hget (hswap l i (hparent i)) (hparent j) = hget l i := by
              rw [hget' (hparent j), if_pos hpp]
            rw [e1]
            have h1 := halm.1 j hj hjl hji
            rw [hpp] at h1
            exact le_trans (le_of_lt hlt) h1
          · have e1 : hget (hswap l i (hparent i)) (hparent j) = hget l (hparent j) := by
              rw [hget' (hparent j), if_neg hpp, if_neg hpj]
            rw [e1]
            exact halm.1 j hj hjl hji
    · intro hpp0 j hj hjl hpj
      rw [hswap_length] at hjl
      have hgg : hparent (hparent i) < hparent i := hparent_lt hpp0
      have e0 : hget (hswap l i (hparent i)) (hparent (hparent i)) =
          hget l (hparent (hparent i)) := by
        rw [hget' (hparent (hparent i)), if_neg (by omega), if_neg (by omega)]
      rw [e0]
      by_cases hji : j = i
      · have e1 : hget (hswap l i (hparent i)) j = hget l (hparent i) := by
          rw [hget' j, if_neg (by omega), if_pos hji]
        rw [e1]
        exact halm.1 (hparent i) hpp0 hp (by omega)
      · have hjp : j ≠ hparent i := by
          intro hc
          rw [hc] at hpj
          omega
        have e1 : hget (hswap l i (hparent i)) j = hget l j := by
          rw [hget' j, if_neg hjp, if_neg hji]
        rw [e1]
        have h1 := halm.1 (hparent i) hpp0 hp (by omega)
        have h2 := halm.1 j hj hjl hji
        rw [hpj] at h2
        exact le_trans h1 h2

/-- `smallestIdx` picks one of the position and its children. -/
theorem smallestIdx_cases (l : List PrimQueueItem) (i : Nat) :
    smallestIdx l i = i ∨
    (smallestIdx l i = 2 * i + 1 ∧ 2 * i + 1 < l.length) ∨
    (smallestIdx l i = 2 * i + 2 ∧ 2 * i + 2 < l.length) := by
  simp only [smallestIdx]
  by_cases h2 : 2 * i + 2 < l.length ∧ (hget l (2 * i + 2)).priority <
      (hget l (if 2 * i + 1 < l.length ∧ (hget l (2 * i + 1)).priority < (hget l i).priority
                then 2 * i + 1 else i)).priority
  · rw [if_pos h2]
    exact Or.inr (Or.inr ⟨rfl, h2.1⟩)
  · rw [if_neg h2]
    by_cases h1 : 2 * i + 1 < l.length ∧ (hget l (2 * i + 1)).priority < (hget l i).priority
    · rw [if_pos h1]
      exact Or.inr (Or.inl ⟨rfl, h1.1⟩)
    · rw [if_neg h1]
      exact Or.inl rfl

/-- `smallestIdx` is minimal among the position and its in-range children. -/
theorem smallestIdx_min (l : List PrimQueueItem) (i : Nat) :
    (hget l (smallestIdx l i)).priority ≤ (hget l i).priority ∧
    (2 * i + 1 < l.length →
      (hget l (smallestIdx l i)).priority ≤ (hget l (2 * i + 1)).priority) ∧
    (2 * i + 2 < l.length →
      (hget l (smallestIdx l i)).priority ≤ (hget l (2 * i + 2)).priority) := by
  simp only [smallestIdx]
  by_cases h1 : 2 * i + 1 < l.length ∧ (hget l (2 * i + 1)).priority < (hget l i).priority
  · rw [if_pos h1]
    by_cases h2 : 2 * i + 2 < l.length ∧
        (hget l (2 * i + 2)).priority < (hget l (2 * i + 1)).priority
    · rw [if_pos h2]
      exact ⟨le_of_lt (lt_trans h2.2 h1.2), fun _ => le_of_lt h2.2, fun _ => le_refl _⟩
    · rw [if_neg h2]
      refine ⟨le_of_lt h1.2, fun _ => le_refl _, fun hin => ?_⟩
      rcases not_and_or.mp h2 with hc | hc
      · exact absurd hin hc
      · exact le_of_not_lt hc
  · rw [if_neg h1]
    by_cases h2 : 2 * i + 2 < l.length ∧ (hget l (2 * i + 2)).priority < (hget l i).priority
    · rw [if_pos h2]
      refine ⟨le_of_lt h2.2, fun hin => ?_, fun _ => le_refl _⟩
      rcases not_and_or.mp h1 with hc | hc
      · exact absurd hin hc
      · exact le_trans (le_of_lt h2.2) (le_of_not_lt hc)
    · rw [if_neg h2]
      refine ⟨le_refl _, fun hin => ?_, fun hin => ?_⟩
      · rcases not_and_or.mp h1 with hc | hc
        · exact absurd hin hc
        · exact le_of_not_lt hc
      · rcases not_and_or.mp h2 with hc | hc
        · exact absurd hin hc
        · exact le_of_not_lt hc

/-- Heap except possibly along the edges out of `i` to its children, with the
parent of `i` already dominating `i`'s children. -/
def AlmostDown (l : List PrimQueueItem) (i : Nat) : Prop :=
  (∀ j, 0 < j → j < l.length → hparent j ≠ i →
    (hget l (hparent j)).priority ≤ (hget l j).priority) ∧
  (0 < i → ∀ j, 0 < j → j < l.length → hparent j = i →
    (hget l (hparent i)).priority ≤ (hget l j).priority)

theorem bubbleDown_spec (l : List PrimQueueItem) (i : Nat)
    (halm : AlmostDown l i) : IsHeap (bubbleDown l i) := by
  induction l, i using bubbleDown.induct with
  | case3 l i hi =>
    rw [bubbleDown]
    simp only [dif_neg hi]
    intro j hj hjl
    refine halm.1 j hj hjl ?_
    intro hpj
    rcases hparent_children hj hpj with hc | hc <;> omega
  | case2 l i hi hne =>
    rw [bubbleDown]
    simp only [dif_pos hi, dif_neg hne]
    have hs : smallestIdx l i = i := not_not.mp hne
    obtain ⟨hm0, hm1, hm2⟩ := smallestIdx_min l i
    rw [hs] at hm1 hm2
    intro j hj hjl
    by_cases hpj : hparent j = i
    · rw [hpj]
      rcases hparent_children hj hpj with hc | hc
      · rw [hc]
        exact hm1 (hc ▸ hjl)
      · rw [hc]
        exact hm2 (hc ▸ hjl)
    · exact halm.1 j hj hjl hpj
  | case1 l i hi hne ih =>
    rw [bubbleDown]
    simp only [dif_pos hi, dif_pos hne]
    obtain ⟨hgt, hslt⟩ := smallestIdx_lt_of_ne l i hne
    obtain ⟨hm0, hm1, hm2⟩ := smallestIdx_min l i
    have hchild : smallestIdx l i = 2 * i + 1 ∨ smallestIdx l i = 2 * i + 2 := by
      rcases smallestIdx_cases l i with hc | ⟨hc, -⟩ | ⟨hc, -⟩
      · exact absurd hc hne
      · exact Or.inl hc
      · exact Or.inr hc
    have hps : hparent (smallestIdx l i) = i := by
      unfold hparent
      rcases hchild with hc | hc <;> omega
    have hget' : ∀ k, hget (hswap l i (smallestIdx l i)) k =
        if k = smallestIdx l i then hget l i
        else if k = i then hget l (smallestIdx l i)
        else hget l k := fun k => hget_hswap l i (smallestIdx l i) k hi hslt
    refine ih ⟨?_, ?_⟩
    · intro j hj hjl hpjs
      rw [hswap_length] at hjl
      by_cases hji : j = i
      · have hi0 : 0 < i := by omega
        have e1 : hget (hswap l i (smallestIdx l i)) (hparent i) = hget l (hparent i) := by
          rw [hget' (hparent i), if_neg (by have := hparent_lt hi0; omega),
            if_neg (by have := hparent_lt hi0; omega)]
        have e2 : hget (hswap l i (smallestIdx l i)) i = hget l (smallestIdx l i) := by
          rw [hget' i, if_neg (by omega), if_pos rfl]
        rw [hji, e1, e2]
        exact halm.2 hi0 (smallestIdx l i) (by omega) hslt hps
      · by_cases hjs : j = smallestIdx l i
        · have e1 : hget (hswap l i (smallestIdx l i)) (hparent j) =
              hget l (smallestIdx l i) := by
            rw [hjs, hps, hget' i, if_neg (by omega), if_pos rfl]
          have e2 : hget (hswap l i (smallestIdx l i)) j = hget l i := by
            rw [hget' j, if_pos hjs]
          rw [e1, e2]
          exact hm0
        · have e2 : hget (hswap l i (smallestIdx l i)) j = hget l j := by
            rw [hget' j, if_neg hjs, if_neg hji]
          rw [e2]
          by_cases hpj : hparent j = i
          · have e1 : hget (hswap l i (smallestIdx l i)) (hparent j) =
                hget l (smallestIdx l i) := by
              rw [hget' (hparent j), if_neg (by omega), if_pos hpj]
            rw [e1]
            rcases hparent_children hj hpj with hc | hc
            · rw [hc]
              exact hm1 (hc ▸ hjl)
            · rw [hc]
              exact hm2 (hc ▸ hjl)
          · have e1 : hget (hswap l i (smallestIdx l i)) (hparent j) =
                hget l (hparent j) := by
              rw [hget' (hparent j), if_neg hpjs, if_neg hpj]
            rw [e1]
            exact halm.1 j hj hjl hpj
    · intro hs0 j hj hjl hpj
      rw [hswap_length] at hjl
      have e0 : hget (hswap l i (smallestIdx l i)) (hparent (smallestIdx l i)) =
          hget l (smallestIdx l i) := by
        rw [hps, hget' i, if_neg (by omega), if_pos rfl]
      rw [e0]
      have hjgt : smallestIdx l i < j := hpj ▸ hparent_lt hj
      have e1 : hget (hswap l i (smallestIdx l i)) j = hget l j := by
        rw [hget' j, if_neg (by omega), if_neg (by omega)]
      rw [e1, ← hpj]
      exact halm.1 j hj hjl (by omega)

/-! ### `enqueue`, `dequeue` and draining the queue -/

theorem enqueue_isHeap (q : PriorityQueue) (x : PrimQueueItem)
    (h : IsHeap q.heap_array) : IsHeap (q.enqueue x).heap_array := by
  unfold PriorityQueue.enqueue
  apply bubbleUp_spec _ _ (by simp)
  constructor
  · intro j hj hjl hjn
    rw [List.length_append, List.length_singleton] at hjl
    have hjlt : j < q.heap_array.length := by omega
    rw [hget_append_lt _ _ _ hjlt, hget_append_lt _ _ _ (lt_trans (hparent_lt hj) hjlt)]
    exact h j hj hjlt
  · intro h0 j hj hjl hpj
    rw [List.length_append, List.length_singleton] at hjl
    rcases hparent_children hj hpj with hc | hc <;> omega

theorem enqueue_perm (q : PriorityQueue) (x : PrimQueueItem) :
    (q.enqueue x).heap_array.Perm (x :: q.heap_array) := by
  unfold PriorityQueue.enqueue
  refine (bubbleUp_perm _ _ (by simp)).trans ?_
  exact List.perm_append_singleton x q.heap_array

theorem dequeue_spec (q : PriorityQueue) (hne : q.heap_array ≠ []) :
    ∃ q', q.dequeue = (some (hget q.heap_array 0), q') ∧
      q.heap_array.Perm (hget q.heap_array 0 :: q'.heap_array) ∧
      (IsHeap q.heap_array → IsHeap q'.heap_array) := by
  have hemp : q.isEmpty = false := by
    simp only [PriorityQueue.isEmpty, decide_eq_false_iff_not]
    simpa [List.length_eq_zero] using hne
  obtain ⟨last, hlast⟩ : ∃ last, q.heap_array.getLast? = some last :=
    ⟨_, List.getLast?_eq_getLast _ hne⟩
  have hl : q.heap_array.dropLast ++ [last] = q.heap_array :=
    List.dropLast_append_getLast? last hlast
  unfold PriorityQueue.dequeue
  rw [hemp]
  simp only [Bool.false_eq_true, if_false, hlast]
  by_cases hone : q.heap_array.dropLast.length = 0
  · rw [if_pos hone]
    have hd : q.heap_array.dropLast = [] := List.length_eq_zero.mp hone
    have hq : q.heap_array = [last] := by rw [← hl, hd]; rfl
    have hg0 : hget q.heap_array 0 = last := by rw [hq]; simp [hget]
    refine ⟨⟨q.heap_array.dropLast⟩, ?_, ?_, ?_⟩
    · rw [hg0]
    · rw [hg0, hd, hq]
    · intro _
      show IsHeap q.heap_array.dropLast
      rw [hd]
      exact isHeap_nil
  · rw [if_neg hone]
    refine ⟨⟨bubbleDown (q.heap_array.dropLast.set 0 last) 0⟩, rfl, ?_, ?_⟩
    · refine List.Perm.trans ?_ (List.Perm.cons _ (bubbleDown_perm _ 0).symm)
      rcases hd : q.heap_array.dropLast with _ | ⟨h0, mid⟩
      · exact absurd (by rw [hd]; rfl) hone
      · have hl' : q.heap_array = h0 :: (mid ++ [last]) := by
          rw [← hl, hd]
          rfl
        have hg0 : hget q.heap_array 0 = h0 := by rw [hl']; simp [hget]
        rw [hg0, hl']
        refine List.Perm.cons h0 ?_
        have hset : (h0 :: mid).set 0 last = last :: mid := rfl
        rw [hset]
        exact (List.perm_append_singleton _ _)
    · intro hheap
      apply bubbleDown_spec
      constructor
      · intro j hj hjl hpj
        rw [List.length_set] at hjl
        have hjd : j < q.heap_array.length - 1 := by
          rw [List.length_dropLast] at hjl
          exact hjl
        have hread : ∀ k, 0 < k → k < q.heap_array.length - 1 →
            hget (q.heap_array.dropLast.set 0 last) k = hget q.heap_array k := by
          intro k hk hkd
          rw [hget_set_ne _ _ _ _ (by omega)]
          unfold hget
          rw [List.getElem?_dropLast, if_pos hkd]
        have hpj0 : 0 < hparent j := Nat.pos_of_ne_zero hpj
        rw [hread j hj hjd, hread (hparent j) hpj0 (lt_trans (hparent_lt hj) hjd)]
        exact hheap j hj (by omega)
      · intro h0 _ _ _ _
        exact absurd h0 (lt_irrefl 0)

/-- `dequeue` without any heap hypothesis: some element of the backing array is
returned and exactly one occurrence of it is removed (the multiset view). -/
theorem dequeue_perm (q : PriorityQueue) (hne : q.heap_array ≠ []) :
    ∃ x q', q.dequeue = (some x, q') ∧ q.heap_array.Perm (x :: q'.heap_array) := by
  obtain ⟨q', hdq, hperm, -⟩ := dequeue_spec q hne
  exact ⟨_, q', hdq, hperm⟩

/-- Repeatedly dequeue until the queue is empty. -/
def drain (q : PriorityQueue) : List PrimQueueItem :=
  match hdq : q.dequeue with
  | (none, _) => []
  | (some x, q') => x :: drain q'
termination_by q.size
decreasing_by
  have h1 : q.isEmpty = false := by
    by_contra hc
    rw [dequeue_of_isEmpty q (by simpa using hc)] at hdq
    cases hdq
  have h2 := dequeue_snd_size q h1
  rw [hdq] at h2
  have h3 : 0 < q.size := by
    simp only [PriorityQueue.isEmpty, decide_eq_false_iff_not] at h1
    exact Nat.pos_of_ne_zero h1
  simp only [PriorityQueue.size] at *
  omega

theorem drain_none (q p : PriorityQueue) (hdq : q.dequeue = (none, p)) :
    drain q = [] := by
  rw [drain]
  split
  · rfl
  · next x q' h =>
    rw [hdq] at h
    exact Option.noConfusion (congrArg Prod.fst h)

theorem drain_some (q : PriorityQueue) (x : PrimQueueItem) (q' : PriorityQueue)
    (hdq : q.dequeue = (some x, q')) : drain q = x :: drain q' := by
  rw [drain]
  split
  · next p h =>
    rw [hdq] at h
    exact Option.noConfusion (congrArg Prod.fst h)
  · next y p h =>
    rw [hdq] at h
    have hy : x = y := Option.some_injective _ (congrArg Prod.fst h)
    have hp : q' = p := congrArg Prod.snd h
    rw [hy, hp]

theorem drain_perm (q : PriorityQueue) : (drain q).Perm q.heap_array := by
  induction q using drain.induct with
  | case1 q p hdq =>
    rw [drain_none q p hdq]
    have hq : q.heap_array = [] := by
      by_contra hc
      obtain ⟨x, q', hdq', -⟩ := dequeue_perm q hc
      rw [hdq'] at hdq
      cases hdq
    rw [hq]
  | case2 q x q' hdq ih =>
    rw [drain_some q x q' hdq]
    have hne : q.heap_array ≠ [] := by
      intro hc
      have hq : q.isEmpty = true := by simp [PriorityQueue.isEmpty, hc]
      rw [dequeue_of_isEmpty q hq] at hdq
      cases hdq
    obtain ⟨x₀, q₀, hdq₀, hperm₀⟩ := dequeue_perm q hne
    rw [hdq₀] at hdq
    have hx : x₀ = x := Option.some_injective _ (congrArg Prod.fst hdq)
    have hq0 : q₀ = q' := congrArg Prod.snd hdq
    rw [hx, hq0] at hperm₀
    exact (List.Perm.cons x ih).trans hperm₀.symm

theorem drain_sorted (q : PriorityQueue) (h : IsHeap q.heap_array) :
    (drain q).Pairwise (fun a b => a.priority ≤ b.priority) := by
  induction q using drain.induct with
  | case1 q p hdq =>
    rw [drain_none q p hdq]
    exact List.Pairwise.nil
  | case2 q x q' hdq ih =>
    rw [drain_some q x q' hdq]
    have hne : q.heap_array ≠ [] := by
      intro hc
      have hq : q.isEmpty = true := by simp [PriorityQueue.isEmpty, hc]
      rw [dequeue_of_isEmpty q hq] at hdq
      cases hdq
    obtain ⟨q₀, hdq₀, hperm₀, hheap₀⟩ := dequeue_spec q hne
    rw [hdq₀] at hdq
    have hx : hget q.heap_array 0 = x := Option.some_injective _ (congrArg Prod.fst hdq)
    have hq0 : q₀ = q' := congrArg Prod.snd hdq
    rw [hx, hq0] at hperm₀
    rw [hq0] at hheap₀
    refine List.Pairwise.cons ?_ (ih (hheap₀ h))
    intro y hy
    have hy' : y ∈ q.heap_array := by
      refine hperm₀.symm.subset ?_
      exact List.mem_cons_of_mem _ ((drain_perm q').subset hy)
    obtain ⟨n, hn, hyn⟩ := List.getElem_of_mem hy'
    have hmin := isHeap_root_min h n hn
    rw [hget_eq_getElem _ _ hn, hyn, hx] at hmin
    exact hmin

/-- Build a queue by a sequence of `enqueue` calls on a fresh queue. -/
def buildQueue (items : List PrimQueueItem) : PriorityQueue :=
  items.foldl (fun q x => q.enqueue x) PriorityQueue.empty

theorem buildQueue_isHeap (items : List PrimQueueItem) :
    IsHeap (buildQueue items).heap_array := by
  suffices H : ∀ q : PriorityQueue, IsHeap q.heap_array →
      IsHeap (items.foldl (fun q x => q.enqueue x) q).heap_array from
    H PriorityQueue.empty isHeap_nil
  induction items with
  | nil => intro q hq; exact hq
  | cons x t ih =>
    intro q hq
    exact ih (q.enqueue x) (enqueue_isHeap q x hq)

theorem buildQueue_perm (items : List PrimQueueItem) :
    (buildQueue items).heap_array.Perm items := by
  suffices H : ∀ q : PriorityQueue,
      ((items.foldl (fun q x => q.enqueue x) q).heap_array).Perm
        (items ++ q.heap_array) by
    simpa [PriorityQueue.empty] using H PriorityQueue.empty
  induction items with
  | nil => intro q; simp
  | cons x t ih =>
    intro q
    refine (ih (q.enqueue x)).trans ?_
    refine (List.Perm.append_left t (enqueue_perm q x)).trans ?_
    exact List.perm_middle.trans (List.Perm.refl _)

/-! ## Prim's algorithm, from `src/prim/prim.ts` -/

/-- The `vertexIndex` map: `vertexIndex.set(g.vertices[i], i)` for `i = 0, 1, ...`. -/
def primVidx (g : Graph) : List (VertexId × Nat) :=
  (g.vertices.enum).foldl (fun m p => mapSet m p.2 p.1) []

/-- The local closure `enqueueNeighbors(from)`: enqueue every not-yet-visited
neighbor of `frm` as a candidate crossing edge (`adjList.get(from) ?? []`
falls back to the empty list when the vertex has no adjacency entry). -/
def enqueueNeighbors (g : Graph) (vidx : List (VertexId × Nat)) (visited : List Bool)
    (pq : PriorityQueue) (frm : VertexId) : Except String PriorityQueue :=
  (neighborsOf g frm).foldlM
    (fun acc neighbor =>
      match mapGet vidx neighbor.toV with
      | none => .error s!"Vertex {neighbor.toV} missing from index map"
      | some neighborIndex =>
        if visited.getD neighborIndex false then
          .ok acc
        else
          .ok (acc.enqueue ⟨neighbor.weight, neighbor.toV, frm⟩))
    pq

/-- The number of `false` entries of the visited array (termination measure). -/
def unvisitedCount (visited : List Bool) : Nat := visited.count false

theorem primVidx_lt (g : Graph) (v : VertexId) (i : Nat)
    (h : mapGet (primVidx g) v = some i) : i < g.vertices.length := by
  suffices H : ∀ (ps : List (Nat × VertexId)) (acc : List (VertexId × Nat)),
      (∀ v i, mapGet acc v = some i → i < g.vertices.length) →
      (∀ p ∈ ps, p.1 < g.vertices.length) →
      ∀ v i, mapGet (ps.foldl (fun m p => mapSet m p.2 p.1) acc) v = some i →
        i < g.vertices.length by
    refine H g.vertices.enum [] (by intro v i hv; simp [mapGet] at hv) ?_ v i h
    intro p hp
    have := List.mem_enumFrom hp
    simpa using this.2.1
  intro ps
  induction ps with
  | nil => intro acc hacc _ v i hv; exact hacc v i hv
  | cons p t ih =>
    intro acc hacc hps v i hv
    refine ih (mapSet acc p.2 p.1) ?_ (fun q hq => hps q (List.mem_cons_of_mem _ hq)) v i hv
    intro w j hw
    by_cases hwp : w = p.2
    · subst hwp
      rw [mapGet_set_self] at hw
      cases hw
      exact hps p (List.mem_cons_self _ _)
    · rw [mapGet_set_ne _ _ _ _ hwp] at hw
      exact hacc w j hw

theorem count_false_set_true (l : List Bool) (i : Nat) (hi : i < l.length)
    (hf : l.getD i false = false) :
    (l.set i true).count false < l.count false := by
  induction l generalizing i with
  | nil => simp at hi
  | cons b t ih =>
    cases i with
    | zero =>
      simp only [List.getD_cons_zero] at hf
      subst hf
      simp [List.count_cons]
    | succ j =>
      simp only [List.getD_cons_succ] at hf
      simp only [List.length_cons, Nat.add_lt_add_iff_right] at hi
      simp only [List.set_cons_succ, List.count_cons]
      have := ih j hi hf
      omega

/-- The main loop of `primMST`: `while (mst.length < g.vertices.length - 1 &&
!priorityQueue.isEmpty())`.  The guard compares JavaScript numbers, hence `ℤ`.
The hypothesis `hlen` records that the visited array always has one slot per
vertex; it is needed for termination (each accepted vertex newly marks an
in-bounds slot). -/
def primLoop (g : Graph) (mst : List Edge) (visited : List Bool) (pq : PriorityQueue)
    (hlen : visited.length = g.vertices.length) : Except String (List Edge) :=
  if hguard : (mst.length : ℤ) < (g.vertices.length : ℤ) - 1 ∧ pq.isEmpty = false then
    match hdq : pq.dequeue with
    | (none, pq') =>
      -- `if (queueItem === undefined) continue` — dead code: a non-empty queue
      -- always dequeues a value (`dequeue_fst_isSome`).
      primLoop g mst visited pq' hlen
    | (some queueItem, pq') =>
      match hv : mapGet (primVidx g) queueItem.vertex with
      | none => .error s!"Vertex {queueItem.vertex} missing from index map"
      | some vertexIdx =>
        if hvis : visited.getD vertexIdx false then
          primLoop g mst visited pq' hlen
        else
          match enqueueNeighbors g (primVidx g) (visited.set vertexIdx true) pq'
              queueItem.vertex with
          | .error e => .error e
          | .ok pq'' =>
            primLoop g (mst ++ [⟨queueItem.parent, queueItem.vertex, queueItem.priority⟩])
              (visited.set vertexIdx true) pq''
              (by rw [List.length_set]; exact hlen)
  else
    .ok mst
termination_by (unvisitedCount visited, pq.size)
decreasing_by
  · exact absurd (congrArg Prod.fst hdq)
      (by simp [Option.isSome_iff_ne_none.mp (dequeue_fst_isSome pq hguard.2)])
  · have h1 : pq'.size = pq.size - 1 := by
      have := dequeue_snd_size pq hguard.2
      rwa [hdq] at this
    have h2 : 0 < pq.size := by
      have := hguard.2
      simp only [PriorityQueue.isEmpty, decide_eq_false_iff_not] at this
      exact Nat.pos_of_ne_zero this
    exact Prod.Lex.right _ (by omega)
  · refine Prod.Lex.left _ _ ?_
    have hvi := primVidx_lt g queueItem.vertex vertexIdx (by assumption)
    exact count_false_set_true visited vertexIdx (hlen ▸ hvi)
      (Bool.not_eq_true _ ▸ hvis)

/-- `primMST(g)`: empty result for an empty vertex or edge list; otherwise grow
from `g.vertices[0]`. -/
def primMST (g : Graph) : Except String (List Edge) :=
  if g.vertices.length = 0 ∨ g.edges.length = 0 then
    .ok []
  else
    match mapGet (primVidx g) (g.vertices.getD 0 0) with
    | none => .error s!"Start vertex {g.vertices.getD 0 0} missing from index map"
    | some startIndex =>
      match enqueueNeighbors g (primVidx g)
          ((List.replicate g.vertices.length false).set startIndex true)
          PriorityQueue.empty (g.vertices.getD 0 0) with
      | .error e => .error e
      | .ok pq₁ =>
        primLoop g [] ((List.replicate g.vertices.length false).set startIndex true) pq₁
          (by rw [List.length_set, List.length_replicate])

/-! ## Spanning-tree verification: Kruskal -/

/-- The input graph is connected: a nonempty vertex list, and every ordered
pair of vertices is joined by a path of input edges. -/
def ConnectedG (g : Graph) : Prop :=
  g.vertices ≠ [] ∧ ∀ u ∈ g.vertices, ∀ v ∈ g.vertices,
    (graphOfEdges g.edges).Reachable u v

/-- In the freshly constructed `DisjointSet` two registered vertices are in the
same set iff they are equal. -/
theorem ofVertices_sameSet_iff (vs : List VertexId) (x y : VertexId) (hx : x ∈ vs) :
    sameSetD (DisjointSet.ofVertices vs) x y ↔ x = y := by
  obtain ⟨hwf, hkeys, hroot, hback⟩ := ofVertices_spec vs
  constructor
  · rintro ⟨r, h1, h2⟩
    exact (hback x r h1).symm.trans (hback y r h2)
  · rintro h
    rw [h] at hx ⊢
    exact sameSetD.refl' ((hkeys y).mpr hx) hwf

/-- The fresh `DisjointSet` has one root per vertex. -/
theorem ofVertices_roots_card (vs : List VertexId) (h : vs.Nodup) :
    (rootsFinset (DisjointSet.ofVertices vs)).card = vs.length := by
  obtain ⟨hwf, hkeys, hroot, -⟩ := ofVertices_spec vs
  unfold rootsFinset
  rw [ofVertices_keys_of_nodup vs h]
  rw [Finset.filter_true_of_mem (fun x hx => hroot x (List.mem_toFinset.mp hx))]
  exact List.toFinset_card_of_nodup h

/-- The loop invariant of `kruskalMST`'s edge loop: the union–find state is
well formed over exactly the graph's vertices, its same-set relation is
reachability in the graph spanned by the accepted edges, the accepted edges are
acyclic graph edges, and the number of union–find classes plus the number of
accepted edges equals the number of vertices. -/
structure KInv (g : Graph) (ds : DisjointSet) (result : List Edge) : Prop where
  wf : WFds ds
  hkeys : keys ds.parent = g.vertices
  hsame : ∀ x ∈ g.vertices, ∀ y ∈ g.vertices,
    (sameSetD ds x y ↔ (graphOfEdges result).Reachable x y)
  hacyc : (graphOfEdges result).IsAcyclic
  hcount : (rootsFinset ds).card + result.length = g.vertices.length
  hmem : ∀ e ∈ result, e ∈ g.edges
  hpairnd : (result.map (fun e => s(e.u, e.v))).Nodup
  hmst : ∀ M, IsMSTl g M → ∃ M', IsMSTl g M' ∧ ∀ e ∈ result, e ∈ M'

/-- The sorted copy is sorted by weight (also proved inside C7; repeated here
as a shared helper). -/
theorem kruskalSortedEdges_sorted (g : Graph) :
    (kruskalSortedEdges g).Pairwise (fun a b => a.weight ≤ b.weight) := by
  have htrans : ∀ a b c : Edge, (decide (a.weight ≤ b.weight)) →
      (decide (b.weight ≤ c.weight)) → (decide (a.weight ≤ c.weight)) := by
    intro a b c hab hbc
    simp only [decide_eq_true_eq] at *
    exact le_trans hab hbc
  have htotal : ∀ a b : Edge,
      ((decide (a.weight ≤ b.weight)) || (decide (b.weight ≤ a.weight))) = true := by
    intro a b
    simp only [Bool.or_eq_true, decide_eq_true_eq]
    exact le_total a.weight b.weight
  have h := List.sorted_mergeSort htrans htotal g.edges
  refine h.imp ?_
  intro a b hab
  simpa using hab

theorem kruskalGo_spec (g : Graph) (hwf : WFGraph g) :
    ∀ (rest : List Edge) (ds : DisjointSet) (result : List Edge),
    KInv g ds result →
    (∀ e ∈ rest, e ∈ g.edges) →
    (∀ e ∈ g.edges, e ∈ rest ∨ sameSetD ds e.u e.v) →
    rest.Pairwise (fun a b => a.weight ≤ b.weight) →
    ∃ T ds', kruskalGo g.vertices.length ds result rest = .ok T ∧
      KInv g ds' T ∧
      (∀ e ∈ T, e ∈ result ∨ IsCutMin g.edges e) ∧
      ((T.length : ℤ) = (g.vertices.length : ℤ) - 1 ∨
        ∀ e ∈ g.edges, sameSetD ds' e.u e.v) := by
  intro rest
  induction rest with
  | nil =>
    intro ds result inv hrest hproc hsort
    refine ⟨result, ds, rfl, inv, fun e' he' => Or.inl he', Or.inr ?_⟩
    intro e he
    rcases hproc e he with h | h
    · simp at h
    · exact h
  | cons e rest ih =>
    intro ds result inv hrest hproc hsort
    have hsorthead := List.pairwise_cons.mp hsort
    have he : e ∈ g.edges := hrest e (List.mem_cons_self _ _)
    have hau : e.u ∈ g.vertices := (hwf.edgeEnds e he).1
    have hbv : e.v ∈ g.vertices := (hwf.edgeEnds e he).2
    have hauK : e.u ∈ keys ds.parent := by rw [inv.hkeys]; exact hau
    have hbvK : e.v ∈ keys ds.parent := by rw [inv.hkeys]; exact hbv
    obtain ⟨flag, ds', hun, hwf', hkeys', hdisj⟩ := union_spec ds inv.wf e.u e.v hauK hbvK
    rcases hdisj with ⟨hfl, hsame0, hequiv, hroots⟩ | ⟨hfl, hnot, hcard, hiff⟩
    · -- the edge's endpoints were already connected: the edge is skipped
      rw [hfl] at hun
      have hkeys'' : keys ds'.parent = g.vertices := hkeys'.trans inv.hkeys
      have hsame' : ∀ x ∈ g.vertices, ∀ y ∈ g.vertices,
          (sameSetD ds' x y ↔ (graphOfEdges result).Reachable x y) := by
        intro x hx y hy
        rw [hequiv.sameSet_iff x y]  -- check direction
        exact inv.hsame x hx y hy
      have inv' : KInv g ds' result :=
        ⟨hwf', hkeys'', hsame', inv.hacyc, by rw [hroots]; exact inv.hcount, inv.hmem,
          inv.hpairnd, inv.hmst⟩
      have hproc' : ∀ f ∈ g.edges, f ∈ rest ∨ sameSetD ds' f.u f.v := by
        intro f hf
        rcases hproc f hf with hmem | hss
        · rcases List.mem_cons.mp hmem with hfe | hfr
          · refine Or.inr ?_
            rw [hfe]
            rw [hequiv.sameSet_iff]
            exact hsame0
          · exact Or.inl hfr
        · exact Or.inr (by rw [hequiv.sameSet_iff]; exact hss)
      have hstep : kruskalGo g.vertices.length ds result (e :: rest) =
          if (result.length : ℤ) = (g.vertices.length : ℤ) - 1 then .ok result
          else kruskalGo g.vertices.length ds' result rest := by
        simp [kruskalGo, hun]
      by_cases hbreak : (result.length : ℤ) = (g.vertices.length : ℤ) - 1
      · rw [hstep, if_pos hbreak]
        exact ⟨result, ds', rfl, inv', fun e' he' => Or.inl he', Or.inl hbreak⟩
      · rw [hstep, if_neg hbreak]
        exact ih ds' result inv' (fun f hf => hrest f (List.mem_cons_of_mem _ hf)) hproc'
          hsorthead.2
    · -- the edge joins two distinct classes: it is accepted
      rw [hfl] at hun
      have hkeys'' : keys ds'.parent = g.vertices := hkeys'.trans inv.hkeys
      have hneq : e.u ≠ e.v := by
        intro hc
        exact hnot (by rw [hc]; exact sameSetD.refl' hbvK inv.wf)
      have hnreach : ¬ (graphOfEdges result).Reachable e.u e.v := by
        intro hc
        exact hnot ((inv.hsame e.u hau e.v hbv).mpr hc)
      have hacyc' := isAcyclic_snoc result e inv.hacyc hneq hnreach
      have hsame' : ∀ x ∈ g.vertices, ∀ y ∈ g.vertices,
          (sameSetD ds' x y ↔ (graphOfEdges (result ++ [e])).Reachable x y) := by
        intro x hx y hy
        rw [hiff x y, reachable_snoc_iff]
        rw [inv.hsame x hx y hy, inv.hsame x hx e.u hau, inv.hsame x hx e.v hbv,
          inv.hsame e.v hbv y hy, inv.hsame e.u hau y hy]
      have hcount' : (rootsFinset ds').card + (result ++ [e]).length = g.vertices.length := by
        have := inv.hcount
        rw [List.length_append, List.length_singleton]
        omega
      have hmem' : ∀ f ∈ result ++ [e], f ∈ g.edges := by
        intro f hf
        rcases List.mem_append.mp hf with hf | hf
        · exact inv.hmem f hf
        · rw [List.mem_singleton.mp hf]; exact he
      have hScross : crossesS (fun x => sameSetD ds x e.u) e :=
        Or.inl ⟨sameSetD.refl' hauK inv.wf, fun hc => hnot hc.symm⟩
      have hSmin : ∀ f ∈ g.edges, crossesS (fun x => sameSetD ds x e.u) f →
          e.weight ≤ f.weight := by
        intro f hf hcrossf
        rcases hproc f hf with hmem | hss
        · rcases List.mem_cons.mp hmem with hfe | hfr
          · rw [hfe]
          · exact hsorthead.1 f hfr
        · exfalso
          rcases hcrossf with ⟨h1, h2⟩ | ⟨h1, h2⟩
          · exact h2 (hss.symm.trans' h1)
          · exact h1 (hss.trans' h2)
      have hecut : IsCutMin g.edges e := ⟨he, fun x => sameSetD ds x e.u, hScross, hSmin⟩
      have hnocross : ∀ t ∈ result, ¬ crossesS (fun x => sameSetD ds x e.u) t := by
        intro t ht hcr
        have htE := inv.hmem t ht
        have htss : sameSetD ds t.u t.v :=
          (inv.hsame t.u (hwf.edgeEnds t htE).1 t.v (hwf.edgeEnds t htE).2).mpr
            (reachable_of_mem result t ht)
        rcases hcr with ⟨h1, h2⟩ | ⟨h1, h2⟩
        · exact h2 (htss.symm.trans' h1)
        · exact h1 (htss.trans' h2)
      have hmst' : ∀ M, IsMSTl g M → ∃ M', IsMSTl g M' ∧
          ∀ f ∈ result ++ [e], f ∈ M' := by
        intro M₀ hM₀
        obtain ⟨M, hM, hsubM⟩ := inv.hmst M₀ hM₀
        obtain ⟨M', hM', heM', hkeep⟩ := mst_exchange g hwf M hM e he
          (fun x => sameSetD ds x e.u) hScross hSmin
        refine ⟨M', hM', ?_⟩
        intro f hf
        rcases List.mem_append.mp hf with hf | hf
        · exact hkeep f (hsubM f hf) (hnocross f hf)
        · rw [List.mem_singleton.mp hf]
          exact heM'
      have hpairnd' : ((result ++ [e]).map (fun f => s(f.u, f.v))).Nodup := by
        rw [List.map_append, List.nodup_append]
        refine ⟨inv.hpairnd, by simp, ?_⟩
        intro p hp hq
        simp only [List.map_cons, List.map_nil, List.mem_singleton] at hq
        rcases List.mem_map.mp hp with ⟨a, haR, hap⟩
        rw [hq] at hap
        have hra := reachable_of_mem result a haR
        rw [Sym2.eq_iff] at hap
        rcases hap with ⟨h1, h2⟩ | ⟨h1, h2⟩
        · rw [h1, h2] at hra
          exact hnreach hra
        · rw [h1, h2] at hra
          exact hnreach hra.symm
      have inv' : KInv g ds' (result ++ [e]) :=
        ⟨hwf', hkeys'', hsame', hacyc', hcount', hmem', hpairnd', hmst'⟩
      have hproc' : ∀ f ∈ g.edges, f ∈ rest ∨ sameSetD ds' f.u f.v := by
        intro f hf
        rcases hproc f hf with hmem | hss
        · rcases List.mem_cons.mp hmem with hfe | hfr
          · refine Or.inr ?_
            rw [hfe]
            rw [hiff]
            exact Or.inr (Or.inl ⟨sameSetD.refl' hauK inv.wf, sameSetD.refl' hbvK inv.wf⟩)
          · exact Or.inl hfr
        · exact Or.inr (by rw [hiff]; exact Or.inl hss)
      have hstep : kruskalGo g.vertices.length ds result (e :: rest) =
          if ((result ++ [e]).length : ℤ) = (g.vertices.length : ℤ) - 1 then .ok (result ++ [e])
          else kruskalGo g.vertices.length ds' (result ++ [e]) rest := by
        simp [kruskalGo, hun]
      by_cases hbreak : ((result ++ [e]).length : ℤ) = (g.vertices.length : ℤ) - 1
      · rw [hstep, if_pos hbreak]
        refine ⟨result ++ [e], ds', rfl, inv', ?_, Or.inl hbreak⟩
        intro e' he'
        rcases List.mem_append.mp he' with h | h
        · exact Or.inl h
        · rw [List.mem_singleton.mp h]
          exact Or.inr hecut
      · rw [hstep, if_neg hbreak]
        obtain ⟨T, dsf, heqf, invf, hcutf, hexitf⟩ :=
          ih ds' (result ++ [e]) inv' (fun f hf => hrest f (List.mem_cons_of_mem _ hf))
            hproc' hsorthead.2
        refine ⟨T, dsf, heqf, invf, ?_, hexitf⟩
        intro e' he'
        rcases hcutf e' he' with h | h
        · rcases List.mem_append.mp h with h2 | h2
          · exact Or.inl h2
          · rw [List.mem_singleton.mp h2]
            exact Or.inr hecut
        · exact Or.inr h

/-- A root of a vertex is a member of `rootsFinset`. -/
theorem reaches_root_mem_rootsFinset {ds : DisjointSet} {x r : VertexId}
    (h : ReachesD ds x r) : r ∈ rootsFinset ds := by
  rcases h with ⟨n, hn, hr⟩
  unfold rootsFinset
  rw [Finset.mem_filter, List.mem_toFinset]
  exact ⟨hr.mem_keys', hr⟩

/-- If every registered vertex is in the same set as some fixed vertex, there
is exactly one root. -/
theorem rootsFinset_card_one {ds : DisjointSet} (hwf : WFds ds)
    (v₀ : VertexId) (hv₀ : v₀ ∈ keys ds.parent)
    (hall : ∀ r ∈ keys ds.parent, sameSetD ds r v₀) :
    (rootsFinset ds).card = 1 := by
  obtain ⟨r₀, hr₀⟩ := hwf.termin v₀ hv₀
  have heq : rootsFinset ds = {r₀} := by
    ext r
    rw [Finset.mem_singleton]
    constructor
    · intro hrmem
      have hrprop := Finset.mem_filter.mp hrmem
      have hrk : r ∈ keys ds.parent := List.mem_toFinset.mp hrprop.1
      have hroot : isRootD ds r := hrprop.2
      obtain ⟨c, hrc, hv₀c⟩ := hall r hrk
      have hcr : c = r := ReachesD.root_eq hroot hrc
      rw [hcr] at hv₀c
      exact ReachesD.unique hv₀c hr₀
    · intro hrr
      rw [hrr]
      exact reaches_root_mem_rootsFinset hr₀
  rw [heq, Finset.card_singleton]

/-- The initial Kruskal loop state satisfies the invariant. -/
theorem kruskal_inv0 (g : Graph) (hwf : WFGraph g) :
    KInv g (DisjointSet.ofVertices g.vertices) [] := by
  obtain ⟨hwfds, hkeysI, hrootI, hbackI⟩ := ofVertices_spec g.vertices
  refine ⟨hwfds, ofVertices_keys_of_nodup _ hwf.nodupV, ?_, ?_, ?_, by simp, by simp,
    fun M hM => ⟨M, hM, by simp⟩⟩
  · intro x hx y hy
    rw [ofVertices_sameSet_iff _ _ _ hx, graphOfEdges_nil, SimpleGraph.reachable_bot]
  · rw [graphOfEdges_nil]
    exact SimpleGraph.isAcyclic_bot
  · rw [ofVertices_roots_card _ hwf.nodupV]
    simp

/-- A root in the same set as `v₀` is `v₀`'s root. -/
theorem root_eq_of_sameSet {ds : DisjointSet} {r v₀ r₀ : VertexId}
    (hroot : isRootD ds r) (hss : sameSetD ds r v₀) (hr₀ : ReachesD ds v₀ r₀) :
    r = r₀ := by
  obtain ⟨c, hrc, hvc⟩ := hss
  have hcr : c = r := ReachesD.root_eq hroot hrc
  rw [hcr] at hvc
  exact ReachesD.unique hvc hr₀

/-- `kruskalMST` on a connected well-formed graph returns a spanning tree:
`n - 1` edges drawn from the graph, spanning an acyclic graph in which all
vertices are mutually reachable. -/
theorem kruskalMST_spec (g : Graph) (hwf : WFGraph g) (hconn : ConnectedG g) :
    ∃ T, kruskalMST g = .ok T ∧
      T.length + 1 = g.vertices.length ∧
      (graphOfEdges T).IsAcyclic ∧
      (∀ e ∈ T, e ∈ g.edges) ∧
      (∀ u ∈ g.vertices, ∀ v ∈ g.vertices, (graphOfEdges T).Reachable u v) ∧
      (∀ e ∈ T, IsCutMin g.edges e) ∧
      (∀ M, IsMSTl g M → ∃ M', IsMSTl g M' ∧ ∀ e ∈ T, e ∈ M') ∧
      (T.map (fun e => s(e.u, e.v))).Nodup := by
  have hperm : (kruskalSortedEdges g).Perm g.edges := List.mergeSort_perm _ _
  obtain ⟨T, ds', heq, inv', hcutm, hexit⟩ := kruskalGo_spec g hwf (kruskalSortedEdges g)
    (DisjointSet.ofVertices g.vertices) [] (kruskal_inv0 g hwf)
    (fun e he => hperm.subset he)
    (fun e he => Or.inl (hperm.mem_iff.mpr he))
    (kruskalSortedEdges_sorted g)
  have hn : 1 ≤ g.vertices.length := List.length_pos.mpr hconn.1
  have hcount := inv'.hcount
  have hcard1 : (rootsFinset ds').card = 1 := by
    rcases hexit with hlen | hall
    · omega
    · -- every input edge merged: by connectivity all vertices share one class
      have hadj : ∀ x y : ℕ, (graphOfEdges g.edges).Adj x y → sameSetD ds' x y := by
        intro x y hxy
        rw [graphOfEdges_adj] at hxy
        rcases hxy with ⟨⟨e, he, hp⟩, hne⟩
        have hse := hall e he
        rw [Sym2.eq_iff] at hp
        rcases hp with ⟨h1, h2⟩ | ⟨h1, h2⟩
        · rw [h1, h2] at hse
          exact hse
        · rw [h1, h2] at hse
          exact hse.symm
      obtain ⟨v₀, hv₀⟩ := List.exists_mem_of_ne_nil _ hconn.1
      refine rootsFinset_card_one inv'.wf v₀ (by rw [inv'.hkeys]; exact hv₀) ?_
      intro r hr
      have hrV : r ∈ g.vertices := by rw [← inv'.hkeys]; exact hr
      rcases reachable_to_rel g.edges (sameSetD ds') (fun a b c h1 h2 => h1.trans' h2)
          hadj r v₀ (hconn.2 r hrV v₀ hv₀) with h | h
      · exact h
      · rw [h]
        exact sameSetD.refl' (by rw [inv'.hkeys]; exact hv₀) inv'.wf
  have hTlen : T.length + 1 = g.vertices.length := by omega
  have hcutm' : ∀ e ∈ T, IsCutMin g.edges e := by
    intro e he
    rcases hcutm e he with h | h
    · simp at h
    · exact h
  refine ⟨T, heq, hTlen, inv'.hacyc, inv'.hmem, ?_, hcutm', inv'.hmst, inv'.hpairnd⟩
  intro u hu v hv
  refine (inv'.hsame u hu v hv).mp ?_
  obtain ⟨ru, hru⟩ := inv'.wf.termin u (by rw [inv'.hkeys]; exact hu)
  obtain ⟨rv, hrv⟩ := inv'.wf.termin v (by rw [inv'.hkeys]; exact hv)
  obtain ⟨a, ha⟩ := Finset.card_eq_one.mp hcard1
  have h1 := reaches_root_mem_rootsFinset hru
  have h2 := reaches_root_mem_rootsFinset hrv
  rw [ha, Finset.mem_singleton] at h1 h2
  rw [h2, ← h1] at hrv
  exact ⟨ru, hru, hrv⟩

/-! ## Spanning-tree verification: Prim -/

/-- Lookup in a map built by folding `mapSet` over index/vertex pairs with
pairwise-distinct, fresh keys. -/
theorem mapGet_foldl_pairs (ps : List (Nat × VertexId)) (acc : List (VertexId × Nat))
    (hnodup : (ps.map Prod.snd).Nodup)
    (hdisj : ∀ p ∈ ps, p.2 ∉ keys acc) (v : VertexId) (i : Nat) :
    mapGet (ps.foldl (fun m p => mapSet m p.2 p.1) acc) v = some i ↔
      ((i, v) ∈ ps ∨ mapGet acc v = some i) := by
  induction ps generalizing acc with
  | nil => simp
  | cons p t ih =>
    simp only [List.foldl_cons]
    have hmap : p.2 ∉ t.map Prod.snd ∧ (t.map Prod.snd).Nodup := by
      rw [List.map_cons, List.nodup_cons] at hnodup
      exact hnodup
    have hpacc : p.2 ∉ keys acc := hdisj p (List.mem_cons_self _ _)
    have hdisj' : ∀ q ∈ t, q.2 ∉ keys (mapSet acc p.2 p.1) := by
      intro q hq
      rw [keys_mapSet_of_not_mem _ _ _ hpacc, List.mem_append]
      rintro (h | h)
      · exact hdisj q (List.mem_cons_of_mem _ hq) h
      · rw [List.mem_singleton] at h
        exact hmap.1 (h ▸ List.mem_map_of_mem Prod.snd hq)
    rw [ih (mapSet acc p.2 p.1) hmap.2 hdisj']
    by_cases hv : v = p.2
    · rw [hv, mapGet_set_self, (mapGet_eq_none_iff _ _).mpr hpacc]
      constructor
      · rintro (h | h)
        · exact Or.inl (List.mem_cons_of_mem _ h)
        · refine Or.inl ?_
          have : i = p.1 := (Option.some_injective _ h).symm
          rw [this]
          exact List.mem_cons_self _ _
      · rintro (h | h)
        · rcases List.mem_cons.mp h with h | h
          · refine Or.inr ?_
            rw [show i = p.1 from congrArg Prod.fst h]
          · exact Or.inl h
        · cases h
    · rw [mapGet_set_ne _ _ _ _ hv]
      constructor
      · rintro (h | h)
        · exact Or.inl (List.mem_cons_of_mem _ h)
        · exact Or.inr h
      · rintro (h | h)
        · rcases List.mem_cons.mp h with h | h
          · exact absurd (congrArg Prod.snd h) hv
          · exact Or.inl h
        · exact Or.inr h

/-- For a duplicate-free vertex list, `vertexIndex.get(v) = i` says exactly
that `v` is the `i`-th vertex. -/
theorem primVidx_get_iff (g : Graph) (hnd : g.vertices.Nodup) (v : VertexId) (i : Nat) :
    mapGet (primVidx g) v = some i ↔ g.vertices[i]? = some v := by
  unfold primVidx
  rw [mapGet_foldl_pairs _ _
    (by rw [show g.vertices.enum.map Prod.snd = g.vertices from List.enumFrom_map_snd 0 _]
        exact hnd)
    (by intro p hp h; simp [keys] at h) v i]
  rw [List.mk_mem_enum_iff_getElem?]
  constructor
  · rintro (h | h)
    · exact h
    · simp [mapGet] at h
  · exact Or.inl

/-- Every registered vertex has an index. -/
theorem primVidx_isSome (g : Graph) (hnd : g.vertices.Nodup) (v : VertexId)
    (hv : v ∈ g.vertices) : ∃ i, mapGet (primVidx g) v = some i ∧ i < g.vertices.length := by
  obtain ⟨i, hi, hvi⟩ := List.getElem_of_mem hv
  refine ⟨i, ?_, hi⟩
  rw [primVidx_get_iff g hnd v i, List.getElem?_eq_getElem hi, hvi]

/-- Indexed vertices are distinct per index (from duplicate-freeness). -/
theorem primVidx_inj (g : Graph) (hnd : g.vertices.Nodup) {v w : VertexId} {i j : Nat}
    (hv : mapGet (primVidx g) v = some i) (hw : mapGet (primVidx g) w = some j)
    (hvw : v ≠ w) : i ≠ j := by
  intro hij
  rw [primVidx_get_iff g hnd] at hv hw
  rw [hij, hw] at hv
  exact hvw (Option.some_injective _ hv).symm

/-- The visited-state of a vertex: `visited[vertexIndex.get(v)]`, `false` when
the vertex has no index. -/
def visB (g : Graph) (visited : List Bool) (v : VertexId) : Bool :=
  match mapGet (primVidx g) v with
  | none => false
  | some i => visited.getD i false

theorem visB_of_get {g : Graph} {v : VertexId} {i : Nat} (visited : List Bool)
    (hv : mapGet (primVidx g) v = some i) :
    visB g visited v = visited.getD i false := by
  simp [visB, hv]

/-- Marking one vertex visited does not change the state of the others. -/
theorem visB_set_ne (g : Graph) (hnd : g.vertices.Nodup) (visited : List Bool)
    {w : VertexId} {idx : Nat} (hw : mapGet (primVidx g) w = some idx)
    (v : VertexId) (hvw : v ≠ w) :
    visB g (visited.set idx true) v = visB g visited v := by
  cases hv : mapGet (primVidx g) v with
  | none => simp [visB, hv]
  | some i =>
    rw [visB_of_get _ hv, visB_of_get _ hv]
    have hij : i ≠ idx := primVidx_inj g hnd hv hw hvw
    rw [List.getD_eq_getElem?_getD, List.getD_eq_getElem?_getD, List.getElem?_set_ne (Ne.symm hij)]

theorem visB_set_self (g : Graph) (visited : List Bool)
    {w : VertexId} {idx : Nat} (hw : mapGet (primVidx g) w = some idx)
    (hidx : idx < visited.length) :
    visB g (visited.set idx true) w = true := by
  rw [visB_of_get _ hw, List.getD_eq_getElem?_getD, List.getElem?_set_self hidx]
  rfl

/-- Turning exactly one list member from `false` to `true` grows the filtered
length by one. -/
theorem length_filter_flip (l : List VertexId) (p p' : VertexId → Bool) (x : VertexId)
    (hx : x ∈ l) (hnd : l.Nodup) (hpx : p x = false) (hp'x : p' x = true)
    (hagree : ∀ y ∈ l, y ≠ x → p' y = p y) :
    (l.filter p').length = (l.filter p).length + 1 := by
  induction l with
  | nil => simp at hx
  | cons a t ih =>
    have hnd' := List.nodup_cons.mp hnd
    rcases List.mem_cons.mp hx with hax | hxt
    · have hp'a : p' a = true := hax ▸ hp'x
      have hpa : p a = false := hax ▸ hpx
      have hfc : t.filter p' = t.filter p := by
        refine List.filter_congr ?_
        intro y hy
        refine hagree y (List.mem_cons_of_mem _ hy) ?_
        intro hyx
        exact hnd'.1 ((hyx.trans hax) ▸ hy)
      rw [List.filter_cons, List.filter_cons, hp'a, hpa, hfc]
      simp
    · have hax : a ≠ x := fun h => hnd'.1 (h ▸ hxt)
      have hpa : p' a = p a := hagree a (List.mem_cons_self _ _) hax
      have hrec := ih hxt hnd'.2 (fun y hy hyx => hagree y (List.mem_cons_of_mem _ hy) hyx)
      rw [List.filter_cons, List.filter_cons, hpa]
      cases hcase : p a with
      | false => simpa using hrec
      | true => simpa using hrec

/-- `enqueueNeighbors` succeeds when every neighbor is a registered vertex.
Its effect on the queue contents: it adds a batch `L` of items, each tagged
with `frm` as parent and matching a neighbor entry, and `L` covers every
neighbor whose target is not yet visited. -/
theorem enqueueNeighbors_spec (g : Graph) (hnd : g.vertices.Nodup)
    (visited : List Bool) (pq : PriorityQueue) (frm : VertexId)
    (htargets : ∀ entry ∈ neighborsOf g frm, entry.toV ∈ g.vertices) :
    ∃ pq', enqueueNeighbors g (primVidx g) visited pq frm = .ok pq' ∧
      (IsHeap pq.heap_array → IsHeap pq'.heap_array) ∧
      ∃ L, pq'.heap_array.Perm (L ++ pq.heap_array) ∧
        (∀ it ∈ L, it.parent = frm ∧
          ∃ entry ∈ neighborsOf g frm, entry.toV = it.vertex ∧ entry.weight = it.priority) ∧
        (∀ entry ∈ neighborsOf g frm, ∀ i, mapGet (primVidx g) entry.toV = some i →
          visited.getD i false = false →
          ∃ it ∈ L, it.vertex = entry.toV ∧ it.priority = entry.weight) := by
  suffices H : ∀ (ns : List AdjEntry) (pq : PriorityQueue),
      (∀ entry ∈ ns, entry.toV ∈ g.vertices) →
      ∃ pq', (ns.foldlM
          (fun acc neighbor =>
            match mapGet (primVidx g) neighbor.toV with
            | none => .error s!"Vertex {neighbor.toV} missing from index map"
            | some neighborIndex =>
              if visited.getD neighborIndex false then
                .ok acc
              else
                .ok (acc.enqueue ⟨neighbor.weight, neighbor.toV, frm⟩))
          pq : Except String PriorityQueue) = .ok pq' ∧
        (IsHeap pq.heap_array → IsHeap pq'.heap_array) ∧
        ∃ L, pq'.heap_array.Perm (L ++ pq.heap_array) ∧
          (∀ it ∈ L, it.parent = frm ∧
            ∃ entry ∈ ns, entry.toV = it.vertex ∧ entry.weight = it.priority) ∧
          (∀ entry ∈ ns, ∀ i, mapGet (primVidx g) entry.toV = some i →
            visited.getD i false = false →
            ∃ it ∈ L, it.vertex = entry.toV ∧ it.priority = entry.weight) by
    exact H (neighborsOf g frm) pq htargets
  intro ns
  induction ns with
  | nil =>
    intro pq hts
    exact ⟨pq, rfl, fun h => h, [], List.Perm.refl _, by simp, by simp⟩
  | cons entry ns ih =>
    intro pq hts
    obtain ⟨i, hi, hilt⟩ := primVidx_isSome g hnd entry.toV (hts entry (List.mem_cons_self _ _))
    cases hvis : visited.getD i false with
    | true =>
      obtain ⟨pq', heq, hheap, L, hperm, hL, hcov⟩ :=
        ih pq (fun e he => hts e (List.mem_cons_of_mem _ he))
      refine ⟨pq', ?_, hheap, L, hperm, ?_, ?_⟩
      · simp only [List.foldlM_cons, hi, hvis, if_pos, bind, Except.bind]
        exact heq
      · intro it hit
        obtain ⟨hp, e, he, h1, h2⟩ := hL it hit
        exact ⟨hp, e, List.mem_cons_of_mem _ he, h1, h2⟩
      · intro e he i' hi' hvf
        rcases List.mem_cons.mp he with hee | hee
        · rw [hee] at hi'
          rw [hi] at hi'
          rw [← Option.some_injective _ hi'] at hvf
          rw [hvf] at hvis
          cases hvis
        · exact hcov e hee i' hi' hvf
    | false =>
      obtain ⟨pq', heq, hheap, L, hperm, hL, hcov⟩ :=
        ih (pq.enqueue ⟨entry.weight, entry.toV, frm⟩)
          (fun e he => hts e (List.mem_cons_of_mem _ he))
      refine ⟨pq', ?_, ?_, ⟨entry.weight, entry.toV, frm⟩ :: L, ?_, ?_, ?_⟩
      · simp only [List.foldlM_cons, hi, hvis, if_neg, bind, Except.bind,
          Bool.false_eq_true, not_false_iff]
        exact heq
      · intro h
        exact hheap (enqueue_isHeap pq _ h)
      · refine hperm.trans ?_
        refine ((enqueue_perm pq _).append_left L).trans ?_
        exact List.perm_middle
      · intro it hit
        rcases List.mem_cons.mp hit with hith | hith
        · exact ⟨congrArg PrimQueueItem.parent hith, entry, List.mem_cons_self _ _,
            (congrArg PrimQueueItem.vertex hith).symm,
            (congrArg PrimQueueItem.priority hith).symm⟩
        · obtain ⟨hp, e, he, h1, h2⟩ := hL it hith
          exact ⟨hp, e, List.mem_cons_of_mem _ he, h1, h2⟩
      · intro e he i' hi' hvf
        rcases List.mem_cons.mp he with hee | hee
        · exact ⟨⟨entry.weight, entry.toV, frm⟩, List.mem_cons_self _ _,
            by rw [hee], by rw [hee]⟩
        · obtain ⟨it, hit, hv⟩ := hcov e hee i' hi' hvf
          exact ⟨it, List.mem_cons_of_mem _ hit, hv⟩

/-- A queue that is not `isEmpty` has a nonempty backing array. -/
theorem heap_ne_of_isEmpty_false (pq : PriorityQueue) (h : pq.isEmpty = false) :
    pq.heap_array ≠ [] := by
  simpa [PriorityQueue.isEmpty, List.length_eq_zero] using h

/-- Unfolding `primLoop` in the stale-skip branch. -/
theorem primLoop_eq_skip (g : Graph) (mst : List Edge) (visited : List Bool)
    (pq : PriorityQueue) (hlen : visited.length = g.vertices.length)
    (hguard : (mst.length : ℤ) < (g.vertices.length : ℤ) - 1 ∧ pq.isEmpty = false)
    (x : PrimQueueItem) (q' : PriorityQueue) (hdq : pq.dequeue = (some x, q'))
    (vertexIdx : ℕ) (hv : mapGet (primVidx g) x.vertex = some vertexIdx)
    (hvis : visited.getD vertexIdx false = true) :
    primLoop g mst visited pq hlen = primLoop g mst visited q' hlen := by
  rw [primLoop, dif_pos hguard]
  split
  · next pq2 h =>
    rw [hdq] at h
    exact Option.noConfusion (congrArg Prod.fst h)
  · next y q2 h =>
    rw [hdq] at h
    have hxy : x = y := Option.some_injective _ (congrArg Prod.fst h)
    have hq : q' = q2 := congrArg Prod.snd h
    rw [← hxy, ← hq]
    split
    · next h2 =>
      rw [hv] at h2
      exact Option.noConfusion h2
    · next j h2 =>
      rw [hv] at h2
      rw [← Option.some_injective _ h2]
      rw [dif_pos hvis]

/-- Unfolding `primLoop` in the accept branch. -/
theorem primLoop_eq_accept (g : Graph) (mst : List Edge) (visited : List Bool)
    (pq : PriorityQueue) (hlen : visited.length = g.vertices.length)
    (hguard : (mst.length : ℤ) < (g.vertices.length : ℤ) - 1 ∧ pq.isEmpty = false)
    (x : PrimQueueItem) (q' : PriorityQueue) (hdq : pq.dequeue = (some x, q'))
    (vertexIdx : ℕ) (hv : mapGet (primVidx g) x.vertex = some vertexIdx)
    (hvis : ¬ visited.getD vertexIdx false = true)
    (pq'' : PriorityQueue)
    (henq : enqueueNeighbors g (primVidx g) (visited.set vertexIdx true) q' x.vertex =
      .ok pq'')
    (hlen' : (visited.set vertexIdx true).length = g.vertices.length) :
    primLoop g mst visited pq hlen =
      primLoop g (mst ++ [⟨x.parent, x.vertex, x.priority⟩]) (visited.set vertexIdx true)
        pq'' hlen' := by
  rw [primLoop, dif_pos hguard]
  split
  · next pq2 h =>
    rw [hdq] at h
    exact Option.noConfusion (congrArg Prod.fst h)
  · next y q2 h =>
    rw [hdq] at h
    have hxy : x = y := Option.some_injective _ (congrArg Prod.fst h)
    have hq : q' = q2 := congrArg Prod.snd h
    rw [← hxy, ← hq]
    split
    · next h2 =>
      rw [hv] at h2
      exact Option.noConfusion h2
    · next j h2 =>
      rw [hv] at h2
      rw [← Option.some_injective _ h2]
      rw [dif_neg hvis]
      split
      · next emsg h3 =>
        rw [henq] at h3
        exact Except.noConfusion h3
      · next pq3 h3 =>
        rw [henq] at h3
        rw [← Except.ok.inj h3]

/-- Unfolding `primLoop` at loop exit. -/
theorem primLoop_eq_exit (g : Graph) (mst : List Edge) (visited : List Bool)
    (pq : PriorityQueue) (hlen : visited.length = g.vertices.length)
    (hguard : ¬ ((mst.length : ℤ) < (g.vertices.length : ℤ) - 1 ∧ pq.isEmpty = false)) :
    primLoop g mst visited pq hlen = .ok mst := by
  rw [primLoop, dif_neg hguard]

/-- Reachability in the accepted-edge graph stays inside the visited set (each
accepted edge joins two visited vertices). -/
theorem reachable_visB (g : Graph) (mst : List Edge) (visited : List Bool)
    (hends : ∀ e ∈ mst, visB g visited e.u = true ∧ visB g visited e.v = true)
    (x y : ℕ) (h : (graphOfEdges mst).Reachable x y) (hx : visB g visited x = true) :
    visB g visited y = true := by
  have hadj : ∀ p q : ℕ, (graphOfEdges mst).Adj p q → visB g visited q = true := by
    intro p q hpq
    rw [graphOfEdges_adj] at hpq
    rcases hpq.1 with ⟨f, hf, hfp⟩
    rw [Sym2.eq_iff] at hfp
    rcases hfp with ⟨-, h2⟩ | ⟨h2, -⟩
    · exact h2 ▸ (hends f hf).2
    · exact h2 ▸ (hends f hf).1
  rcases reachable_to_rel mst (fun p q => visB g visited q = true)
      (fun a b c _ h2 => h2) hadj x y h with h | h
  · exact h
  · exact h ▸ hx

/-- The loop invariant of `primMST`'s main loop, over the fixed input graph:
accepted edges join visited vertices, all visited vertices are already
connected by accepted edges, the accepted edges are acyclic, queue items carry
a visited parent and a matching adjacency entry, every input-graph edge that
crosses the visited boundary has a queued candidate for its unvisited side,
the visited count is one more than the accepted-edge count, and every visited
vertex is input-reachable from the start vertex. -/
structure PInv (g : Graph) (mst : List Edge) (visited : List Bool)
    (pq : PriorityQueue) : Prop where
  ends : ∀ e ∈ mst, visB g visited e.u = true ∧ visB g visited e.v = true
  conn : ∀ u v, visB g visited u = true → visB g visited v = true →
    (graphOfEdges mst).Reachable u v
  acyc : (graphOfEdges mst).IsAcyclic
  heap : IsHeap pq.heap_array
  items : ∀ it ∈ pq.heap_array, visB g visited it.parent = true ∧
    ∃ entry ∈ neighborsOf g it.parent, entry.toV = it.vertex ∧
      entry.weight = it.priority
  cover : ∀ f ∈ g.edges, ∀ a b, s(f.u, f.v) = s(a, b) →
    visB g visited a = true → visB g visited b = false →
    ∃ it ∈ pq.heap_array, it.vertex = b ∧ it.priority = f.weight
  count : (g.vertices.filter (fun v => visB g visited v)).length = mst.length + 1
  reach : ∀ v, visB g visited v = true →
    (graphOfEdges g.edges).Reachable (g.vertices.getD 0 0) v
  mstwit : ∀ e ∈ mst, ∃ f ∈ g.edges, s(f.u, f.v) = s(e.u, e.v) ∧
    f.weight = e.weight ∧ IsCutMin g.edges f
  mstsub : ∀ M, IsMSTl g M → ∃ M', IsMSTl g M' ∧
    ∀ e ∈ mst, ∃ f ∈ M', s(f.u, f.v) = s(e.u, e.v) ∧ f.weight = e.weight
  pairnd : (mst.map (fun e => s(e.u, e.v))).Nodup

/-- The adjacency form of the crossing-cover clause. -/
theorem PInv.cover_adj {g : Graph} {mst : List Edge} {visited : List Bool}
    {pq : PriorityQueue} (inv : PInv g mst visited pq) (a b : ℕ)
    (ha : visB g visited a = true) (hb : visB g visited b = false)
    (hadj : (graphOfEdges g.edges).Adj a b) :
    ∃ it ∈ pq.heap_array, it.vertex = b := by
  rw [graphOfEdges_adj] at hadj
  rcases hadj with ⟨⟨f, hf, hp⟩, -⟩
  obtain ⟨it, hit, hv, -⟩ := inv.cover f hf a b hp ha hb
  exact ⟨it, hit, hv⟩

theorem primLoop_spec (g : Graph) (hwf : WFGraph g) :
    ∀ (mst : List Edge) (visited : List Bool) (pq : PriorityQueue)
      (hlen : visited.length = g.vertices.length),
    PInv g mst visited pq →
    ∃ T visited' pq', primLoop g mst visited pq hlen = .ok T ∧
      PInv g T visited' pq' ∧ visited'.length = g.vertices.length ∧
      (∀ v, visB g visited v = true → visB g visited' v = true) ∧
      (¬ (T.length : ℤ) < (g.vertices.length : ℤ) - 1 ∨ pq'.heap_array = []) := by
  intro mst visited pq hlen
  induction mst, visited, pq, hlen using primLoop.induct with
  | case1 mst visited pq hlen hguard pq2 hdq ih =>
    intro inv
    have h1 := dequeue_fst_isSome pq hguard.2
    rw [hdq] at h1
    cases h1
  | case2 mst visited pq hlen hguard x q' hdq hv =>
    intro inv
    obtain ⟨x₀, q₀, hdq₀, hperm₀⟩ :=
      dequeue_perm pq (heap_ne_of_isEmpty_false pq hguard.2)
    rw [hdq₀] at hdq
    have hx : x₀ = x := Option.some_injective _ (congrArg Prod.fst hdq)
    have hxm : x ∈ pq.heap_array :=
      hperm₀.symm.subset (hx ▸ List.mem_cons_self x₀ q₀.heap_array)
    obtain ⟨-, entry, hentry, htoV, -⟩ := inv.items x hxm
    have hvV : x.vertex ∈ g.vertices := htoV ▸ hwf.adjTarget _ entry hentry
    obtain ⟨i, hi, -⟩ := primVidx_isSome g hwf.nodupV x.vertex hvV
    rw [hv] at hi
    exact Option.noConfusion hi
  | case3 mst visited pq hlen hguard x q' hdq vertexIdx hv hvis ih =>
    intro inv
    obtain ⟨x₀, q₀, hdq₀, hperm₀⟩ :=
      dequeue_perm pq (heap_ne_of_isEmpty_false pq hguard.2)
    have hpair := hdq₀.symm.trans hdq
    have hx : x₀ = x := Option.some_injective _ (congrArg Prod.fst hpair)
    have hq : q₀ = q' := congrArg Prod.snd hpair
    rw [hx, hq] at hperm₀
    have hvisx : visB g visited x.vertex = true := by
      rw [visB_of_get _ hv]
      exact hvis
    obtain ⟨q₂, hdq₂, -, hpres⟩ := dequeue_spec pq (heap_ne_of_isEmpty_false pq hguard.2)
    have hq₂ : q₂ = q' := congrArg Prod.snd (hdq₂.symm.trans hdq)
    rw [hq₂] at hpres
    have inv' : PInv g mst visited q' :=
      { ends := inv.ends, conn := inv.conn, acyc := inv.acyc
        heap := hpres inv.heap
        items := fun it hit =>
          inv.items it (hperm₀.symm.subset (List.mem_cons_of_mem _ hit))
        cover := by
          intro f hf a b hp ha hb
          obtain ⟨it, hit, hb', hw'⟩ := inv.cover f hf a b hp ha hb
          rcases List.mem_cons.mp (hperm₀.subset hit) with h | h
          · exfalso
            have hxb : x.vertex = b := by rw [← h]; exact hb'
            rw [hxb] at hvisx
            rw [hvisx] at hb
            cases hb
          · exact ⟨it, h, hb', hw'⟩
        count := inv.count, reach := inv.reach
        mstwit := inv.mstwit, mstsub := inv.mstsub, pairnd := inv.pairnd }
    obtain ⟨T, visited', pqf, heq, hres⟩ := ih inv'
    exact ⟨T, visited', pqf, by
      rw [primLoop_eq_skip g mst visited pq hlen hguard x q' hdq vertexIdx hv hvis]
      exact heq, hres⟩
  | case4 mst visited pq hlen hguard x q' hdq vertexIdx hv hvis emsg herr =>
    intro inv
    obtain ⟨pq₂, heq₂, -, -⟩ := enqueueNeighbors_spec g hwf.nodupV
      (visited.set vertexIdx true) q' x.vertex (hwf.adjTarget x.vertex)
    rw [heq₂] at herr
    exact Except.noConfusion herr
  | case5 mst visited pq hlen hguard x q' hdq vertexIdx hv hvis pq'' henq ih =>
    intro inv
    obtain ⟨x₀, q₀, hdq₀, hperm₀⟩ :=
      dequeue_perm pq (heap_ne_of_isEmpty_false pq hguard.2)
    have hpair := hdq₀.symm.trans hdq
    have hx : x₀ = x := Option.some_injective _ (congrArg Prod.fst hpair)
    have hq : q₀ = q' := congrArg Prod.snd hpair
    rw [hx, hq] at hperm₀
    have hxm : x ∈ pq.heap_array :=
      hperm₀.symm.subset (List.mem_cons_self x q'.heap_array)
    obtain ⟨hparentVis, entry, hentry, htoV, hwt⟩ := inv.items x hxm
    have hvV : x.vertex ∈ g.vertices := htoV ▸ hwf.adjTarget _ entry hentry
    have hvisx : visB g visited x.vertex = false := by
      rw [visB_of_get _ hv]
      simpa using hvis
    obtain ⟨q₂, hdq₂, -, hpres⟩ := dequeue_spec pq (heap_ne_of_isEmpty_false pq hguard.2)
    have hxg : x = hget pq.heap_array 0 :=
      (Option.some_injective _ (congrArg Prod.fst (hdq₂.symm.trans hdq))).symm
    have hq₂ : q₂ = q' := congrArg Prod.snd (hdq₂.symm.trans hdq)
    rw [hq₂] at hpres
    have hheapq' : IsHeap q'.heap_array := hpres inv.heap
    have hmin : ∀ it ∈ pq.heap_array, x.priority ≤ it.priority := by
      intro it hit
      obtain ⟨j, hj, hjit⟩ := List.getElem_of_mem hit
      have hr := isHeap_root_min inv.heap j hj
      rw [hget_eq_getElem _ _ hj, hjit, ← hxg] at hr
      exact hr
    have hidx : vertexIdx < visited.length := by
      rw [hlen]
      exact primVidx_lt g x.vertex vertexIdx hv
    have hmono : ∀ v, visB g visited v = true →
        visB g (visited.set vertexIdx true) v = true := by
      intro v hvv
      by_cases hveq : v = x.vertex
      · rw [hveq] at hvv
        rw [hvv] at hvisx
        cases hvisx
      · rw [visB_set_ne g hwf.nodupV visited hv v hveq]
        exact hvv
    have hselfvis : visB g (visited.set vertexIdx true) x.vertex = true :=
      visB_set_self g visited hv hidx
    have hother : ∀ v, v ≠ x.vertex →
        visB g (visited.set vertexIdx true) v = visB g visited v :=
      fun v hv' => visB_set_ne g hwf.nodupV visited hv v hv'
    have hback : ∀ v, visB g (visited.set vertexIdx true) v = true →
        visB g visited v = true ∨ v = x.vertex := by
      intro v hvv
      by_cases hveq : v = x.vertex
      · exact Or.inr hveq
      · rw [hother v hveq] at hvv
        exact Or.inl hvv
    have hneq : x.parent ≠ x.vertex := by
      intro hc
      rw [hc] at hparentVis
      rw [hparentVis] at hvisx
      cases hvisx
    have hnreach : ¬ (graphOfEdges mst).Reachable x.parent x.vertex := by
      intro hr
      have := reachable_visB g mst visited inv.ends _ _ hr hparentVis
      rw [this] at hvisx
      cases hvisx
    have hacyc' := isAcyclic_snoc mst ⟨x.parent, x.vertex, x.priority⟩ inv.acyc hneq hnreach
    obtain ⟨pq₂, heq₂, hheapN, L, hpermL, hLitems, hLcov⟩ := enqueueNeighbors_spec g
      hwf.nodupV (visited.set vertexIdx true) q' x.vertex (hwf.adjTarget x.vertex)
    have hpq2 : pq'' = pq₂ := Except.ok.inj (henq.symm.trans heq₂)
    rw [← hpq2] at hpermL hheapN
    have hbval : ∀ c : ℕ, ¬ (visB g visited c = true) → visB g visited c = false := by
      intro c hc
      cases hcc : visB g visited c with
      | false => rfl
      | true => exact absurd hcc hc
    obtain ⟨f₀, hf₀E, hf₀p, hf₀w⟩ : ∃ f ∈ g.edges,
        s(f.u, f.v) = s(x.parent, x.vertex) ∧ f.weight = x.priority := by
      rcases hwf.adjEdge' x.parent entry hentry with hE | hE
      · exact ⟨_, hE, by rw [htoV], hwt⟩
      · exact ⟨_, hE, by rw [htoV]; exact Sym2.eq_swap, hwt⟩
    have hScrossP : crossesS (fun v => visB g visited v = true) f₀ := by
      rcases Sym2.eq_iff.mp hf₀p with ⟨h1, h2⟩ | ⟨h1, h2⟩
      · refine Or.inl ⟨?_, ?_⟩
        · rw [h1]
          exact hparentVis
        · intro hc
          rw [h2, hvisx] at hc
          cases hc
      · refine Or.inr ⟨?_, ?_⟩
        · intro hc
          rw [h1, hvisx] at hc
          cases hc
        · rw [h2]
          exact hparentVis
    have hSminP : ∀ h ∈ g.edges, crossesS (fun v => visB g visited v = true) h →
        f₀.weight ≤ h.weight := by
      intro h hhE hcross
      rcases hcross with ⟨h1, h2⟩ | ⟨h1, h2⟩
      · obtain ⟨it, hit, -, hwit⟩ := inv.cover h hhE h.u h.v rfl h1 (hbval _ h2)
        rw [hf₀w, ← hwit]
        exact hmin it hit
      · obtain ⟨it, hit, -, hwit⟩ := inv.cover h hhE h.v h.u Sym2.eq_swap h2 (hbval _ h1)
        rw [hf₀w, ← hwit]
        exact hmin it hit
    have hf₀cut : IsCutMin g.edges f₀ :=
      ⟨hf₀E, fun v => visB g visited v = true, hScrossP, hSminP⟩
    have hadjin : (graphOfEdges g.edges).Adj x.parent x.vertex := by
      rcases hwf.adjEdge' x.parent entry hentry with hE | hE
      · exact (graphOfEdges_adj _ _ _).mpr ⟨⟨_, hE, by rw [htoV]⟩, hneq⟩
      · exact (graphOfEdges_adj _ _ _).mpr
          ⟨⟨_, hE, by rw [htoV]; exact Sym2.eq_swap⟩, hneq⟩
    have hmemE : (⟨x.parent, x.vertex, x.priority⟩ : Edge) ∈
        mst ++ [⟨x.parent, x.vertex, x.priority⟩] :=
      List.mem_append_right _ (List.mem_singleton.mpr rfl)
    have hmonoG := @graphOfEdges_mono
      mst (mst ++ [⟨x.parent, x.vertex, x.priority⟩])
      (fun f hf => List.mem_append_left _ hf)
    have hp : (graphOfEdges (mst ++ [⟨x.parent, x.vertex, x.priority⟩])).Reachable
        x.parent x.vertex :=
      reachable_of_mem _ ⟨x.parent, x.vertex, x.priority⟩ hmemE
    have inv' : PInv g (mst ++ [⟨x.parent, x.vertex, x.priority⟩])
        (visited.set vertexIdx true) pq'' :=
      { ends := by
          intro f hf
          rcases List.mem_append.mp hf with hf | hf
          · exact ⟨hmono _ (inv.ends f hf).1, hmono _ (inv.ends f hf).2⟩
          · rw [List.mem_singleton.mp hf]
            exact ⟨hmono _ hparentVis, hselfvis⟩
        conn := by
          intro u v hu hv'
          rcases hback u hu with hu' | hu' <;> rcases hback v hv' with hv'' | hv''
          · exact (inv.conn u v hu' hv'').mono hmonoG
          · rw [hv'']
            exact ((inv.conn u x.parent hu' hparentVis).mono hmonoG).trans hp
          · rw [hu']
            exact hp.symm.trans ((inv.conn x.parent v hparentVis hv'').mono hmonoG)
          · rw [hu', hv'']
        acyc := hacyc'
        heap := hheapN hheapq'
        items := by
          intro it hit
          rcases List.mem_append.mp (hpermL.subset hit) with hit' | hit'
          · obtain ⟨hpar, entry', hentry', htoV', hwt'⟩ := hLitems it hit'
            rw [hpar]
            exact ⟨hselfvis, entry', hentry', htoV', hwt'⟩
          · obtain ⟨hpar, hw⟩ := inv.items it
              (hperm₀.symm.subset (List.mem_cons_of_mem _ hit'))
            exact ⟨hmono _ hpar, hw⟩
        cover := by
          intro f hfE a b hfp ha' hb'
          have hbold : visB g visited b = false := by
            cases hbo : visB g visited b with
            | false => rfl
            | true =>
              rw [hmono b hbo] at hb'
              cases hb'
          have hbnex : b ≠ x.vertex := by
            intro hc
            rw [hc, hselfvis] at hb'
            cases hb'
          rcases hback a ha' with ha'' | ha''
          · obtain ⟨it, hit, hitb, hitw⟩ := inv.cover f hfE a b hfp ha'' hbold
            rcases List.mem_cons.mp (hperm₀.subset hit) with h | h
            · exfalso
              apply hbnex
              rw [← hitb, h]
            · exact ⟨it, hpermL.symm.subset (List.mem_append_right _ h), hitb, hitw⟩
          · rw [ha''] at hfp
            rw [Sym2.eq_iff] at hfp
            have hbV : b ∈ g.vertices := by
              rcases hfp with ⟨-, h2⟩ | ⟨h2, -⟩
              · exact h2 ▸ (hwf.edgeEnds f hfE).2
              · exact h2 ▸ (hwf.edgeEnds f hfE).1
            obtain ⟨ib, hib, -⟩ := primVidx_isSome g hwf.nodupV b hbV
            have hgetb : (visited.set vertexIdx true).getD ib false = false := by
              rw [← visB_of_get _ hib]
              exact hb'
            have hcovres : ∃ entry' ∈ neighborsOf g x.vertex,
                entry'.toV = b ∧ entry'.weight = f.weight := by
              rcases hfp with ⟨h1, h2⟩ | ⟨h1, h2⟩
              · refine ⟨⟨f.v, f.weight⟩, ?_, h2, rfl⟩
                have := (hwf.edgeAdj f hfE).1
                rw [h1] at this
                exact this
              · refine ⟨⟨f.u, f.weight⟩, ?_, h1, rfl⟩
                have := (hwf.edgeAdj f hfE).2
                rw [h2] at this
                exact this
            obtain ⟨entry', hentry', htoVb, hwb⟩ := hcovres
            obtain ⟨it, hitL, hitb, hitw⟩ := hLcov entry' hentry' ib (htoVb ▸ hib) hgetb
            exact ⟨it, hpermL.symm.subset (List.mem_append_left _ hitL),
              hitb.trans htoVb, by rw [hitw, hwb]⟩
        count := by
          rw [length_filter_flip g.vertices
            (fun v => visB g visited v) (fun v => visB g (visited.set vertexIdx true) v)
            x.vertex hvV hwf.nodupV hvisx hselfvis (fun y _ hyx => hother y hyx)]
          rw [inv.count, List.length_append, List.length_singleton]
        reach := by
          intro v hvv
          rcases hback v hvv with hv' | hv'
          · exact inv.reach v hv'
          · rw [hv']
            exact (inv.reach x.parent hparentVis).trans hadjin.reachable
        mstwit := by
          intro e' he'
          rcases List.mem_append.mp he' with h | h
          · exact inv.mstwit e' h
          · rw [List.mem_singleton.mp h]
            exact ⟨f₀, hf₀E, hf₀p, hf₀w, hf₀cut⟩
        mstsub := by
          intro M₀ hM₀
          obtain ⟨M, hM, hsubM⟩ := inv.mstsub M₀ hM₀
          obtain ⟨M', hM', hfM', hkeep⟩ := mst_exchange g hwf M hM f₀ hf₀E
            (fun v => visB g visited v = true) hScrossP hSminP
          refine ⟨M', hM', ?_⟩
          intro e' he'
          rcases List.mem_append.mp he' with h | h
          · obtain ⟨m, hmM, hmp, hmw⟩ := hsubM e' h
            refine ⟨m, hkeep m hmM ?_, hmp, hmw⟩
            intro hcr
            have hcr' : crossesS (fun v => visB g visited v = true) e' :=
              crossesS_of_pair hmp hcr
            have hends := inv.ends e' h
            rcases hcr' with ⟨h1, h2⟩ | ⟨h1, h2⟩
            · exact h2 hends.2
            · exact h1 hends.1
          · rw [List.mem_singleton.mp h]
            exact ⟨f₀, hfM', hf₀p, hf₀w⟩
        pairnd := by
          rw [List.map_append, List.nodup_append]
          refine ⟨inv.pairnd, by simp, ?_⟩
          intro p hp' hq'
          simp only [List.map_cons, List.map_nil, List.mem_singleton] at hq'
          rcases List.mem_map.mp hp' with ⟨a, haM, hap⟩
          rw [hq'] at hap
          have hends := inv.ends a haM
          rw [Sym2.eq_iff] at hap
          rcases hap with ⟨h1, h2⟩ | ⟨h1, h2⟩
          · rw [h2] at hends
            rw [hends.2] at hvisx
            cases hvisx
          · rw [h1] at hends
            rw [hends.1] at hvisx
            cases hvisx }
    obtain ⟨T, visitedf, pqf, heqf, hinvf, hlenf, hmonof, hexitf⟩ := ih inv'
    refine ⟨T, visitedf, pqf, ?_, hinvf, hlenf,
      fun v hvv => hmonof v (hmono v hvv), hexitf⟩
    rw [primLoop_eq_accept g mst visited pq hlen hguard x q' hdq vertexIdx hv
      hvis pq'' henq]
    exact heqf
  | case6 mst visited pq hlen hguard =>
    intro inv
    refine ⟨mst, visited, pq, primLoop_eq_exit g mst visited pq hlen hguard, inv, hlen,
      fun v h => h, ?_⟩
    rcases not_and_or.mp hguard with h | h
    · exact Or.inl h
    · refine Or.inr ?_
      have hq : pq.isEmpty = true := by
        cases hc : pq.isEmpty with
        | false => exact absurd hc h
        | true => rfl
      simpa [PriorityQueue.isEmpty, List.length_eq_zero] using hq

/-- A `primLoop` run of `primMST` past its guard: the final state satisfies
the loop invariant, the start vertex is visited, and the loop exited either at
the edge-count bound or with an empty queue. -/
theorem primMST_run (g : Graph) (hwf : WFGraph g) (hn : 0 < g.vertices.length)
    (hedge : ¬ g.edges.length = 0) :
    ∃ T visited' pq', primMST g = .ok T ∧ PInv g T visited' pq' ∧
      visited'.length = g.vertices.length ∧
      visB g visited' (g.vertices.getD 0 0) = true ∧
      (¬ (T.length : ℤ) < (g.vertices.length : ℤ) - 1 ∨ pq'.heap_array = []) := by
  have hif : ¬ (g.vertices.length = 0 ∨ g.edges.length = 0) := by
    rintro (h | h)
    · omega
    · exact hedge h
  have hstart : g.vertices.getD 0 0 ∈ g.vertices := by
    rw [List.getD_eq_getElem?_getD, List.getElem?_eq_getElem hn]
    simp only [Option.getD_some]
    exact List.getElem_mem hn
  obtain ⟨i0, hi0, hi0lt⟩ := primVidx_isSome g hwf.nodupV _ hstart
  have hlen₀ : ((List.replicate g.vertices.length false).set i0 true).length =
      g.vertices.length := by
    rw [List.length_set, List.length_replicate]
  have hvisB0 : ∀ v, visB g ((List.replicate g.vertices.length false).set i0 true) v =
      true ↔ v = g.vertices.getD 0 0 := by
    intro v
    constructor
    · intro hv
      cases hmv : mapGet (primVidx g) v with
      | none =>
        rw [visB, hmv] at hv
        cases hv
      | some i =>
        rw [visB_of_get _ hmv] at hv
        have hii : i = i0 := by
          by_contra hii
          rw [List.getD_eq_getElem?_getD, List.getElem?_set_ne (Ne.symm hii),
            List.getElem?_replicate] at hv
          by_cases hilt : i < g.vertices.length
          · rw [if_pos hilt] at hv
            cases hv
          · rw [if_neg hilt] at hv
            cases hv
        rw [hii] at hmv
        rw [primVidx_get_iff g hwf.nodupV] at hmv hi0
        rw [hmv] at hi0
        exact Option.some_injective _ hi0
    · intro hv
      rw [hv, visB_of_get _ hi0, List.getD_eq_getElem?_getD,
        List.getElem?_set_self (by rw [List.length_replicate]; exact hi0lt)]
      rfl
  obtain ⟨pq₁, hpq₁, hheap₁, L, hpermL, hLitems, hLcov⟩ := enqueueNeighbors_spec g
    hwf.nodupV ((List.replicate g.vertices.length false).set i0 true) PriorityQueue.empty
    (g.vertices.getD 0 0) (hwf.adjTarget _)
  rw [show PriorityQueue.empty.heap_array = [] from rfl, List.append_nil] at hpermL
  have hstartB : visB g ((List.replicate g.vertices.length false).set i0 true)
      (g.vertices.getD 0 0) = true := (hvisB0 _).mpr rfl
  have inv0 : PInv g [] ((List.replicate g.vertices.length false).set i0 true) pq₁ :=
    { ends := by simp
      conn := by
        intro u v hu hv
        rw [(hvisB0 u).mp hu, (hvisB0 v).mp hv]
      acyc := by
        rw [graphOfEdges_nil]
        exact SimpleGraph.isAcyclic_bot
      heap := hheap₁ isHeap_nil
      items := by
        intro it hit
        obtain ⟨hpar, entry', hentry', htoV', hwt'⟩ := hLitems it (hpermL.subset hit)
        rw [hpar]
        exact ⟨hstartB, entry', hentry', htoV', hwt'⟩
      cover := by
        intro f hfE a b hfp ha hb
        rw [(hvisB0 a).mp ha] at hfp
        rw [Sym2.eq_iff] at hfp
        have hbV : b ∈ g.vertices := by
          rcases hfp with ⟨-, h2⟩ | ⟨h2, -⟩
          · exact h2 ▸ (hwf.edgeEnds f hfE).2
          · exact h2 ▸ (hwf.edgeEnds f hfE).1
        obtain ⟨ib, hib, -⟩ := primVidx_isSome g hwf.nodupV b hbV
        have hgetb : ((List.replicate g.vertices.length false).set i0 true).getD ib
            false = false := by
          rw [← visB_of_get _ hib]
          exact hb
        have hcovres : ∃ entry' ∈ neighborsOf g (g.vertices.getD 0 0),
            entry'.toV = b ∧ entry'.weight = f.weight := by
          rcases hfp with ⟨h1, h2⟩ | ⟨h1, h2⟩
          · refine ⟨⟨f.v, f.weight⟩, ?_, h2, rfl⟩
            have := (hwf.edgeAdj f hfE).1
            rw [h1] at this
            exact this
          · refine ⟨⟨f.u, f.weight⟩, ?_, h1, rfl⟩
            have := (hwf.edgeAdj f hfE).2
            rw [h2] at this
            exact this
        obtain ⟨entry', hentry', htoVb, hwb⟩ := hcovres
        obtain ⟨it, hitL, hitb, hitw⟩ := hLcov entry' hentry' ib (htoVb ▸ hib) hgetb
        exact ⟨it, hpermL.symm.subset hitL, hitb.trans htoVb, by rw [hitw, hwb]⟩
      count := by
        have hfc : ∀ v ∈ g.vertices,
            visB g ((List.replicate g.vertices.length false).set i0 true) v =
              (v == g.vertices.getD 0 0) := by
          intro v hv
          by_cases hveq : v = g.vertices.getD 0 0
          · rw [(hvisB0 v).mpr hveq]
            simp [hveq]
          · have h1 : visB g ((List.replicate g.vertices.length false).set i0 true) v =
                false := by
              cases hb : visB g ((List.replicate g.vertices.length false).set i0 true) v with
              | false => rfl
              | true => exact absurd ((hvisB0 v).mp hb) hveq
            rw [h1, beq_eq_false_iff_ne.mpr hveq]
        rw [List.filter_congr hfc]
        have hc1 : g.vertices.count (g.vertices.getD 0 0) = 1 :=
          List.count_eq_one_of_mem hwf.nodupV hstart
        rw [← List.countP_eq_length_filter]
        exact hc1
      reach := by
        intro v hv
        rw [(hvisB0 v).mp hv]
      mstwit := by simp
      mstsub := fun M hM => ⟨M, hM, by simp⟩
      pairnd := by simp }
  obtain ⟨T, visited', pq', heq, inv', hlen', hmono', hexit⟩ :=
    primLoop_spec g hwf [] ((List.replicate g.vertices.length false).set i0 true)
      pq₁ hlen₀ inv0
  have hpm : primMST g = Except.ok T := by
    rw [primMST, if_neg hif]
    simp only [hi0, hpq₁]
    exact heq
  have hstartvis' : visB g visited' (g.vertices.getD 0 0) = true := hmono' _ hstartB
  exact ⟨T, visited', pq', hpm, inv', hlen', hstartvis', hexit⟩

/-- With an empty queue the visited set absorbs input-graph reachability: no
edge crosses the visited boundary. -/
theorem visB_closed_of_empty (g : Graph) (T : List Edge) (visited' : List Bool)
    (pq' : PriorityQueue) (inv' : PInv g T visited' pq')
    (hempty : pq'.heap_array = []) (a v : ℕ) (ha : visB g visited' a = true)
    (hreach : (graphOfEdges g.edges).Reachable a v) : visB g visited' v = true := by
  have hcross : ∀ p q, visB g visited' p = true → visB g visited' q = false →
      ¬ (graphOfEdges g.edges).Adj p q := by
    intro p q hp hq hadj
    obtain ⟨it, hit, -⟩ := inv'.cover_adj p q hp hq hadj
    rw [hempty] at hit
    simp at hit
  rcases reachable_to_rel g.edges
      (fun p q => visB g visited' p = true → visB g visited' q = true)
      (fun a b c h1 h2 h3 => h2 (h1 h3))
      (fun p q hpq hp => by
        cases hq : visB g visited' q with
        | true => rfl
        | false => exact absurd hpq (hcross p q hp hq))
      a v hreach with h | h
  · exact h ha
  · rw [← h]
    exact ha

/-- `primMST` on a connected well-formed graph returns a spanning tree:
`n - 1` edges spanning an acyclic graph in which all vertices are mutually
reachable. -/
theorem primMST_spec (g : Graph) (hwf : WFGraph g) (hconn : ConnectedG g) :
    ∃ T, primMST g = .ok T ∧
      T.length + 1 = g.vertices.length ∧
      (graphOfEdges T).IsAcyclic ∧
      (∀ u ∈ g.vertices, ∀ v ∈ g.vertices, (graphOfEdges T).Reachable u v) ∧
      (∀ e ∈ T, ∃ f ∈ g.edges, s(f.u, f.v) = s(e.u, e.v) ∧ f.weight = e.weight ∧
        IsCutMin g.edges f) ∧
      (∀ M, IsMSTl g M → ∃ M', IsMSTl g M' ∧
        ∀ e ∈ T, ∃ f ∈ M', s(f.u, f.v) = s(e.u, e.v) ∧ f.weight = e.weight) ∧
      (T.map (fun e => s(e.u, e.v))).Nodup := by
  have hn : 0 < g.vertices.length := List.length_pos.mpr hconn.1
  by_cases hedge : g.edges.length = 0
  · -- no edges: connectivity forces a single vertex, and the guard returns []
    have hedges : g.edges = [] := List.length_eq_zero.mp hedge
    have hn1 : g.vertices.length = 1 := by
      by_contra hne1
      have h2 : 2 ≤ g.vertices.length := by omega
      obtain ⟨a, rest, hvs⟩ : ∃ a rest, g.vertices = a :: rest := by
        cases hv : g.vertices with
        | nil => rw [hv] at hn; cases hn
        | cons a rest => exact ⟨a, rest, rfl⟩
      obtain ⟨b, t, hrest⟩ : ∃ b t, rest = b :: t := by
        cases hr : rest with
        | nil =>
          rw [hvs, hr] at h2
          simp at h2
        | cons b t => exact ⟨b, t, rfl⟩
      have hnd := hwf.nodupV
      rw [hvs, hrest, List.nodup_cons] at hnd
      have hab : a ≠ b := by
        intro hc
        exact hnd.1 (hc ▸ List.mem_cons_self b t)
      have hreach := hconn.2 a (by rw [hvs]; exact List.mem_cons_self _ _)
        b (by rw [hvs, hrest]; exact List.mem_cons_of_mem _ (List.mem_cons_self _ _))
      rw [hedges, graphOfEdges_nil, SimpleGraph.reachable_bot] at hreach
      exact hab hreach
    refine ⟨[], ?_, by simpa using hn1.symm, ?_, ?_, by simp,
      fun M hM => ⟨M, hM, by simp⟩, by simp⟩
    · rw [primMST, if_pos (Or.inr hedge)]
    · rw [graphOfEdges_nil]
      exact SimpleGraph.isAcyclic_bot
    · obtain ⟨a, ha⟩ := List.length_eq_one.mp hn1
      intro u hu v hv
      rw [ha, List.mem_singleton] at hu hv
      rw [hu, hv]
  · -- at least one edge: the guard is not taken and the loop runs
    obtain ⟨T, visited', pq', hpm, inv', hlen', hstartvis', hexit⟩ :=
      primMST_run g hwf hn hedge
    have hstart : g.vertices.getD 0 0 ∈ g.vertices := by
      rw [List.getD_eq_getElem?_getD, List.getElem?_eq_getElem hn]
      simp only [Option.getD_some]
      exact List.getElem_mem hn
    have hallvis : ∀ v ∈ g.vertices, visB g visited' v = true := by
      rcases hexit with hlen | hempty
      · have hcnt := inv'.count
        have hle := List.length_filter_le (fun v => visB g visited' v) g.vertices
        have hfl : (g.vertices.filter (fun v => visB g visited' v)).length =
            g.vertices.length := by omega
        have hfeq : g.vertices.filter (fun v => visB g visited' v) = g.vertices :=
          (List.filter_sublist _).eq_of_length hfl
        intro v hv
        rw [← hfeq] at hv
        exact List.of_mem_filter hv
      · intro v hv
        exact visB_closed_of_empty g T visited' pq' inv' hempty _ v hstartvis'
          (hconn.2 _ hstart v hv)
    have hTlen : T.length + 1 = g.vertices.length := by
      have hcnt := inv'.count
      have hfeq : g.vertices.filter (fun v => visB g visited' v) = g.vertices :=
        List.filter_eq_self.mpr hallvis
      rw [hfeq] at hcnt
      omega
    exact ⟨T, hpm, hTlen, inv'.acyc, fun u hu v hv =>
      inv'.conn u v (hallvis u hu) (hallvis v hv), inv'.mstwit, inv'.mstsub,
      inv'.pairnd⟩

/-! ## Store model for the mutation claim (C9)

JavaScript arrays and `Map`s are mutable objects on a heap; a `Graph` value
holds references to three of them (`vertices`, `edges`, `adjList`), and the
values of `adjList` are themselves references to adjacency-entry arrays.  The
definitions below re-run both algorithms against an explicit typed heap of
such objects: every object the source allocates (`result`/`mst`, the
`DisjointSet`'s two maps, the `slice()` copy, the `vertexIndex` map, the
`visited` array, the queue's backing array) is a fresh cell, and every write
the source performs (the in-place `sort` of the copy, the `Map.set` and array
writes to those local objects) is a store update of the corresponding cell.
An implementation that wrote to a graph-reachable cell — for example one that
sorted `g.edges` in place instead of its copy — would falsify the frame
theorems below. -/

/-- Read a cell of a typed store (an out-of-range reference reads as an empty
object; allocated references are always in range). -/
def cellGet {α : Type _} (st : List (List α)) (r : Nat) : List α := st.getD r []

/-- Overwrite a cell of a store. -/
def cellPut {α : Type _} (st : List (List α)) (r : Nat) (v : List α) :
    List (List α) := st.set r v

/-- Allocate a fresh cell holding `v`; its reference is the store's size. -/
def cellNew {α : Type _} (st : List (List α)) (v : List α) : Nat × List (List α) :=
  (st.length, st ++ [v])

theorem cellGet_put_ne {α : Type _} (st : List (List α)) (r r' : Nat) (v : List α)
    (h : r ≠ r') : cellGet (cellPut st r v) r' = cellGet st r' := by
  unfold cellGet cellPut
  rw [List.getD_eq_getElem?_getD, List.getD_eq_getElem?_getD, List.getElem?_set_ne h]

theorem cellGet_put_self {α : Type _} (st : List (List α)) (r : Nat) (v : List α)
    (h : r < st.length) : cellGet (cellPut st r v) r = v := by
  unfold cellGet cellPut
  rw [List.getD_eq_getElem?_getD, List.getElem?_set_self h]
  rfl

theorem cellGet_new_lt {α : Type _} (st : List (List α)) (v : List α) (r : Nat)
    (h : r < st.length) : cellGet (st ++ [v]) r = cellGet st r := by
  unfold cellGet
  rw [List.getD_eq_getElem?_getD, List.getD_eq_getElem?_getD, List.getElem?_append_left h]

theorem cellGet_new_self {α : Type _} (st : List (List α)) (v : List α) :
    cellGet (st ++ [v]) st.length = v := by
  unfold cellGet
  rw [List.getD_eq_getElem?_getD, List.getElem?_concat_length]
  rfl

theorem cellPut_length {α : Type _} (st : List (List α)) (r : Nat) (v : List α) :
    (cellPut st r v).length = st.length :=
  List.length_set st r v

/-- `st` preserves every cell of `st₀` (new cells may have been appended). -/
def storeKept {α : Type _} (st₀ st : List (List α)) : Prop :=
  st₀.length ≤ st.length ∧ ∀ r, r < st₀.length → cellGet st r = cellGet st₀ r

theorem storeKept_refl {α : Type _} (st : List (List α)) : storeKept st st :=
  ⟨le_refl _, fun _ _ => rfl⟩

theorem storeKept_trans {α : Type _} {st₀ st₁ st₂ : List (List α)}
    (h1 : storeKept st₀ st₁) (h2 : storeKept st₁ st₂) : storeKept st₀ st₂ :=
  ⟨le_trans h1.1 h2.1, fun r hr => (h2.2 r (lt_of_lt_of_le hr h1.1)).trans (h1.2 r hr)⟩

/-- Writing a cell outside the preserved range preserves it. -/
theorem storeKept_put {α : Type _} {st₀ st : List (List α)} (h : storeKept st₀ st)
    {r : Nat} (hr : st₀.length ≤ r) (v : List α) : storeKept st₀ (cellPut st r v) :=
  ⟨le_trans h.1 (le_of_eq (cellPut_length st r v).symm), fun r' hr' => by
    rw [cellGet_put_ne st r r' v (by omega)]
    exact h.2 r' hr'⟩

/-- Allocation preserves all existing cells. -/
theorem storeKept_new {α : Type _} {st₀ st : List (List α)} (h : storeKept st₀ st)
    (v : List α) : storeKept st₀ (st ++ [v]) :=
  ⟨le_trans h.1 (by simp), fun r hr => by
    rw [cellGet_new_lt st v r (lt_of_lt_of_le hr h.1)]
    exact h.2 r hr⟩

/-- The typed object heap: one store per kind of mutable JavaScript object the
two algorithms touch. -/
structure Heap where
  natArrs : List (List VertexId)
  edgeArrs : List (List Edge)
  entryArrs : List (List AdjEntry)
  adjMaps : List (List (VertexId × Nat))
  natMaps : List (List (VertexId × Nat))
  boolArrs : List (List Bool)
  itemArrs : List (List PrimQueueItem)

/-- The `Graph` object: references to its vertex array, edge array and
adjacency map; the adjacency map's values are references into `entryArrs`. -/
structure GraphRef where
  vertices : Nat
  edges : Nat
  adjList : Nat

/-- Every object of `h₀` is intact in `h`; new objects may exist. -/
structure HeapKept (h₀ h : Heap) : Prop where
  nats : storeKept h₀.natArrs h.natArrs
  edges : storeKept h₀.edgeArrs h.edgeArrs
  entries : storeKept h₀.entryArrs h.entryArrs
  adjs : storeKept h₀.adjMaps h.adjMaps
  maps : storeKept h₀.natMaps h.natMaps
  bools : storeKept h₀.boolArrs h.boolArrs
  items : storeKept h₀.itemArrs h.itemArrs

theorem HeapKept.self (h : Heap) : HeapKept h h :=
  ⟨storeKept_refl _, storeKept_refl _, storeKept_refl _, storeKept_refl _,
   storeKept_refl _, storeKept_refl _, storeKept_refl _⟩

theorem HeapKept.comp {h₀ h₁ h₂ : Heap} (a : HeapKept h₀ h₁) (b : HeapKept h₁ h₂) :
    HeapKept h₀ h₂ :=
  ⟨storeKept_trans a.nats b.nats, storeKept_trans a.edges b.edges,
   storeKept_trans a.entries b.entries, storeKept_trans a.adjs b.adjs,
   storeKept_trans a.maps b.maps, storeKept_trans a.bools b.bools,
   storeKept_trans a.items b.items⟩

/-- `g.vertices`, read from the heap. -/
def readVertices (h : Heap) (gr : GraphRef) : List VertexId :=
  cellGet h.natArrs gr.vertices

/-- `g.edges`, read from the heap. -/
def readEdges (h : Heap) (gr : GraphRef) : List Edge := cellGet h.edgeArrs gr.edges

/-- `g.adjList`, read from the heap: keys with value references. -/
def readAdjMap (h : Heap) (gr : GraphRef) : List (VertexId × Nat) :=
  cellGet h.adjMaps gr.adjList

/-- The `Graph` value reachable from `gr`, with the adjacency map's entry
arrays dereferenced. -/
def readGraph (h : Heap) (gr : GraphRef) : Graph :=
  { vertices := readVertices h gr
    edges := readEdges h gr
    adjList := (readAdjMap h gr).map (fun p => (p.1, cellGet h.entryArrs p.2)) }

/-- `g.adjList.get(v) ?? []`, read from the heap. -/
def neighborsOfH (h : Heap) (gr : GraphRef) (v : VertexId) : List AdjEntry :=
  match mapGet (readAdjMap h gr) v with
  | none => []
  | some r => cellGet h.entryArrs r

/-- `findSet` against the heap: the method's net effect on object state is the
verified pure `findSet` (all of its writes land in `this.parent`), written
back to the parent map's cell `pr`. -/
def findSetH (h : Heap) (pr rr : Nat) (x : VertexId) :
    Except String VertexId × Heap :=
  match DisjointSet.findSet ⟨cellGet h.natMaps pr, cellGet h.natMaps rr⟩ x with
  | .error e => (.error e, h)
  | .ok (root, ds') => (.ok root, { h with natMaps := cellPut h.natMaps pr ds'.parent })

/-- `union` against the heap, line by line: two `findSet` calls, then the rank
comparison and the parent/rank writes of the chosen branch. -/
def unionH (h : Heap) (pr rr : Nat) (a b : VertexId) : Except String Bool × Heap :=
  match findSetH h pr rr a with
  | (.error e, h₁) => (.error e, h₁)
  | (.ok rootA, h₁) =>
    match findSetH h₁ pr rr b with
    | (.error e, h₂) => (.error e, h₂)
    | (.ok rootB, h₂) =>
      if rootA = rootB then (.ok false, h₂)
      else
        match mapGet (cellGet h₂.natMaps rr) rootA,
            mapGet (cellGet h₂.natMaps rr) rootB with
        | some rankA, some rankB =>
          if rankA < rankB then
            (.ok true, { h₂ with natMaps := (cellPut h₂.natMaps pr
                (mapSet (cellGet h₂.natMaps pr) rootA rootB)) })
          else if rankB < rankA then
            (.ok true, { h₂ with natMaps := (cellPut h₂.natMaps pr
                (mapSet (cellGet h₂.natMaps pr) rootB rootA)) })
          else
            (.ok true, { h₂ with natMaps :=
                (cellPut (cellPut h₂.natMaps pr (mapSet (cellGet h₂.natMaps pr) rootB rootA))
                  rr (mapSet (cellGet h₂.natMaps rr) rootA (rankA + 1))) })
        | _, _ => (.error "Rank not found for root vertex", h₂)

/-- The edge loop of `kruskalMST` against the heap: `resR` is the `result`
array's cell, `pr`/`rr` the `DisjointSet`'s map cells. -/
def kruskalGoH (n : Nat) (pr rr resR : Nat) (h : Heap) :
    List Edge → Except String (List Edge) × Heap
  | [] => (.ok (cellGet h.edgeArrs resR), h)
  | e :: rest =>
    match unionH h pr rr e.u e.v with
    | (.error msg, h₁) => (.error msg, h₁)
    | (.ok merged, h₁) =>
      let h₂ := if merged then
          { h₁ with edgeArrs := (cellPut h₁.edgeArrs resR
              (cellGet h₁.edgeArrs resR ++ [e])) }
        else h₁
      if ((cellGet h₂.edgeArrs resR).length : ℤ) = (n : ℤ) - 1 then
        (.ok (cellGet h₂.edgeArrs resR), h₂)
      else
        kruskalGoH n pr rr resR h₂ rest

/-- `kruskalMST` against the heap: allocate `result` and the `DisjointSet`'s
maps, copy `g.edges` with `slice()` into a fresh cell, sort that cell in
place, and run the loop on its contents. -/
def kruskalMSTH (h : Heap) (gr : GraphRef) : Except String (List Edge) × Heap :=
  let p₁ := cellNew h.edgeArrs []
  let h₁ : Heap := { h with edgeArrs := p₁.2 }
  let ds0 := DisjointSet.ofVertices (readVertices h₁ gr)
  let p₂ := cellNew h₁.natMaps ds0.parent
  let h₂ : Heap := { h₁ with natMaps := p₂.2 }
  let p₃ := cellNew h₂.natMaps ds0.rank
  let h₃ : Heap := { h₂ with natMaps := p₃.2 }
  let p₄ := cellNew h₃.edgeArrs (readEdges h₃ gr)
  let h₄ : Heap := { h₃ with edgeArrs := p₄.2 }
  let h₅ : Heap := { h₄ with edgeArrs := (cellPut h₄.edgeArrs p₄.1
      ((cellGet h₄.edgeArrs p₄.1).mergeSort (fun a b => a.weight ≤ b.weight))) }
  kruskalGoH (readVertices h₅ gr).length p₂.1 p₃.1 p₁.1 h₅ (cellGet h₅.edgeArrs p₄.1)

theorem findSetH_kept (h₀ h : Heap) (pr rr : Nat) (x : VertexId)
    (hk : HeapKept h₀ h) (hpr : h₀.natMaps.length ≤ pr) :
    HeapKept h₀ (findSetH h pr rr x).2 := by
  unfold findSetH
  split
  · exact hk
  · exact { hk with maps := storeKept_put hk.maps hpr _ }

theorem unionH_kept (h₀ h : Heap) (pr rr : Nat) (a b : VertexId)
    (hk : HeapKept h₀ h) (hpr : h₀.natMaps.length ≤ pr)
    (hrr : h₀.natMaps.length ≤ rr) :
    HeapKept h₀ (unionH h pr rr a b).2 := by
  unfold unionH
  split
  · next e h₁ heq =>
    have h2 := findSetH_kept h₀ h pr rr a hk hpr
    rw [heq] at h2
    exact h2
  · next rootA h₁ heq =>
    have hk₁ : HeapKept h₀ h₁ := by
      have h2 := findSetH_kept h₀ h pr rr a hk hpr
      rw [heq] at h2
      exact h2
    split
    · next e h₂ heq₂ =>
      have h2 := findSetH_kept h₀ h₁ pr rr b hk₁ hpr
      rw [heq₂] at h2
      exact h2
    · next rootB h₂ heq₂ =>
      have hk₂ : HeapKept h₀ h₂ := by
        have h2 := findSetH_kept h₀ h₁ pr rr b hk₁ hpr
        rw [heq₂] at h2
        exact h2
      by_cases hre : rootA = rootB
      · simp only [if_pos hre]
        exact hk₂
      · simp only [if_neg hre]
        cases hA : mapGet (cellGet h₂.natMaps rr) rootA with
        | none =>
          cases hB : mapGet (cellGet h₂.natMaps rr) rootB with
          | none =>
            simp only [hA, hB]
            exact hk₂
          | some rankB =>
            simp only [hA, hB]
            exact hk₂
        | some rankA =>
          cases hB : mapGet (cellGet h₂.natMaps rr) rootB with
          | none =>
            simp only [hA, hB]
            exact hk₂
          | some rankB =>
            simp only [hA, hB]
            by_cases h1 : rankA < rankB
            · simp only [if_pos h1]
              exact { hk₂ with maps := storeKept_put hk₂.maps hpr _ }
            · simp only [if_neg h1]
              by_cases h2 : rankB < rankA
              · simp only [if_pos h2]
                exact { hk₂ with maps := storeKept_put hk₂.maps hpr _ }
              · simp only [if_neg h2]
                exact { hk₂ with maps :=
                    (storeKept_put (storeKept_put hk₂.maps hpr _) hrr _) }

theorem kruskalGoH_kept (n pr rr resR : Nat) (h₀ : Heap)
    (hpr : h₀.natMaps.length ≤ pr) (hrr : h₀.natMaps.length ≤ rr)
    (hres : h₀.edgeArrs.length ≤ resR) :
    ∀ (rest : List Edge) (h : Heap), HeapKept h₀ h →
      HeapKept h₀ (kruskalGoH n pr rr resR h rest).2 := by
  intro rest
  induction rest with
  | nil =>
    intro h hk
    exact hk
  | cons e rest ih =>
    intro h hk
    rcases hu : unionH h pr rr e.u e.v with ⟨res, h₁⟩
    have hk₁ : HeapKept h₀ h₁ := by
      have h2 := unionH_kept h₀ h pr rr e.u e.v hk hpr hrr
      rw [hu] at h2
      exact h2
    cases res with
    | error msg =>
      have hstep : kruskalGoH n pr rr resR h (e :: rest) = (.error msg, h₁) := by
        simp [kruskalGoH, hu]
      rw [hstep]
      exact hk₁
    | ok merged =>
      cases merged with
      | false =>
        have hstep : kruskalGoH n pr rr resR h (e :: rest) =
            if ((cellGet h₁.edgeArrs resR).length : ℤ) = (n : ℤ) - 1 then
              (.ok (cellGet h₁.edgeArrs resR), h₁)
            else kruskalGoH n pr rr resR h₁ rest := by
          simp [kruskalGoH, hu]
        rw [hstep]
        split
        · exact hk₁
        · exact ih h₁ hk₁
      | true =>
        have hk₂ : HeapKept h₀ { h₁ with edgeArrs := (cellPut h₁.edgeArrs resR
            (cellGet h₁.edgeArrs resR ++ [e])) } :=
          { hk₁ with edges := storeKept_put hk₁.edges hres _ }
        have hstep : kruskalGoH n pr rr resR h (e :: rest) =
            (if ((cellGet ({ h₁ with edgeArrs := (cellPut h₁.edgeArrs resR
                  (cellGet h₁.edgeArrs resR ++ [e])) } : Heap).edgeArrs resR).length : ℤ) =
                (n : ℤ) - 1 then
              (.ok (cellGet ({ h₁ with edgeArrs := (cellPut h₁.edgeArrs resR
                  (cellGet h₁.edgeArrs resR ++ [e])) } : Heap).edgeArrs resR),
                ({ h₁ with edgeArrs := (cellPut h₁.edgeArrs resR
                  (cellGet h₁.edgeArrs resR ++ [e])) } : Heap))
            else kruskalGoH n pr rr resR ({ h₁ with edgeArrs := (cellPut h₁.edgeArrs resR
                (cellGet h₁.edgeArrs resR ++ [e])) } : Heap) rest) := by
          simp [kruskalGoH, hu]
        rw [hstep]
        split
        · exact hk₂
        · exact ih _ hk₂

/-- `kruskalMSTH` never touches a pre-existing heap cell: the only cells it
writes are the four it allocates. -/
theorem kruskalMSTH_kept (h : Heap) (gr : GraphRef) :
    HeapKept h (kruskalMSTH h gr).2 := by
  unfold kruskalMSTH
  refine kruskalGoH_kept _ _ _ _ h ?_ ?_ ?_ _ _ ?_
  · simp [cellNew]
  · simp [cellNew]
  · simp [cellNew]
  · exact
      { nats := storeKept_refl _
        edges := storeKept_put (storeKept_new (storeKept_new (storeKept_refl _) _) _)
          (by simp [cellNew]) _
        entries := storeKept_refl _
        adjs := storeKept_refl _
        maps := storeKept_new (storeKept_new (storeKept_refl _) _) _
        bools := storeKept_refl _
        items := storeKept_refl _ }

/-- One pass of the `enqueueNeighbors` loop body against the heap: `viR` the
`vertexIndex` map cell, `visR` the `visited` array cell, `pqR` the queue's
backing cell; each `enqueue` writes the verified pure `enqueue`'s result to
the queue's cell. -/
def enqNbrsH (viR visR pqR : Nat) (frm : VertexId) (h : Heap) :
    List AdjEntry → Except String Unit × Heap
  | [] => (.ok (), h)
  | neighbor :: rest =>
    match mapGet (cellGet h.natMaps viR) neighbor.toV with
    | none => (.error s!"Vertex {neighbor.toV} missing from index map", h)
    | some neighborIndex =>
      if (cellGet h.boolArrs visR).getD neighborIndex false then
        enqNbrsH viR visR pqR frm h rest
      else
        enqNbrsH viR visR pqR frm
          { h with itemArrs := (cellPut h.itemArrs pqR
              ((PriorityQueue.mk (cellGet h.itemArrs pqR)).enqueue
                ⟨neighbor.weight, neighbor.toV, frm⟩).heap_array) } rest

/-- The `enqueueNeighbors` closure against the heap: read
`g.adjList.get(from) ?? []`, then enqueue every not-yet-visited neighbor. -/
def enqueueNeighborsH (h : Heap) (gr : GraphRef) (viR visR pqR : Nat)
    (frm : VertexId) : Except String Unit × Heap :=
  enqNbrsH viR visR pqR frm h (neighborsOfH h gr frm)

/-- `enqNbrsH` writes only the queue's cell, and preserves the queue store's
size. -/
theorem enqNbrsH_shape (viR visR pqR : Nat) (frm : VertexId) :
    ∀ (l : List AdjEntry) (h : Heap),
      (enqNbrsH viR visR pqR frm h l).2.natArrs = h.natArrs ∧
      (enqNbrsH viR visR pqR frm h l).2.edgeArrs = h.edgeArrs ∧
      (enqNbrsH viR visR pqR frm h l).2.entryArrs = h.entryArrs ∧
      (enqNbrsH viR visR pqR frm h l).2.adjMaps = h.adjMaps ∧
      (enqNbrsH viR visR pqR frm h l).2.natMaps = h.natMaps ∧
      (enqNbrsH viR visR pqR frm h l).2.boolArrs = h.boolArrs ∧
      (enqNbrsH viR visR pqR frm h l).2.itemArrs.length = h.itemArrs.length := by
  intro l
  induction l with
  | nil =>
    intro h
    exact ⟨rfl, rfl, rfl, rfl, rfl, rfl, rfl⟩
  | cons neighbor rest ih =>
    intro h
    cases hmg : mapGet (cellGet h.natMaps viR) neighbor.toV with
    | none =>
      simp [enqNbrsH, hmg]
    | some ni =>
      by_cases hvb : (cellGet h.boolArrs visR).getD ni false
      · simp only [enqNbrsH, hmg, if_pos hvb]
        exact ih h
      · simp only [enqNbrsH, hmg, if_neg hvb]
        have hrec := ih { h with itemArrs := (cellPut h.itemArrs pqR
            ((PriorityQueue.mk (cellGet h.itemArrs pqR)).enqueue
              ⟨neighbor.weight, neighbor.toV, frm⟩).heap_array) }
        refine ⟨hrec.1, hrec.2.1, hrec.2.2.1, hrec.2.2.2.1, hrec.2.2.2.2.1,
          hrec.2.2.2.2.2.1, ?_⟩
        rw [hrec.2.2.2.2.2.2]
        exact cellPut_length _ _ _

/-- `enqNbrsH` preserves every cell that predates the queue's. -/
theorem enqNbrsH_kept (viR visR pqR : Nat) (frm : VertexId) (h₀ : Heap)
    (hpq : h₀.itemArrs.length ≤ pqR) :
    ∀ (l : List AdjEntry) (h : Heap), HeapKept h₀ h →
      HeapKept h₀ (enqNbrsH viR visR pqR frm h l).2 := by
  intro l
  induction l with
  | nil =>
    intro h hk
    exact hk
  | cons neighbor rest ih =>
    intro h hk
    cases hmg : mapGet (cellGet h.natMaps viR) neighbor.toV with
    | none =>
      simp only [enqNbrsH, hmg]
      exact hk
    | some ni =>
      by_cases hvb : (cellGet h.boolArrs visR).getD ni false
      · simp only [enqNbrsH, hmg, if_pos hvb]
        exact ih h hk
      · simp only [enqNbrsH, hmg, if_neg hvb]
        exact ih _ { hk with items := storeKept_put hk.items hpq _ }

/-- The main loop of `primMST` against the heap: `mstR` the `mst` array cell,
`viR` the `vertexIndex` map cell, `visR` the `visited` array cell, `pqR` the
queue's backing cell.  `dequeue()` and every `enqueue()` write the backing
cell, `visited[idx] = true` writes the visited cell, `mst.push` writes the
`mst` cell.  The threaded hypotheses record that the two cells the loop
writes and measures are in range and sized to the vertex list; termination is
the pure loop's measure, read off the cells. -/
def primLoopH (gr : GraphRef) (mstR viR visR pqR : Nat) (h : Heap)
    (hvis : visR < h.boolArrs.length) (hpq : pqR < h.itemArrs.length)
    (hlenB : (cellGet h.boolArrs visR).length = (readVertices h gr).length)
    (hidx : ∀ v i, mapGet (cellGet h.natMaps viR) v = some i →
      i < (readVertices h gr).length) :
    Except String (List Edge) × Heap :=
  if hguard : ((cellGet h.edgeArrs mstR).length : ℤ) <
      ((readVertices h gr).length : ℤ) - 1 ∧
      (PriorityQueue.mk (cellGet h.itemArrs pqR)).isEmpty = false then
    match hdq : (PriorityQueue.mk (cellGet h.itemArrs pqR)).dequeue with
    | (none, pq') =>
      -- `if (queueItem === undefined) continue` — dead code: a non-empty
      -- queue always dequeues a value
      primLoopH gr mstR viR visR pqR
        { h with itemArrs := (cellPut h.itemArrs pqR pq'.heap_array) } hvis
        (by
          show pqR < (cellPut h.itemArrs pqR pq'.heap_array).length
          rw [cellPut_length]
          exact hpq)
        hlenB hidx
    | (some queueItem, pq') =>
      match hv : mapGet (cellGet h.natMaps viR) queueItem.vertex with
      | none =>
        (.error s!"Vertex {queueItem.vertex} missing from index map",
          { h with itemArrs := (cellPut h.itemArrs pqR pq'.heap_array) })
      | some vertexIdx =>
        if hvq : (cellGet h.boolArrs visR).getD vertexIdx false then
          primLoopH gr mstR viR visR pqR
            { h with itemArrs := (cellPut h.itemArrs pqR pq'.heap_array) } hvis
            (by
              show pqR < (cellPut h.itemArrs pqR pq'.heap_array).length
              rw [cellPut_length]
              exact hpq)
            hlenB hidx
        else
          let h₃ : Heap :=
            { h with
                itemArrs := (cellPut h.itemArrs pqR pq'.heap_array)
                boolArrs := (cellPut h.boolArrs visR
                  ((cellGet h.boolArrs visR).set vertexIdx true))
                edgeArrs := (cellPut h.edgeArrs mstR
                  (cellGet h.edgeArrs mstR ++
                    [⟨queueItem.parent, queueItem.vertex, queueItem.priority⟩])) }
          match henq : enqueueNeighborsH h₃ gr viR visR pqR queueItem.vertex with
          | (.error e, h₄) => (.error e, h₄)
          | (.ok u, h₄) =>
            primLoopH gr mstR viR visR pqR h₄
              (by
                have h4eq : (enqueueNeighborsH h₃ gr viR visR pqR
                    queueItem.vertex).2 = h₄ := congrArg Prod.snd henq
                have hb : h₄.boolArrs = h₃.boolArrs := by
                  rw [← h4eq]
                  exact (enqNbrsH_shape _ _ _ _ _ _).2.2.2.2.2.1
                rw [hb]
                show visR < (cellPut h.boolArrs visR
                  ((cellGet h.boolArrs visR).set vertexIdx true)).length
                rw [cellPut_length]
                exact hvis)
              (by
                have h4eq : (enqueueNeighborsH h₃ gr viR visR pqR
                    queueItem.vertex).2 = h₄ := congrArg Prod.snd henq
                have hil : h₄.itemArrs.length = h₃.itemArrs.length := by
                  rw [← h4eq]
                  exact (enqNbrsH_shape _ _ _ _ _ _).2.2.2.2.2.2
                rw [hil]
                show pqR < (cellPut h.itemArrs pqR pq'.heap_array).length
                rw [cellPut_length]
                exact hpq)
              (by
                have h4eq : (enqueueNeighborsH h₃ gr viR visR pqR
                    queueItem.vertex).2 = h₄ := congrArg Prod.snd henq
                have hb : h₄.boolArrs = h₃.boolArrs := by
                  rw [← h4eq]
                  exact (enqNbrsH_shape _ _ _ _ _ _).2.2.2.2.2.1
                have hn : h₄.natArrs = h₃.natArrs := by
                  rw [← h4eq]
                  exact (enqNbrsH_shape _ _ _ _ _ _).1
                show (cellGet h₄.boolArrs visR).length =
                  (cellGet h₄.natArrs gr.vertices).length
                rw [hb, hn]
                show (cellGet (cellPut h.boolArrs visR
                    ((cellGet h.boolArrs visR).set vertexIdx true)) visR).length =
                  (cellGet h.natArrs gr.vertices).length
                rw [cellGet_put_self _ _ _ hvis, List.length_set]
                exact hlenB)
              (by
                have h4eq : (enqueueNeighborsH h₃ gr viR visR pqR
                    queueItem.vertex).2 = h₄ := congrArg Prod.snd henq
                have hm : h₄.natMaps = h₃.natMaps := by
                  rw [← h4eq]
                  exact (enqNbrsH_shape _ _ _ _ _ _).2.2.2.2.1
                have hn : h₄.natArrs = h₃.natArrs := by
                  rw [← h4eq]
                  exact (enqNbrsH_shape _ _ _ _ _ _).1
                intro v i hvi
                rw [hm] at hvi
                show i < (cellGet h₄.natArrs gr.vertices).length
                rw [hn]
                exact hidx v i hvi)
  else
    (.ok (cellGet h.edgeArrs mstR), h)
termination_by ((cellGet h.boolArrs visR).count false, (cellGet h.itemArrs pqR).length)
decreasing_by
  · exact absurd (congrArg Prod.fst hdq)
      (by simp [Option.isSome_iff_ne_none.mp (dequeue_fst_isSome _ hguard.2)])
  · have h1 : (cellGet (cellPut h.itemArrs pqR pq'.heap_array) pqR).length <
        (cellGet h.itemArrs pqR).length := by
      rw [cellGet_put_self _ _ _ hpq]
      have hsz := dequeue_snd_size (PriorityQueue.mk (cellGet h.itemArrs pqR)) hguard.2
      rw [hdq] at hsz
      have hne := hguard.2
      simp only [PriorityQueue.isEmpty, decide_eq_false_iff_not] at hne
      have hpos : 0 < (cellGet h.itemArrs pqR).length := Nat.pos_of_ne_zero hne
      simp only [PriorityQueue.size] at hsz
      omega
    exact Prod.Lex.right _ h1
  · refine Prod.Lex.left _ _ ?_
    have h4eq : (enqueueNeighborsH h₃ gr viR visR pqR
        queueItem.vertex).2 = h₄ := congrArg Prod.snd henq
    have hb : h₄.boolArrs = h₃.boolArrs := by
      rw [← h4eq]
      exact (enqNbrsH_shape _ _ _ _ _ _).2.2.2.2.2.1
    rw [hb]
    show (cellGet (cellPut h.boolArrs visR
        ((cellGet h.boolArrs visR).set vertexIdx true)) visR).count false <
      (cellGet h.boolArrs visR).count false
    rw [cellGet_put_self _ _ _ hvis]
    refine count_false_set_true _ _ ?_ ?_
    · rw [hlenB]
      exact hidx queueItem.vertex vertexIdx hv
    · exact Bool.not_eq_true _ ▸ hvq

/-- `primLoopH` preserves every cell allocated before the three it writes. -/
theorem primLoopH_kept (gr : GraphRef) (mstR viR visR pqR : Nat) (h₀ : Heap)
    (hmst : h₀.edgeArrs.length ≤ mstR) (hbools : h₀.boolArrs.length ≤ visR)
    (hitems : h₀.itemArrs.length ≤ pqR) :
    ∀ (h : Heap) (hvis : visR < h.boolArrs.length) (hpq : pqR < h.itemArrs.length)
      (hlenB : (cellGet h.boolArrs visR).length = (readVertices h gr).length)
      (hidx : ∀ v i, mapGet (cellGet h.natMaps viR) v = some i →
        i < (readVertices h gr).length),
      HeapKept h₀ h →
      HeapKept h₀ (primLoopH gr mstR viR visR pqR h hvis hpq hlenB hidx).2 := by
  intro h hvis hpq hlenB hidx
  induction h, hvis, hpq, hlenB, hidx using primLoopH.induct gr mstR viR visR pqR with
  | case1 h hvis hpq hlenB hidx hguard pq' hdq ih =>
    intro hk
    rw [primLoopH, dif_pos hguard]
    split
    · next pq₂ heq =>
      rw [hdq] at heq
      have hpq2 : pq' = pq₂ := congrArg Prod.snd heq
      rw [← hpq2]
      exact ih { hk with items := storeKept_put hk.items hitems _ }
    · next y q₂ heq =>
      rw [hdq] at heq
      exact Option.noConfusion (congrArg Prod.fst heq)
  | case2 h hvis hpq hlenB hidx hguard queueItem pq' hdq hv =>
    intro hk
    rw [primLoopH, dif_pos hguard]
    split
    · next pq₂ heq =>
      rw [hdq] at heq
      exact Option.noConfusion (congrArg Prod.fst heq)
    · next y q₂ heq =>
      rw [hdq] at heq
      have hxy : queueItem = y := Option.some_injective _ (congrArg Prod.fst heq)
      have hq2 : pq' = q₂ := congrArg Prod.snd heq
      rw [← hxy, ← hq2]
      split
      · next h2 =>
        exact { hk with items := storeKept_put hk.items hitems _ }
      · next j h2 =>
        rw [hv] at h2
        exact Option.noConfusion h2
  | case3 h hvis hpq hlenB hidx hguard queueItem pq' hdq vertexIdx hv hvq ih =>
    intro hk
    rw [primLoopH, dif_pos hguard]
    split
    · next pq₂ heq =>
      rw [hdq] at heq
      exact Option.noConfusion (congrArg Prod.fst heq)
    · next y q₂ heq =>
      rw [hdq] at heq
      have hxy : queueItem = y := Option.some_injective _ (congrArg Prod.fst heq)
      have hq2 : pq' = q₂ := congrArg Prod.snd heq
      rw [← hxy, ← hq2]
      split
      · next h2 =>
        rw [hv] at h2
        exact Option.noConfusion h2
      · next j h2 =>
        rw [hv] at h2
        rw [← Option.some_injective _ h2]
        rw [dif_pos hvq]
        exact ih { hk with items := storeKept_put hk.items hitems _ }
  | case4 h hvis hpq hlenB hidx hguard queueItem pq' hdq vertexIdx hv hvq h₃ e h₄ henq =>
    intro hk
    rw [primLoopH, dif_pos hguard]
    split
    · next pq₂ heq =>
      rw [hdq] at heq
      exact Option.noConfusion (congrArg Prod.fst heq)
    · next y q₂ heq =>
      rw [hdq] at heq
      have hxy : queueItem = y := Option.some_injective _ (congrArg Prod.fst heq)
      have hq2 : pq' = q₂ := congrArg Prod.snd heq
      rw [← hxy, ← hq2]
      split
      · next h2 =>
        rw [hv] at h2
        exact Option.noConfusion h2
      · next j h2 =>
        rw [hv] at h2
        rw [← Option.some_injective _ h2]
        rw [dif_neg hvq]
        dsimp only []
        split
        · next e₂ h₄₂ heq₂ =>
          rw [henq] at heq₂
          have hhh : h₄ = h₄₂ := congrArg Prod.snd heq₂
          rw [← hhh]
          have h4eq : _ = h₄ := congrArg Prod.snd henq
          rw [← h4eq]
          refine enqNbrsH_kept viR visR pqR queueItem.vertex h₀ hitems _ _ ?_
          exact { hk with
            items := storeKept_put hk.items hitems _
            bools := storeKept_put hk.bools hbools _
            edges := storeKept_put hk.edges hmst _ }
        · next u₂ h₄₂ heq₂ =>
          rw [henq] at heq₂
          exact Except.noConfusion (congrArg Prod.fst heq₂)
  | case5 h hvis hpq hlenB hidx hguard queueItem pq' hdq vertexIdx hv hvq h₃ u h₄ henq ih =>
    intro hk
    rw [primLoopH, dif_pos hguard]
    split
    · next pq₂ heq =>
      rw [hdq] at heq
      exact Option.noConfusion (congrArg Prod.fst heq)
    · next y q₂ heq =>
      rw [hdq] at heq
      have hxy : queueItem = y := Option.some_injective _ (congrArg Prod.fst heq)
      have hq2 : pq' = q₂ := congrArg Prod.snd heq
      rw [← hxy, ← hq2]
      split
      · next h2 =>
        rw [hv] at h2
        exact Option.noConfusion h2
      · next j h2 =>
        rw [hv] at h2
        rw [← Option.some_injective _ h2]
        rw [dif_neg hvq]
        dsimp only []
        split
        · next e₂ h₄₂ heq₂ =>
          rw [henq] at heq₂
          exact Except.noConfusion (congrArg Prod.fst heq₂)
        · next u₂ h₄₂ heq₂ =>
          rw [henq] at heq₂
          have hh : h₄ = h₄₂ := congrArg Prod.snd heq₂
          subst hh
          refine ih ?_
          have h4eq : _ = h₄ := congrArg Prod.snd henq
          rw [← h4eq]
          refine enqNbrsH_kept viR visR pqR queueItem.vertex h₀ hitems _ _ ?_
          exact { hk with
            items := storeKept_put hk.items hitems _
            bools := storeKept_put hk.bools hbools _
            edges := storeKept_put hk.edges hmst _ }
  | case6 h hvis hpq hlenB hidx hguard =>
    intro hk
    rw [primLoopH, dif_neg hguard]
    exact hk

/-- `primMST` against the heap: allocate `mst`, the `vertexIndex` map, the
`visited` array and a fresh queue; mark the start vertex visited; enqueue its
neighbors; run the loop. -/
def primMSTH (h : Heap) (gr : GraphRef) : Except String (List Edge) × Heap :=
  let p₁ := cellNew h.edgeArrs []
  let h₁ : Heap := { h with edgeArrs := p₁.2 }
  if (readVertices h₁ gr).length = 0 ∨ (readEdges h₁ gr).length = 0 then
    (.ok (cellGet h₁.edgeArrs p₁.1), h₁)
  else
    let p₂ := cellNew h₁.natMaps (primVidx (readGraph h₁ gr))
    let h₂ : Heap := { h₁ with natMaps := p₂.2 }
    let p₃ := cellNew h₂.boolArrs (List.replicate (readVertices h₂ gr).length false)
    let h₃ : Heap := { h₂ with boolArrs := p₃.2 }
    let p₄ := cellNew h₃.itemArrs []
    let h₄ : Heap := { h₃ with itemArrs := p₄.2 }
    match mapGet (cellGet h₄.natMaps p₂.1) ((readVertices h₄ gr).getD 0 0) with
    | none =>
      (.error s!"Start vertex {(readVertices h₄ gr).getD 0 0} missing from index map",
        h₄)
    | some startIndex =>
      let h₅ : Heap := { h₄ with boolArrs := (cellPut h₄.boolArrs p₃.1
          ((cellGet h₄.boolArrs p₃.1).set startIndex true)) }
      match henq : enqueueNeighborsH h₅ gr p₂.1 p₃.1 p₄.1
          ((readVertices h₅ gr).getD 0 0) with
      | (.error e, h₆) => (.error e, h₆)
      | (.ok u, h₆) =>
        primLoopH gr p₁.1 p₂.1 p₃.1 p₄.1 h₆
          (by
            have h6eq : _ = h₆ := congrArg Prod.snd henq
            have hb : h₆.boolArrs = h₅.boolArrs := by
              rw [← h6eq]
              exact (enqNbrsH_shape _ _ _ _ _ _).2.2.2.2.2.1
            rw [hb]
            show p₃.1 < (cellPut h₄.boolArrs p₃.1
              ((cellGet h₄.boolArrs p₃.1).set startIndex true)).length
            rw [cellPut_length]
            show h₂.boolArrs.length < (h₂.boolArrs ++
              [List.replicate (readVertices h₂ gr).length false]).length
            simp)
          (by
            have h6eq : _ = h₆ := congrArg Prod.snd henq
            have hil : h₆.itemArrs.length = h₅.itemArrs.length := by
              rw [← h6eq]
              exact (enqNbrsH_shape _ _ _ _ _ _).2.2.2.2.2.2
            rw [hil]
            show h₃.itemArrs.length < (h₃.itemArrs ++ [([] : List PrimQueueItem)]).length
            simp)
          (by
            have h6eq : _ = h₆ := congrArg Prod.snd henq
            have hb : h₆.boolArrs = h₅.boolArrs := by
              rw [← h6eq]
              exact (enqNbrsH_shape _ _ _ _ _ _).2.2.2.2.2.1
            have hn : h₆.natArrs = h₅.natArrs := by
              rw [← h6eq]
              exact (enqNbrsH_shape _ _ _ _ _ _).1
            show (cellGet h₆.boolArrs p₃.1).length =
              (cellGet h₆.natArrs gr.vertices).length
            rw [hb, hn]
            show (cellGet (cellPut h₄.boolArrs p₃.1
                ((cellGet h₄.boolArrs p₃.1).set startIndex true)) p₃.1).length =
              (cellGet h.natArrs gr.vertices).length
            rw [cellGet_put_self _ _ _ (by
              show h₂.boolArrs.length < (h₂.boolArrs ++
                [List.replicate (readVertices h₂ gr).length false]).length
              simp)]
            rw [List.length_set]
            show (cellGet (h₂.boolArrs ++
              [List.replicate (readVertices h₂ gr).length false])
                h₂.boolArrs.length).length = (cellGet h.natArrs gr.vertices).length
            rw [cellGet_new_self, List.length_replicate]
            rfl)
          (by
            have h6eq : _ = h₆ := congrArg Prod.snd henq
            have hm : h₆.natMaps = h₅.natMaps := by
              rw [← h6eq]
              exact (enqNbrsH_shape _ _ _ _ _ _).2.2.2.2.1
            have hn : h₆.natArrs = h₅.natArrs := by
              rw [← h6eq]
              exact (enqNbrsH_shape _ _ _ _ _ _).1
            intro v i hvi
            rw [hm] at hvi
            have hvi' : mapGet (cellGet (h₁.natMaps ++
                [primVidx (readGraph h₁ gr)]) h₁.natMaps.length) v = some i := hvi
            rw [cellGet_new_self] at hvi'
            have hlt := primVidx_lt (readGraph h₁ gr) v i hvi'
            show i < (cellGet h₆.natArrs gr.vertices).length
            rw [hn]
            exact hlt)

/-- `primMSTH` never touches a pre-existing heap cell: the only cells it
writes are the four it allocates. -/
theorem primMSTH_kept (h : Heap) (gr : GraphRef) :
    HeapKept h (primMSTH h gr).2 := by
  unfold primMSTH
  dsimp only []
  split
  · exact { HeapKept.self h with edges := storeKept_new (storeKept_refl _) _ }
  · split
    · exact { HeapKept.self h with
        edges := storeKept_new (storeKept_refl _) _
        maps := storeKept_new (storeKept_refl _) _
        bools := storeKept_new (storeKept_refl _) _
        items := storeKept_new (storeKept_refl _) _ }
    · next startIndex hstart =>
      split
      · next e h₆ henq =>
        have h6eq : h₆ = (enqueueNeighborsH _ gr _ _ _ _).2 :=
          (congrArg Prod.snd henq).symm
        rw [h6eq]
        refine enqNbrsH_kept _ _ _ _ h (by simp [cellNew]) _ _ ?_
        exact { HeapKept.self h with
          edges := storeKept_new (storeKept_refl _) _
          maps := storeKept_new (storeKept_refl _) _
          bools := storeKept_put (storeKept_new (storeKept_refl _) _)
            (by simp [cellNew]) _
          items := storeKept_new (storeKept_refl _) _ }
      · next u h₆ henq =>
        refine primLoopH_kept gr _ _ _ _ h (by simp [cellNew]) (by simp [cellNew])
          (by simp [cellNew]) _ _ _ _ _ ?_
        have h6eq : h₆ = (enqueueNeighborsH _ gr _ _ _ _).2 :=
          (congrArg Prod.snd henq).symm
        rw [h6eq]
        refine enqNbrsH_kept _ _ _ _ h (by simp [cellNew]) _ _ ?_
        exact { HeapKept.self h with
          edges := storeKept_new (storeKept_refl _) _
          maps := storeKept_new (storeKept_refl _) _
          bools := storeKept_put (storeKept_new (storeKept_refl _) _)
            (by simp [cellNew]) _
          items := storeKept_new (storeKept_refl _) _ }

/-! ## The claims -/

/-- C7: `kruskalMST` processes a copy of the graph's edge list sorted ascending
by weight with a stable sort — the sorted copy is a permutation of `g.edges`,
its weights are non-decreasing, and any weight-sorted pair of edges (in
particular any pair of equal-weight edges) keeps its original relative order;
`kruskalMST` is the edge loop applied to exactly that sorted copy, so its
output is deterministic for a fixed input graph. -/
theorem claim_C7 (g : Graph) :
    kruskalMST g = kruskalGo g.vertices.length (DisjointSet.ofVertices g.vertices) []
        (kruskalSortedEdges g) ∧
    (kruskalSortedEdges g).Perm g.edges ∧
    (kruskalSortedEdges g).Pairwise (fun a b => a.weight ≤ b.weight) ∧
    (∀ e₁ e₂ : Edge, e₁.weight ≤ e₂.weight → List.Sublist [e₁, e₂] g.edges →
      List.Sublist [e₁, e₂] (kruskalSortedEdges g)) := by
  have htrans : ∀ a b c : Edge, (decide (a.weight ≤ b.weight)) →
      (decide (b.weight ≤ c.weight)) → (decide (a.weight ≤ c.weight)) := by
    intro a b c hab hbc
    simp only [decide_eq_true_eq] at *
    exact le_trans hab hbc
  have htotal : ∀ a b : Edge,
      ((decide (a.weight ≤ b.weight)) || (decide (b.weight ≤ a.weight))) = true := by
    intro a b
    simp only [Bool.or_eq_true, decide_eq_true_eq]
    exact le_total a.weight b.weight
  refine ⟨rfl, List.mergeSort_perm _ _, ?_, ?_⟩
  · have h := List.sorted_mergeSort htrans htotal g.edges
    refine h.imp ?_
    intro a b hab
    simpa using hab
  · intro e₁ e₂ hw hsub
    exact List.pair_sublist_mergeSort htrans htotal (by simpa using hw) hsub

/-- Witness for C7 at a concrete graph with two equal-weight edges. -/
theorem claim_C7_witness :
    List.Sublist [(⟨0, 1, 5⟩ : Edge), ⟨1, 2, 5⟩]
      (kruskalSortedEdges ⟨[0, 1, 2], [⟨0, 1, 5⟩, ⟨1, 2, 5⟩], []⟩) :=
  (claim_C7 ⟨[0, 1, 2], [⟨0, 1, 5⟩, ⟨1, 2, 5⟩], []⟩).2.2.2 ⟨0, 1, 5⟩ ⟨1, 2, 5⟩
    (by norm_num) (List.Sublist.refl _)

/-- C8: for every well-formed graph with zero vertices or zero edges, both
`kruskalMST` and `primMST` return an empty edge sequence and raise no error. -/
theorem claim_C8 (g : Graph) (hwf : WFGraph g)
    (h : g.vertices = [] ∨ g.edges = []) :
    kruskalMST g = .ok [] ∧ primMST g = .ok [] := by
  have hedges : g.edges = [] := h.elim (fun hv => hwf.edges_nil hv) id
  constructor
  · rw [kruskalMST, kruskalSortedEdges, hedges]
    rw [List.mergeSort_nil]
    rfl
  · rw [primMST, if_pos]
    right
    rw [hedges]
    rfl

/-- Witness for C8: the single-vertex graph with no edges. -/
theorem claim_C8_witness :
    kruskalMST ⟨[0], [], []⟩ = .ok [] ∧ primMST ⟨[0], [], []⟩ = .ok [] :=
  claim_C8 ⟨[0], [], []⟩
    ⟨by decide, by simp, by simp, by simp [keys], by simp [keys]⟩ (Or.inr rfl)

/-- C10: in `primMST`, a vertex with no entry at all in `adjList` is treated as
having zero neighbors — the lookup falls back to the empty list rather than
raising an error, and `enqueueNeighbors` from such a vertex succeeds and
enqueues nothing. -/
theorem claim_C10 (g : Graph) (v : VertexId)
    (h : mapGet g.adjList v = none) :
    neighborsOf g v = [] ∧
    ∀ (vidx : List (VertexId × Nat)) (visited : List Bool) (pq : PriorityQueue),
      enqueueNeighbors g vidx visited pq v = .ok pq := by
  have hn : neighborsOf g v = [] := by simp [neighborsOf, h]
  exact ⟨hn, fun vidx visited pq => by simp [enqueueNeighbors, hn]; rfl⟩

/-- Witness for C10: vertex `0` is in the vertex list but absent from the
(empty) adjacency list. -/
theorem claim_C10_witness :
    neighborsOf ⟨[0, 1], [], []⟩ 0 = [] ∧
    enqueueNeighbors ⟨[0, 1], [], []⟩ [] [] PriorityQueue.empty 0 =
      .ok PriorityQueue.empty :=
  ⟨(claim_C10 ⟨[0, 1], [], []⟩ 0 rfl).1,
   (claim_C10 ⟨[0, 1], [], []⟩ 0 rfl).2 [] [] PriorityQueue.empty⟩

/-- C4: for every `DisjointSet` built from a vertex list (and mutated by any
sequence of `findSet`/`union` calls) and every pair of registered vertices
`a`, `b`: `union(a,b)` succeeds and returns `true` iff `a` and `b` were in
different sets immediately before the call; after a call that returned `true`,
`findSet(a)` and `findSet(b)` return the same representative; and a second
`union(a,b)` immediately afterwards returns `false`. -/
theorem claim_C4 (ds : DisjointSet) (hbuilt : DSBuilt ds) (a b : VertexId)
    (ha : a ∈ keys ds.parent) (hb : b ∈ keys ds.parent) :
    ∃ flag ds', ds.union a b = .ok (flag, ds') ∧
      (flag = true ↔ ¬ sameSetD ds a b) ∧
      (flag = true →
        (∃ r dsA dsB, ds'.findSet a = .ok (r, dsA) ∧ dsA.findSet b = .ok (r, dsB)) ∧
        (∃ ds'', ds'.union a b = .ok (false, ds''))) := by
  have hwf := hbuilt.wf
  obtain ⟨flag, ds', hok, hwf', hkeys', hdisj⟩ := union_spec ds hwf a b ha hb
  refine ⟨flag, ds', hok, ?_, ?_⟩
  · rcases hdisj with ⟨hfl, hsame, -⟩ | ⟨hfl, hnot, -⟩
    · subst hfl
      simp [hsame]
    · subst hfl
      simp [hnot]
  · intro hfl
    subst hfl
    rcases hdisj with ⟨hfl, -⟩ | ⟨-, hnot, -, hdec⟩
    · exact Bool.noConfusion hfl
    · have ha' : a ∈ keys ds'.parent := hkeys'.symm ▸ ha
      have hb' : b ∈ keys ds'.parent := hkeys'.symm ▸ hb
      have hsame' : sameSetD ds' a b := by
        rw [hdec a b]
        exact Or.inr (Or.inl ⟨sameSetD.refl' ha hwf, sameSetD.refl' hb hwf⟩)
      constructor
      · obtain ⟨rA, dsA, hokA, hreachA, heqA, hwfA⟩ := findSet_spec ds' hwf' a ha'
        have hbA : b ∈ keys dsA.parent := heqA.1.symm ▸ hb'
        obtain ⟨rB, dsB, hokB, hreachB, heqB, hwfB⟩ := findSet_spec dsA hwfA b hbA
        have hreachB' : ReachesD ds' b rB := (heqA.2.2.2 b rB).mp hreachB
        obtain ⟨r₀, hr₀a, hr₀b⟩ := hsame'
        have h1 : rA = r₀ := hreachA.unique hr₀a
        have h2 : rB = r₀ := hreachB'.unique hr₀b
        refine ⟨rA, dsA, dsB, hokA, ?_⟩
        rw [h1, ← h2]
        exact hokB
      · obtain ⟨flag₂, ds'', hok₂, -, -, hdisj₂⟩ := union_spec ds' hwf' a b ha' hb'
        rcases hdisj₂ with ⟨hfl₂, -⟩ | ⟨-, hnot₂, -⟩
        · subst hfl₂
          exact ⟨ds'', hok₂⟩
        · exact absurd hsame' hnot₂

/-- Witness for C4 on the freshly constructed set over `[0, 1]`. -/
theorem claim_C4_witness :
    ∃ flag ds', (DisjointSet.ofVertices [0, 1]).union 0 1 = .ok (flag, ds') ∧
      (flag = true ↔ ¬ sameSetD (DisjointSet.ofVertices [0, 1]) 0 1) ∧
      (flag = true →
        (∃ r dsA dsB, ds'.findSet 0 = .ok (r, dsA) ∧ dsA.findSet 1 = .ok (r, dsB)) ∧
        (∃ ds'', ds'.union 0 1 = .ok (false, ds''))) :=
  claim_C4 (DisjointSet.ofVertices [0, 1]) (DSBuilt.init [0, 1]) 0 1
    (by decide) (by decide)

/-- C6: `findSet` and `union` on a vertex that was not in the vertex list raise
the `NotFound` error (never a silent no-op), and when Kruskal's edge loop
processes an edge referencing such a vertex the error propagates: the whole
call returns an error carrying no partial edge list. -/
theorem claim_C6 (ds : DisjointSet) (hwf : WFds ds) (x y : VertexId)
    (hx : x ∉ keys ds.parent) (hy : y ∈ keys ds.parent) :
    (ds.findSet x = .error s!"Vertex {x} not found in disjoint set") ∧
    (ds.union x y = .error s!"Vertex {x} not found in disjoint set") ∧
    (ds.union y x = .error s!"Vertex {x} not found in disjoint set") ∧
    (∀ (n : Nat) (result rest : List Edge) (e : Edge),
      (e.u = x ∨ (e.u ∈ keys ds.parent ∧ e.v = x)) →
      ∃ msg, kruskalGo n ds result (e :: rest) = .error msg) := by
  refine ⟨findSet_notFound ds x hx, union_err_left ds x y hx,
    union_err_right ds hwf y x hy hx, ?_⟩
  intro n result rest e he
  have herr : ∃ msg, ds.union e.u e.v = .error msg := by
    rcases he with he | ⟨heu, hev⟩
    · exact ⟨_, union_err_left ds e.u e.v (he ▸ hx)⟩
    · exact ⟨_, union_err_right ds hwf e.u e.v heu (hev ▸ hx)⟩
  obtain ⟨msg, hmsg⟩ := herr
  refine ⟨msg, ?_⟩
  rw [kruskalGo]
  simp only [hmsg]

/-- Witness for C6: vertex `5` is absent from the set built over `[0]`. -/
theorem claim_C6_witness :
    (DisjointSet.ofVertices [0]).findSet 5 =
      .error "Vertex 5 not found in disjoint set" ∧
    ∃ msg, kruskalGo 1 (DisjointSet.ofVertices [0]) [] [⟨5, 0, 1⟩] = .error msg :=
  ⟨(claim_C6 (DisjointSet.ofVertices [0]) (ofVertices_spec [0]).1 5 0
      (by decide) (by decide)).1,
   (claim_C6 (DisjointSet.ofVertices [0]) (ofVertices_spec [0]).1 5 0
      (by decide) (by decide)).2.2.2 1 [] [] ⟨5, 0, 1⟩ (Or.inl rfl)⟩

/-- C9: neither `kruskalMST` nor `primMST` mutates the input graph.  Both
algorithms are run against the object heap (`kruskalMSTH`, `primMSTH`), where
every write of the source lands in an explicit heap cell — Kruskal writes the
freshly allocated `slice()` cell when sorting and the `parent`/`rank` map
cells on `findSet`/`union`; Prim writes the `visited` array, the queue's
backing array and the `mst` array.  For a graph whose object references are
live in the starting heap, every pre-existing heap cell is intact after
either call (`HeapKept`), and re-reading the graph's vertices array, edges
array, adjacency map, and the whole `Graph` value (entry arrays included)
gives back exactly what was there before the call. -/
theorem claim_C9 (h : Heap) (gr : GraphRef)
    (hv : gr.vertices < h.natArrs.length) (he : gr.edges < h.edgeArrs.length)
    (ha : gr.adjList < h.adjMaps.length)
    (hent : ∀ p ∈ readAdjMap h gr, p.2 < h.entryArrs.length) :
    (HeapKept h (kruskalMSTH h gr).2 ∧
      readVertices (kruskalMSTH h gr).2 gr = readVertices h gr ∧
      readEdges (kruskalMSTH h gr).2 gr = readEdges h gr ∧
      readAdjMap (kruskalMSTH h gr).2 gr = readAdjMap h gr ∧
      readGraph (kruskalMSTH h gr).2 gr = readGraph h gr) ∧
    (HeapKept h (primMSTH h gr).2 ∧
      readVertices (primMSTH h gr).2 gr = readVertices h gr ∧
      readEdges (primMSTH h gr).2 gr = readEdges h gr ∧
      readAdjMap (primMSTH h gr).2 gr = readAdjMap h gr ∧
      readGraph (primMSTH h gr).2 gr = readGraph h gr) := by
  have kk := kruskalMSTH_kept h gr
  have pk := primMSTH_kept h gr
  refine ⟨⟨kk, kk.nats.2 gr.vertices hv, kk.edges.2 gr.edges he,
      kk.adjs.2 gr.adjList ha, ?_⟩,
    pk, pk.nats.2 gr.vertices hv, pk.edges.2 gr.edges he,
      pk.adjs.2 gr.adjList ha, ?_⟩
  · show readGraph _ gr = readGraph h gr
    unfold readGraph readVertices readEdges readAdjMap
    rw [kk.nats.2 gr.vertices hv, kk.edges.2 gr.edges he, kk.adjs.2 gr.adjList ha]
    have hmap : (cellGet h.adjMaps gr.adjList).map
        (fun p => (p.1, cellGet (kruskalMSTH h gr).2.entryArrs p.2)) =
        (cellGet h.adjMaps gr.adjList).map
        (fun p => (p.1, cellGet h.entryArrs p.2)) :=
      List.map_congr_left (fun p hp => by rw [kk.entries.2 p.2 (hent p hp)])
    rw [hmap]
  · show readGraph _ gr = readGraph h gr
    unfold readGraph readVertices readEdges readAdjMap
    rw [pk.nats.2 gr.vertices hv, pk.edges.2 gr.edges he, pk.adjs.2 gr.adjList ha]
    have hmap : (cellGet h.adjMaps gr.adjList).map
        (fun p => (p.1, cellGet (primMSTH h gr).2.entryArrs p.2)) =
        (cellGet h.adjMaps gr.adjList).map
        (fun p => (p.1, cellGet h.entryArrs p.2)) :=
      List.map_congr_left (fun p hp => by rw [pk.entries.2 p.2 (hent p hp)])
    rw [hmap]

/-- A live two-vertex, one-edge graph object in a five-cell heap. -/
def heapC9 : Heap :=
  { natArrs := [[0, 1]]
    edgeArrs := [[⟨0, 1, 1⟩]]
    entryArrs := [[⟨1, 1⟩], [⟨0, 1⟩]]
    adjMaps := [[(0, 0), (1, 1)]]
    natMaps := []
    boolArrs := []
    itemArrs := [] }

/-- The graph reference for `heapC9`. -/
def grC9 : GraphRef := ⟨0, 0, 0⟩

/-- Witness for C9: on the concrete two-vertex heap, both heap-level
algorithms leave every pre-existing cell, and the graph read back from it,
unchanged. -/
theorem claim_C9_witness :
    (HeapKept heapC9 (kruskalMSTH heapC9 grC9).2 ∧
      readVertices (kruskalMSTH heapC9 grC9).2 grC9 = readVertices heapC9 grC9 ∧
      readEdges (kruskalMSTH heapC9 grC9).2 grC9 = readEdges heapC9 grC9 ∧
      readAdjMap (kruskalMSTH heapC9 grC9).2 grC9 = readAdjMap heapC9 grC9 ∧
      readGraph (kruskalMSTH heapC9 grC9).2 grC9 = readGraph heapC9 grC9) ∧
    (HeapKept heapC9 (primMSTH heapC9 grC9).2 ∧
      readVertices (primMSTH heapC9 grC9).2 grC9 = readVertices heapC9 grC9 ∧
      readEdges (primMSTH heapC9 grC9).2 grC9 = readEdges heapC9 grC9 ∧
      readAdjMap (primMSTH heapC9 grC9).2 grC9 = readAdjMap heapC9 grC9 ∧
      readGraph (primMSTH heapC9 grC9).2 grC9 = readGraph heapC9 grC9) :=
  claim_C9 heapC9 grC9 (by decide) (by decide) (by decide) (by decide)

/-- C5: for every sequence of `enqueue` calls on a fresh `PriorityQueue` the
items obtained by repeatedly calling `dequeue` until the queue is empty
(`drain (buildQueue items)`) come out in non-decreasing order of their
`priority` field and are exactly the enqueued items; `dequeue` on an empty
queue returns no value (`undefined`, modelled as `none`) and leaves the queue
unchanged; and each `dequeue` on a non-empty queue decreases `size()` by
exactly one. -/
theorem claim_C5 (items : List PrimQueueItem) :
    (drain (buildQueue items)).Pairwise (fun a b => a.priority ≤ b.priority) ∧
    (drain (buildQueue items)).Perm items ∧
    (∀ q : PriorityQueue, q.isEmpty = true → q.dequeue = (none, q)) ∧
    (∀ q : PriorityQueue, q.isEmpty = false → q.dequeue.2.size + 1 = q.size) := by
  refine ⟨drain_sorted _ (buildQueue_isHeap items),
    (drain_perm (buildQueue items)).trans (buildQueue_perm items),
    dequeue_of_isEmpty, ?_⟩
  intro q h
  have h1 := dequeue_snd_size q h
  have h2 : 0 < q.size := by
    simp only [PriorityQueue.isEmpty, decide_eq_false_iff_not] at h
    exact Nat.pos_of_ne_zero (by simpa [PriorityQueue.size] using h)
  omega

/-- Closed instance of C5 on a concrete three-element enqueue sequence. -/
theorem claim_C5_witness :
    (drain (buildQueue [⟨5, 0, 10⟩, ⟨2, 1, 11⟩, ⟨7, 2, 12⟩])).Pairwise
        (fun a b => a.priority ≤ b.priority) ∧
    (drain (buildQueue [⟨5, 0, 10⟩, ⟨2, 1, 11⟩, ⟨7, 2, 12⟩])).Perm
        [⟨5, 0, 10⟩, ⟨2, 1, 11⟩, ⟨7, 2, 12⟩] :=
  ⟨(claim_C5 [⟨5, 0, 10⟩, ⟨2, 1, 11⟩, ⟨7, 2, 12⟩]).1,
   (claim_C5 [⟨5, 0, 10⟩, ⟨2, 1, 11⟩, ⟨7, 2, 12⟩]).2.1⟩

/-- The concrete connected 4-vertex path graph used to instantiate C1. -/
def gC1 : Graph :=
  { vertices := [0, 1, 2, 3]
    edges := [⟨0, 1, 1⟩, ⟨1, 2, 2⟩, ⟨2, 3, 3⟩]
    adjList := [(0, [⟨1, 1⟩]), (1, [⟨0, 1⟩, ⟨2, 2⟩]), (2, [⟨1, 2⟩, ⟨3, 3⟩]),
      (3, [⟨2, 3⟩])] }

theorem gC1_wf : WFGraph gC1 :=
  ⟨by decide, by decide, by decide, by decide, by decide⟩

theorem gC1_conn : ConnectedG gC1 := by
  refine ⟨by decide, ?_⟩
  have h01 : (graphOfEdges gC1.edges).Adj 0 1 := by
    rw [graphOfEdges_adj]
    exact ⟨⟨⟨0, 1, 1⟩, by decide, rfl⟩, by decide⟩
  have h12 : (graphOfEdges gC1.edges).Adj 1 2 := by
    rw [graphOfEdges_adj]
    exact ⟨⟨⟨1, 2, 2⟩, by decide, rfl⟩, by decide⟩
  have h23 : (graphOfEdges gC1.edges).Adj 2 3 := by
    rw [graphOfEdges_adj]
    exact ⟨⟨⟨2, 3, 3⟩, by decide, rfl⟩, by decide⟩
  have r01 := h01.reachable
  have r12 := h12.reachable
  have r23 := h23.reachable
  intro u hu v hv
  fin_cases hu <;> fin_cases hv <;>
    first
      | exact SimpleGraph.Reachable.refl _
      | exact r01
      | exact r01.symm
      | exact r12
      | exact r12.symm
      | exact r23
      | exact r23.symm
      | exact r01.trans r12
      | exact (r01.trans r12).symm
      | exact r12.trans r23
      | exact (r12.trans r23).symm
      | exact r01.trans (r12.trans r23)
      | exact (r01.trans (r12.trans r23)).symm

/-- C1: on every connected well-formed weighted graph with `n` vertices, both
`kruskalMST` and `primMST` succeed and return exactly `n - 1` edges, and each
returned edge sequence spans an acyclic graph in which all `n` vertices are
mutually reachable — a spanning tree over the whole vertex set. -/
theorem claim_C1 (g : Graph) (hwf : WFGraph g) (hconn : ConnectedG g) :
    ∃ Tk Tp, kruskalMST g = .ok Tk ∧ primMST g = .ok Tp ∧
      Tk.length + 1 = g.vertices.length ∧ Tp.length + 1 = g.vertices.length ∧
      (graphOfEdges Tk).IsAcyclic ∧ (graphOfEdges Tp).IsAcyclic ∧
      (∀ u ∈ g.vertices, ∀ v ∈ g.vertices,
        (graphOfEdges Tk).Reachable u v ∧ (graphOfEdges Tp).Reachable u v) := by
  obtain ⟨Tk, h1, h2, h3, -, h4, -, -, -⟩ := kruskalMST_spec g hwf hconn
  obtain ⟨Tp, h5, h6, h7, h8, -, -, -⟩ := primMST_spec g hwf hconn
  exact ⟨Tk, Tp, h1, h5, h2, h6, h3, h7, fun u hu v hv => ⟨h4 u hu v hv, h8 u hu v hv⟩⟩

/-- Closed instance of C1 on a concrete connected 4-vertex graph. -/
theorem claim_C1_witness :
    ∃ Tk Tp, kruskalMST gC1 = .ok Tk ∧ primMST gC1 = .ok Tp ∧
      Tk.length + 1 = gC1.vertices.length ∧ Tp.length + 1 = gC1.vertices.length ∧
      (graphOfEdges Tk).IsAcyclic ∧ (graphOfEdges Tp).IsAcyclic ∧
      (∀ u ∈ gC1.vertices, ∀ v ∈ gC1.vertices,
        (graphOfEdges Tk).Reachable u v ∧ (graphOfEdges Tp).Reachable u v) :=
  claim_C1 gC1 gC1_wf gC1_conn

/-- Two disconnected triangles: vertices `0 1 2` and `3 4 5`, edges only
within each triangle. -/
def gTri : Graph :=
  { vertices := [0, 1, 2, 3, 4, 5]
    edges := [⟨0, 1, 1⟩, ⟨1, 2, 2⟩, ⟨0, 2, 3⟩, ⟨3, 4, 4⟩, ⟨4, 5, 5⟩, ⟨3, 5, 6⟩]
    adjList := [(0, [⟨1, 1⟩, ⟨2, 3⟩]), (1, [⟨0, 1⟩, ⟨2, 2⟩]), (2, [⟨1, 2⟩, ⟨0, 3⟩]),
      (3, [⟨4, 4⟩, ⟨5, 6⟩]), (4, [⟨3, 4⟩, ⟨5, 5⟩]), (5, [⟨4, 5⟩, ⟨3, 6⟩])] }

theorem gTri_wf : WFGraph gTri :=
  ⟨by decide, by decide, by decide, by decide, by decide⟩

/-- No edge of `gTri` crosses between the two triangles. -/
theorem gTri_side (x y : ℕ) (h : (graphOfEdges gTri.edges).Reachable x y) :
    (x < 3 ↔ y < 3) :=
  reachable_iff_side gTri.edges (fun v => v < 3) (by decide) x y h

theorem gTri_adj01 : (graphOfEdges gTri.edges).Adj 0 1 := by
  rw [graphOfEdges_adj]
  exact ⟨⟨⟨0, 1, 1⟩, by decide, rfl⟩, by decide⟩

theorem gTri_adj02 : (graphOfEdges gTri.edges).Adj 0 2 := by
  rw [graphOfEdges_adj]
  exact ⟨⟨⟨0, 2, 3⟩, by decide, rfl⟩, by decide⟩

/-- On the two-triangle graph, `primMST` grows only the start triangle: it
returns exactly 2 edges. -/
theorem primMST_gTri : ∃ T, primMST gTri = .ok T ∧ T.length = 2 := by
  obtain ⟨T, visited', pq', hpm, inv', hlen', hstartvis', hexit⟩ :=
    primMST_run gTri gTri_wf (by decide) (by decide)
  have hstart0 : gTri.vertices.getD 0 0 = 0 := rfl
  rw [hstart0] at hstartvis'
  have hside : ∀ v, visB gTri visited' v = true → v < 3 := by
    intro v hv
    have hr := inv'.reach v hv
    rw [hstart0] at hr
    exact (gTri_side 0 v hr).mp (by decide)
  have h3 : visB gTri visited' 3 = false := by
    cases hc : visB gTri visited' 3 with
    | false => rfl
    | true => exact absurd (hside 3 hc) (by decide)
  have h4 : visB gTri visited' 4 = false := by
    cases hc : visB gTri visited' 4 with
    | false => rfl
    | true => exact absurd (hside 4 hc) (by decide)
  have h5 : visB gTri visited' 5 = false := by
    cases hc : visB gTri visited' 5 with
    | false => rfl
    | true => exact absurd (hside 5 hc) (by decide)
  have hfsplit : gTri.vertices.filter (fun v => visB gTri visited' v) =
      ([0, 1, 2] : List ℕ).filter (fun v => visB gTri visited' v) := by
    show (([0, 1, 2] : List ℕ) ++ [3, 4, 5]).filter (fun v => visB gTri visited' v) =
      ([0, 1, 2] : List ℕ).filter (fun v => visB gTri visited' v)
    rw [List.filter_append]
    rw [show (([3, 4, 5] : List ℕ).filter (fun v => visB gTri visited' v)) = [] from by
      simp [List.filter, h3, h4, h5]]
    rw [List.append_nil]
  have hcnt := inv'.count
  have hlen3 : (gTri.vertices.filter (fun v => visB gTri visited' v)).length ≤ 3 := by
    rw [hfsplit]
    exact List.length_filter_le _ _
  have hempty : pq'.heap_array = [] := by
    rcases hexit with h | h
    · exfalso
      apply h
      have h6 : gTri.vertices.length = 6 := rfl
      rw [h6]
      have : T.length ≤ 2 := by omega
      omega
    · exact h
  have h1 : visB gTri visited' 1 = true :=
    visB_closed_of_empty gTri T visited' pq' inv' hempty 0 1 hstartvis'
      gTri_adj01.reachable
  have h2 : visB gTri visited' 2 = true :=
    visB_closed_of_empty gTri T visited' pq' inv' hempty 0 2 hstartvis'
      gTri_adj02.reachable
  have hfval : (([0, 1, 2] : List ℕ).filter (fun v => visB gTri visited' v)) =
      [0, 1, 2] := by
    simp [List.filter, hstartvis', h1, h2]
  have hlenf : (gTri.vertices.filter (fun v => visB gTri visited' v)).length = 3 := by
    rw [hfsplit, hfval]
    rfl
  exact ⟨T, hpm, by omega⟩

/-- On the two-triangle graph, `kruskalMST` returns exactly 4 edges (two per
triangle). -/
theorem kruskalMST_gTri : ∃ T, kruskalMST gTri = .ok T ∧ T.length = 4 := by
  have hperm : (kruskalSortedEdges gTri).Perm gTri.edges := List.mergeSort_perm _ _
  obtain ⟨T, ds', heq, inv', -, hexit⟩ := kruskalGo_spec gTri gTri_wf
    (kruskalSortedEdges gTri) (DisjointSet.ofVertices gTri.vertices) []
    (kruskal_inv0 gTri gTri_wf)
    (fun e he => hperm.subset he) (fun e he => Or.inl (hperm.mem_iff.mpr he))
    (kruskalSortedEdges_sorted gTri)
  have hcount := inv'.hcount
  have h6 : gTri.vertices.length = 6 := rfl
  have hsame03 : ¬ sameSetD ds' 0 3 := by
    intro hss
    have hr := (inv'.hsame 0 (by decide) 3 (by decide)).mp hss
    have hrin : (graphOfEdges gTri.edges).Reachable 0 3 :=
      hr.mono (graphOfEdges_mono (fun e he => inv'.hmem e he))
    exact absurd ((gTri_side 0 3 hrin).mp (by decide)) (by decide)
  obtain ⟨r0, hr0⟩ := inv'.wf.termin 0 (by rw [inv'.hkeys]; decide)
  obtain ⟨r3, hr3⟩ := inv'.wf.termin 3 (by rw [inv'.hkeys]; decide)
  rcases hexit with hlen | hall
  · -- a 5-edge result would mean a single class, merging the two triangles
    exfalso
    have hcard : (rootsFinset ds').card = 1 := by omega
    obtain ⟨a, ha⟩ := Finset.card_eq_one.mp hcard
    have h0m := reaches_root_mem_rootsFinset hr0
    have h3m := reaches_root_mem_rootsFinset hr3
    rw [ha, Finset.mem_singleton] at h0m h3m
    rw [h3m, ← h0m] at hr3
    exact hsame03 ⟨r0, hr0, hr3⟩
  · -- every edge processed: a triangle per class, so exactly two roots remain
    have hss01 := hall ⟨0, 1, 1⟩ (by decide)
    have hss12 := hall ⟨1, 2, 2⟩ (by decide)
    have hss02 := hall ⟨0, 2, 3⟩ (by decide)
    have hss34 := hall ⟨3, 4, 4⟩ (by decide)
    have hss45 := hall ⟨4, 5, 5⟩ (by decide)
    have hss35 := hall ⟨3, 5, 6⟩ (by decide)
    have hr03 : r0 ≠ r3 := by
      intro hc
      exact hsame03 ⟨r0, hr0, hc ▸ hr3⟩
    have hroots : rootsFinset ds' = {r0, r3} := by
      ext r
      rw [Finset.mem_insert, Finset.mem_singleton]
      constructor
      · intro hmem
        have hprop := Finset.mem_filter.mp hmem
        have hrk : r ∈ keys ds'.parent := List.mem_toFinset.mp hprop.1
        have hroot : isRootD ds' r := hprop.2
        rw [inv'.hkeys] at hrk
        rw [show gTri.vertices = [0, 1, 2, 3, 4, 5] from rfl] at hrk
        have hkey0 : (0 : VertexId) ∈ keys ds'.parent := by rw [inv'.hkeys]; decide
        have hkey3 : (3 : VertexId) ∈ keys ds'.parent := by rw [inv'.hkeys]; decide
        fin_cases hrk
        · exact Or.inl (root_eq_of_sameSet hroot (sameSetD.refl' hkey0 inv'.wf) hr0)
        · exact Or.inl (root_eq_of_sameSet hroot hss01.symm hr0)
        · exact Or.inl (root_eq_of_sameSet hroot hss02.symm hr0)
        · exact Or.inr (root_eq_of_sameSet hroot (sameSetD.refl' hkey3 inv'.wf) hr3)
        · exact Or.inr (root_eq_of_sameSet hroot hss34.symm hr3)
        · exact Or.inr (root_eq_of_sameSet hroot hss35.symm hr3)
      · rintro (h | h)
        · rw [h]
          exact reaches_root_mem_rootsFinset hr0
        · rw [h]
          exact reaches_root_mem_rootsFinset hr3
    have hcard : (rootsFinset ds').card = 2 := by
      rw [hroots, Finset.card_insert_of_not_mem (by rw [Finset.mem_singleton]; exact hr03),
        Finset.card_singleton]
    exact ⟨T, heq, by omega⟩

/-- C2, counterexample to the original claim: on the two-disconnected-triangles
graph `gTri`, `primMST` succeeds but returns only 2 edges (a spanning tree of
the triangle containing its start vertex), not the 4 edges the specification
asserts for both algorithms. -/
theorem claim_C2_counterexample :
    ∃ T, primMST gTri = .ok T ∧ T.length = 2 ∧ T.length ≠ 4 := by
  obtain ⟨T, h1, h2⟩ := primMST_gTri
  exact ⟨T, h1, h2, by omega⟩

/-- C2, amended: on the two-disconnected-triangles graph, neither algorithm
raises an error; `kruskalMST` returns exactly 4 edges (2 per triangle), but
`primMST` returns only 2 edges — it covers just the component of its start
vertex and silently ignores the other triangle. -/
theorem claim_C2 :
    (∃ Tk, kruskalMST gTri = .ok Tk ∧ Tk.length = 4) ∧
    (∃ Tp, primMST gTri = .ok Tp ∧ Tp.length = 2) :=
  ⟨kruskalMST_gTri, primMST_gTri⟩

/-- C3: on every connected well-formed graph, `kruskalMST` and `primMST`
return edge lists of equal total weight; if additionally the edge weights are
pairwise distinct, the two functions return the same set of edges up to
direction.  Proof route: every edge either algorithm accepts is the minimal
input edge crossing a cut that respects the partial solution (Kruskal: the
union–find class of the edge's endpoint; Prim: the visited set), so by the
exchange argument the partial solution always extends to a minimum spanning
tree; a full-length output therefore weighs exactly the minimum, which is
unique.  Under distinct weights cut-minimal instances are unique per endpoint
pair, so the two spanning collections of them must coincide. -/
theorem claim_C3 (g : Graph) (hwf : WFGraph g) (hconn : ConnectedG g) :
    ∃ Tk Tp, kruskalMST g = .ok Tk ∧ primMST g = .ok Tp ∧
      (Tk.map (fun e => e.weight)).sum = (Tp.map (fun e => e.weight)).sum ∧
      ((g.edges.map (fun e => e.weight)).Nodup →
        ∀ p : Sym2 ℕ, (∃ e ∈ Tk, s(e.u, e.v) = p) ↔ ∃ e ∈ Tp, s(e.u, e.v) = p) := by
  obtain ⟨Tk, hk1, hklen, hkacyc, hkmem, hkreach, hkcut, hkmst, hkND⟩ :=
    kruskalMST_spec g hwf hconn
  obtain ⟨Tp, hp1, hplen, hpacyc, hpreach, hpwit, hpmst, hpND⟩ :=
    primMST_spec g hwf hconn
  -- both outputs sit inside minimum spanning trees of the same (full) length,
  -- so each weighs exactly the minimum
  have hkSp : IsSpanTree g Tk := ⟨hkmem, hkND, hkacyc, hkreach, hklen⟩
  obtain ⟨M₀, hM₀⟩ := exists_mst g Tk hkSp
  obtain ⟨Mk, hMk, hTkMk⟩ := hkmst M₀ hM₀
  obtain ⟨Mp, hMp, hTpMp⟩ := hpmst M₀ hM₀
  have hkw : (Tk.map (fun e => e.weight)).sum = (Mk.map (fun e => e.weight)).sum :=
    sum_weights_eq_of_pairs Tk Mk hkND hMk.1.2.1
      (by have h1 := hMk.1.2.2.2.2; omega)
      (fun e he => ⟨e, hTkMk e he, rfl, rfl⟩)
  have hpw : (Tp.map (fun e => e.weight)).sum = (Mp.map (fun e => e.weight)).sum :=
    sum_weights_eq_of_pairs Tp Mp hpND hMp.1.2.1
      (by have h1 := hMp.1.2.2.2.2; omega)
      hTpMp
  have hMM : wsum Mk = wsum Mp := mst_wsum_eq hMk hMp
  refine ⟨Tk, Tp, hk1, hp1, ?_, ?_⟩
  · rw [hkw, hpw]
    exact hMM
  intro hdist
  have hbuild : ∀ t : List Edge,
      (∀ e ∈ t, ∃ f ∈ g.edges, s(f.u, f.v) = s(e.u, e.v) ∧ f.weight = e.weight ∧
        IsCutMin g.edges f) →
      ∃ B : List Edge, (∀ b ∈ B, IsCutMin g.edges b) ∧
        B.map (fun e => s(e.u, e.v)) = t.map (fun e => s(e.u, e.v)) ∧
        B.map (fun e => e.weight) = t.map (fun e => e.weight) := by
    intro t
    induction t with
    | nil =>
      intro h
      exact ⟨[], by simp, by simp, by simp⟩
    | cons e t iht =>
      intro h
      obtain ⟨B', h1, h2, h3⟩ := iht (fun e' he' => h e' (List.mem_cons_of_mem _ he'))
      obtain ⟨f, hfE, hfp, hfw, hfcut⟩ := h e (List.mem_cons_self _ _)
      refine ⟨f :: B', ?_, ?_, ?_⟩
      · intro b hb
        rcases List.mem_cons.mp hb with hb' | hb'
        · rw [hb']
          exact hfcut
        · exact h1 b hb'
      · simp only [List.map_cons]
        rw [h2, hfp]
      · simp only [List.map_cons]
        rw [h3, hfw]
  obtain ⟨B, hBcut, hBpair, hBweight⟩ := hbuild Tp hpwit
  have hBconn : ∀ u ∈ g.vertices, ∀ v ∈ g.vertices,
      (graphOfEdges B).Reachable u v := by
    intro u hu v hv
    rw [graphOfEdges_eq_of_map_pair hBpair]
    exact hpreach u hu v hv
  have hBmem : ∀ p : Sym2 ℕ,
      (∃ e ∈ B, s(e.u, e.v) = p) ↔ ∃ e ∈ Tp, s(e.u, e.v) = p := by
    intro p
    constructor
    · rintro ⟨e, he, hp⟩
      have hmm : p ∈ Tp.map (fun e => s(e.u, e.v)) := by
        rw [← hBpair, List.mem_map]
        exact ⟨e, he, hp⟩
      exact List.mem_map.mp hmm
    · rintro ⟨e, he, hp⟩
      have hmm : p ∈ B.map (fun e => s(e.u, e.v)) := by
        rw [hBpair, List.mem_map]
        exact ⟨e, he, hp⟩
      exact List.mem_map.mp hmm
  intro p
  constructor
  · intro hp
    exact (hBmem p).mp (cutMin_pairs_subset g hwf hdist B Tk hBcut hkcut hBconn p hp)
  · intro hp
    exact cutMin_pairs_subset g hwf hdist Tk B hkcut hBcut hkreach p ((hBmem p).mpr hp)

/-- Closed instance of C3 on a concrete connected graph. -/
theorem claim_C3_witness :
    ∃ Tk Tp, kruskalMST gC1 = .ok Tk ∧ primMST gC1 = .ok Tp ∧
      (Tk.map (fun e => e.weight)).sum = (Tp.map (fun e => e.weight)).sum ∧
      ((gC1.edges.map (fun e => e.weight)).Nodup →
        ∀ p : Sym2 ℕ, (∃ e ∈ Tk, s(e.u, e.v) = p) ↔ ∃ e ∈ Tp, s(e.u, e.v) = p) :=
  claim_C3 gC1 gC1_wf gC1_conn

end MstSpec
